import Mathlib

/-!
Verification of the Damgård–Jurik threshold cryptosystem and the ShuffleSum
STV machinery of the `cryptovoting/damgard-jurik` repository.

The Python sources are shallowly embedded:
* machine integers become `Nat`/`Int` (all Python ints here are arbitrary
  precision, so no wrap-around is modelled);
* Python `%` on a positive modulus is `Nat.mod` / `Int.emod`, Python `//`
  is `Int.fdiv` (floor division);
* `pow(a, b, m)` (fast modular exponentiation) becomes the fueled `powMod`;
* raised exceptions and failed `assert`s become `Option.none`;
* random draws (`randbelow`, `randint`, shuffle indices, safe-prime
  candidates) become explicit parameters, with their range guarantees
  carried as hypotheses.

Python `pow(a, b, 0)` raises `ValueError`; the embedded `powMod` is total
and is only ever used (in theorems and concrete evaluations) with a
positive modulus, as in every reachable call of the library.
-/

namespace DJ

/-- Fueled binary modular exponentiation; `powModAux fuel a b m` computes
`a ^ b % m` provided `b ≤ fuel`.  This embeds Python's three-argument
`pow(a, b, m)` for nonnegative exponents. -/
def powModAux : ℕ → ℕ → ℕ → ℕ → ℕ
  | 0, _, _, m => 1 % m
  | fuel + 1, a, b, m =>
    if b = 0 then 1 % m
    else
      let r := powModAux fuel a (b / 2) m
      if b % 2 = 0 then r * r % m else r * r % m * a % m

/-- Python's `pow(a, b, m)` for natural `a b m` (with `m` positive in every
use). -/
def powMod (a b m : ℕ) : ℕ := powModAux b a b m

theorem powModAux_eq (fuel : ℕ) : ∀ a b m : ℕ, b ≤ fuel →
    powModAux fuel a b m = a ^ b % m := by
  induction fuel with
  | zero =>
    intro a b m hb
    interval_cases b
    simp [powModAux]
  | succ fuel ih =>
    intro a b m hb
    rcases Nat.eq_zero_or_pos b with hb0 | hb0
    · subst hb0; simp [powModAux]
    · have hbne : b ≠ 0 := by omega
      have hhalf : b / 2 ≤ fuel := by
        have : b / 2 < b := Nat.div_lt_self hb0 (by norm_num)
        omega
      have hr := ih a (b / 2) m hhalf
      have hsq : a ^ (b / 2) % m * (a ^ (b / 2) % m) % m = a ^ (b / 2 + b / 2) % m := by
        rw [← Nat.mul_mod, pow_add]
      rcases Nat.even_or_odd b with he | ho
      · have hmod : b % 2 = 0 := Nat.even_iff.mp he
        have hb2 : b / 2 + b / 2 = b := by omega
        simp only [powModAux, if_neg hbne, hmod, if_pos rfl, hr, if_true,
          eq_self_iff_true]
        rw [hsq, hb2]
      · have hmod : b % 2 = 1 := Nat.odd_iff.mp ho
        have hb2 : b / 2 + b / 2 + 1 = b := by omega
        simp only [powModAux, if_neg hbne, hmod, if_neg one_ne_zero, hr]
        rw [hsq, Nat.mod_mul_mod, ← pow_succ, hb2]

theorem powMod_eq (a b m : ℕ) : powMod a b m = a ^ b % m :=
  powModAux_eq b a b m le_rfl

/-- Helper: the integer gcd is invariant under subtracting a multiple. -/
theorem int_gcd_sub_mul (a b k : ℤ) : Int.gcd a (b - a * k) = Int.gcd a b := by
  apply Nat.dvd_antisymm
  · have h1 : (↑(Int.gcd a (b - a * k)) : ℤ) ∣ a := Int.gcd_dvd_left
    have h2 : (↑(Int.gcd a (b - a * k)) : ℤ) ∣ b - a * k := Int.gcd_dvd_right
    have hb : (↑(Int.gcd a (b - a * k)) : ℤ) ∣ b := by
      have := dvd_add h2 (Dvd.dvd.mul_right h1 k)
      simpa using this
    exact Int.natCast_dvd_natCast.mp (Int.dvd_gcd h1 hb)
  · have h1 : (↑(Int.gcd a b) : ℤ) ∣ a := Int.gcd_dvd_left
    have h2 : (↑(Int.gcd a b) : ℤ) ∣ b := Int.gcd_dvd_right
    have hb : (↑(Int.gcd a b) : ℤ) ∣ b - a * k :=
      dvd_sub h2 (Dvd.dvd.mul_right h1 k)
    exact Int.natCast_dvd_natCast.mp (Int.dvd_gcd h1 hb)

/-- Fueled version of the `while a != 0` loop of `extended_euclidean` in
`damgard_jurik/utils.py` (state `a b x0 x1 y0 y1`, returning `(x0, y0)`).
Python's `//` and `%` on ints are floor division and floor modulus, i.e.
`Int.fdiv` and `Int.fmod`. -/
def egcdAux : ℕ → ℤ → ℤ → ℤ → ℤ → ℤ → ℤ → ℤ × ℤ
  | 0, _, _, x0, _, y0, _ => (x0, y0)
  | fuel + 1, a, b, x0, x1, y0, y1 =>
    if a = 0 then (x0, y0)
    else egcdAux fuel (b.fmod a) a x1 (x0 - b.fdiv a * x1) y1 (y0 - b.fdiv a * y1)

/-- Embeds `extended_euclidean(a, b)` from `damgard_jurik/utils.py`.  The
fuel `a.natAbs + 1` dominates the loop count because `|b % a| < |a|`
strictly decreases. -/
def extended_euclidean (a b : ℤ) : ℤ × ℤ := egcdAux (a.natAbs + 1) a b 0 1 1 0

theorem egcdAux_spec (A B : ℤ) : ∀ (fuel : ℕ) (a b x0 x1 y0 y1 : ℤ),
    0 ≤ a → a.natAbs < fuel → 0 ≤ b →
    x0 * A + y0 * B = b → x1 * A + y1 * B = a →
    Int.gcd a b = Int.gcd A B →
    (egcdAux fuel a b x0 x1 y0 y1).1 * A + (egcdAux fuel a b x0 x1 y0 y1).2 * B
      = (Int.gcd A B : ℤ) := by
  intro fuel
  induction fuel with
  | zero => intro a b x0 x1 y0 y1 _ hfuel; omega
  | succ fuel ih =>
    intro a b x0 x1 y0 y1 ha hfuel hb h0 h1 hg
    by_cases haz : a = 0
    · subst haz
      simp only [egcdAux, eq_self_iff_true, if_true]
      rw [h0, ← hg, Int.gcd_zero_left, Int.natAbs_of_nonneg hb]
    · simp only [egcdAux, if_neg haz]
      have hapos : 0 < a := lt_of_le_of_ne ha (Ne.symm haz)
      have hfm : b.fmod a = b - a * b.fdiv a := by
        have := Int.fmod_add_fdiv b a
        linarith
      refine ih (b.fmod a) a x1 (x0 - b.fdiv a * x1) y1 (y0 - b.fdiv a * y1)
        ?_ ?_ ?_ ?_ ?_ ?_
      · exact Int.fmod_nonneg hb ha
      · have hlt : b.fmod a < a := Int.fmod_lt_of_pos b hapos
        have hnn : 0 ≤ b.fmod a := Int.fmod_nonneg hb ha
        omega
      · exact ha
      · exact h1
      · rw [hfm]; linear_combination h0 - b.fdiv a * h1
      · rw [hfm, Int.gcd_comm (b - a * b.fdiv a) a, int_gcd_sub_mul, hg]

/-- Embeds `inv_mod(a, m)` from `damgard_jurik/utils.py` (identical code in
`cryptovote/utils.py`, whose recursive `extended_euclidean` returns the same
canonical inverse in `[0, m)`): the raised exception on a non-coprime pair
becomes `none`. -/
def inv_mod (a m : ℤ) : Option ℤ :=
  let a' := if a < 0 then m + a else a
  if Int.gcd a' m ≠ 1 then none
  else some ((extended_euclidean a' m).1 % m)

theorem inv_mod_spec {a m v : ℤ} (hm : 0 < m) (ha : -m ≤ a)
    (h : inv_mod a m = some v) : a * v ≡ 1 [ZMOD m] ∧ 0 ≤ v ∧ v < m := by
  set a' : ℤ := if a < 0 then m + a else a with ha'
  by_cases hg : Int.gcd a' m = 1
  case neg => simp [inv_mod, ← ha', hg] at h
  case pos =>
    have hv : v = (extended_euclidean a' m).1 % m := by
      simp [inv_mod, ← ha', hg] at h
      exact h.symm
    have ha'nn : 0 ≤ a' := by
      rw [ha']; split <;> omega
    have hbez : (extended_euclidean a' m).1 * a' + (extended_euclidean a' m).2 * m
        = (Int.gcd a' m : ℤ) :=
      egcdAux_spec a' m (a'.natAbs + 1) a' m 0 1 1 0 ha'nn
        (Nat.lt_succ_self _) (le_of_lt hm) (by ring) (by ring) rfl
    rw [hg] at hbez
    push_cast at hbez
    have hmod : a' * v ≡ 1 [ZMOD m] := by
      rw [hv]
      calc a' * ((extended_euclidean a' m).1 % m)
          ≡ a' * (extended_euclidean a' m).1 [ZMOD m] :=
            Int.ModEq.mul_left a' (Int.emod_emod_of_dvd _ dvd_rfl)
        _ ≡ 1 [ZMOD m] := by
            have heq : a' * (extended_euclidean a' m).1
                = 1 - m * (extended_euclidean a' m).2 := by linarith
            rw [heq]
            unfold Int.ModEq
            simp [Int.sub_emod, Int.mul_emod_right]
    have haa' : a ≡ a' [ZMOD m] := by
      rw [ha']; split
      · unfold Int.ModEq
        rw [add_comm]
        exact (Int.add_mul_emod_self_left a m 1).symm ▸ by rw [mul_one]
      · rfl
    refine ⟨(haa'.mul_right v).trans hmod, ?_, ?_⟩
    · rw [hv]; exact Int.emod_nonneg _ (ne_of_gt hm)
    · rw [hv]; exact Int.emod_lt_of_pos _ hm

theorem inv_mod_isSome {a m : ℤ} (hm : 0 < m) (hg : Int.gcd a m = 1) :
    (inv_mod a m).isSome := by
  have hg' : Int.gcd (if a < 0 then m + a else a) m = 1 := by
    split
    · have h1 : Int.gcd m (m + a) = Int.gcd m a := by
        have := int_gcd_sub_mul m (m + a) 1
        simp only [mul_one, add_sub_cancel_left] at this
        exact this.symm
      rw [Int.gcd_comm, h1, Int.gcd_comm]
      exact hg
    · exact hg
  simp [inv_mod, hg']

/-- Python list comprehension with a fallible body: `none` as soon as one
element fails (as the corresponding list comprehension raises). -/
def mapO {α β : Type} (f : α → Option β) : List α → Option (List β)
  | [] => some []
  | a :: l =>
    match f a, mapO f l with
    | some b, some bs => some (b :: bs)
    | _, _ => none

theorem mapO_eq_some {α β : Type} {f : α → Option β} :
    ∀ {l : List α} {out : List β}, mapO f l = some out →
      out.length = l.length ∧
        ∀ k (hk : k < l.length) (hk2 : k < out.length),
          f (l.get ⟨k, hk⟩) = some (out.get ⟨k, hk2⟩) := by
  intro l
  induction l with
  | nil =>
    intro out h
    simp only [mapO, Option.some_inj] at h
    subst h
    exact ⟨rfl, fun k hk => by simp at hk⟩
  | cons a l ih =>
    intro out h
    simp only [mapO] at h
    rcases hfa : f a with _ | b
    · rw [hfa] at h; cases hrest : mapO f l <;> rw [hrest] at h <;> simp at h
    · rw [hfa] at h
      rcases hrest : mapO f l with _ | bs
      · rw [hrest] at h; simp at h
      · rw [hrest] at h
        simp only [Option.some_inj] at h
        subst h
        obtain ⟨hlen, helt⟩ := ih hrest
        refine ⟨by simp [hlen], ?_⟩
        intro k hk hk2
        match k with
        | 0 => simpa using hfa
        | k + 1 =>
          simp only [List.get_cons_succ]
          exact helt k (by simpa using hk) (by simpa using hk2)

theorem mapO_isSome {α β : Type} {f : α → Option β} :
    ∀ {l : List α}, (∀ a ∈ l, (f a).isSome) → (mapO f l).isSome := by
  intro l
  induction l with
  | nil => intro _; simp [mapO]
  | cons a l ih =>
    intro h
    have ha : (f a).isSome := h a (by simp)
    have hl : (mapO f l).isSome := ih (fun x hx => h x (by simp [hx]))
    rcases Option.isSome_iff_exists.mp ha with ⟨b, hb⟩
    rcases Option.isSome_iff_exists.mp hl with ⟨bs, hbs⟩
    simp [mapO, hb, hbs]

theorem list_sum_modEq (n : ℤ) : ∀ (l : List ℤ) (i : ℕ) (hi : i < l.length),
    (∀ k (hk : k < l.length), k ≠ i → n ∣ l.get ⟨k, hk⟩) →
    l.sum ≡ l.get ⟨i, hi⟩ [ZMOD n] := by
  intro l
  induction l with
  | nil => intro i hi; simp at hi
  | cons a l ih =>
    intro i hi hdvd
    match i with
    | 0 =>
      have htail : n ∣ l.sum := by
        apply List.dvd_sum
        intro x hx
        rcases List.get_of_mem hx with ⟨⟨k, hk⟩, rfl⟩
        exact hdvd (k + 1) (by simpa using hk) (by omega)
      simp only [List.sum_cons, List.get_cons_zero]
      calc a + l.sum ≡ a + 0 [ZMOD n] :=
            Int.ModEq.add_left a ((Int.modEq_zero_iff_dvd).mpr htail)
        _ = a := by ring
    | i + 1 =>
      have hhead : n ∣ a := hdvd 0 (by simp) (by omega)
      have htail := ih i (by simpa using hi)
        (fun k hk hne => hdvd (k + 1) (by simpa using hk) (by omega))
      simp only [List.sum_cons, List.get_cons_succ]
      calc a + l.sum ≡ 0 + l.sum [ZMOD n] :=
            Int.ModEq.add_right l.sum ((Int.modEq_zero_iff_dvd).mpr hhead)
        _ = l.sum := by ring
        _ ≡ _ [ZMOD n] := htail

theorem prod_eraseIdx_int : ∀ (l : List ℤ) (k : ℕ) (hk : k < l.length),
    l.prod = l.get ⟨k, hk⟩ * (l.eraseIdx k).prod := by
  intro l
  induction l with
  | nil => intro k hk; simp at hk
  | cons a l ih =>
    intro k hk
    match k with
    | 0 => simp
    | k + 1 =>
      have := ih k (by simpa using hk)
      simp only [List.prod_cons, List.eraseIdx_cons_succ, List.get_cons_succ]
      rw [this]
      ring

theorem get_mem_eraseIdx : ∀ (l : List ℤ) (k i : ℕ) (hi : i < l.length),
    i ≠ k → l.get ⟨i, hi⟩ ∈ l.eraseIdx k := by
  intro l
  induction l with
  | nil => intro k i hi; simp at hi
  | cons a l ih =>
    intro k i hi hne
    match k, i with
    | 0, 0 => omega
    | 0, i + 1 => simpa using List.get_mem l _
    | k + 1, 0 => simp
    | k + 1, i + 1 =>
      simp only [List.get_cons_succ, List.eraseIdx_cons_succ, List.mem_cons]
      exact Or.inr (ih k i (by simpa using hi) (by omega))

theorem isCoprime_list_prod {n : ℤ} : ∀ {l : List ℤ},
    (∀ x ∈ l, IsCoprime x n) → IsCoprime l.prod n := by
  intro l
  induction l with
  | nil => intro _; simpa using isCoprime_one_left
  | cons a l ih =>
    intro h
    rw [List.prod_cons]
    exact IsCoprime.mul_left (h a (by simp)) (ih (fun x hx => h x (by simp [hx])))

/-- Embeds `prod(nums)` from `damgard_jurik/utils.py`. -/
def prodI (l : List ℤ) : ℤ := l.foldl (· * ·) 1

theorem prodI_eq (l : List ℤ) : prodI l = l.prod := List.prod_eq_foldl.symm

/-- Embeds `crm(a_list, n_list)` from `damgard_jurik/utils.py` (the same
function appears verbatim in `cryptovote/utils.py`): Chinese remaindering
without any final reduction of the sum. -/
def crm (a_list n_list : List ℤ) : Option ℤ :=
  let N := prodI n_list
  let y_list := n_list.map (fun n_i => N.fdiv n_i)
  (mapO (fun p => inv_mod p.1 p.2) (y_list.zip n_list)).map (fun z_list =>
    (((a_list.zip y_list).zip z_list).map (fun p => p.1.1 * p.1.2 * p.2)).sum)

theorem crm_spec {a_list n_list : List ℤ}
    (hlen : a_list.length = n_list.length)
    (hpos : ∀ n ∈ n_list, 0 < n)
    (hcop : n_list.Pairwise IsCoprime) :
    ∃ x, crm a_list n_list = some x ∧
      ∀ i (hi : i < n_list.length) (hi2 : i < a_list.length),
        x ≡ a_list[i] [ZMOD n_list[i]] := by
  classical
  have hco_get : ∀ i j (hi : i < n_list.length) (hj : j < n_list.length), i ≠ j →
      IsCoprime n_list[i] n_list[j] := by
    intro i j hi hj hne
    rcases Nat.lt_or_ge i j with h | h
    · simpa using List.pairwise_iff_get.mp hcop ⟨i, hi⟩ ⟨j, hj⟩ (Fin.mk_lt_mk.mpr h)
    · have := List.pairwise_iff_get.mp hcop ⟨j, hj⟩ ⟨i, hi⟩ (Fin.mk_lt_mk.mpr (by omega))
      simpa using this.symm
  set N := prodI n_list with hN
  set y_list := n_list.map (fun n_i => N.fdiv n_i) with hy
  clear_value N
  have hylen : y_list.length = n_list.length := by simp [hy]
  have hyget : ∀ k (hk : k < n_list.length) (hk2 : k < y_list.length),
      y_list[k] = (n_list.eraseIdx k).prod := by
    intro k hk hk2
    have hsplit : n_list.prod = n_list[k] * (n_list.eraseIdx k).prod := by
      simpa using prod_eraseIdx_int n_list k hk
    have hnk : n_list[k] ≠ 0 := ne_of_gt (hpos _ (List.getElem_mem hk))
    simp only [hy, List.getElem_map]
    have h1 : N = n_list[k] * (n_list.eraseIdx k).prod := by
      rw [hN, prodI_eq]; exact hsplit
    exact (congrArg (fun t : ℤ => t.fdiv n_list[k]) h1).trans
      (Int.mul_fdiv_cancel_left _ hnk)
  have herasepos : ∀ k, 0 < (n_list.eraseIdx k).prod := by
    intro k
    exact List.prod_pos (fun x hx => hpos x (List.mem_of_mem_eraseIdx hx))
  have herasecop : ∀ k (hk : k < n_list.length),
      IsCoprime ((n_list.eraseIdx k).prod) n_list[k] := by
    intro k hk
    apply isCoprime_list_prod
    intro x hx
    rcases List.mem_iff_getElem.mp hx with ⟨j, hj, rfl⟩
    have hjlen : j < n_list.length - 1 := by
      have := hj
      rwa [List.length_eraseIdx, if_pos hk] at this
    rw [List.getElem_eraseIdx]
    split
    · exact hco_get _ _ (by omega) hk (by omega)
    · exact hco_get _ _ (by omega) hk (by omega)
  have hsome : (mapO (fun p => inv_mod p.1 p.2) (y_list.zip n_list)).isSome := by
    apply mapO_isSome
    intro p hp
    rcases List.mem_iff_getElem.mp hp with ⟨k, hk, rfl⟩
    have hk1 : k < y_list.length := by
      have := hk; rw [List.length_zip] at this; omega
    have hk2 : k < n_list.length := by
      have := hk; rw [List.length_zip] at this; omega
    rw [List.getElem_zip]
    apply inv_mod_isSome (hpos _ (List.getElem_mem hk2))
    rw [hyget k hk2 hk1]
    exact Int.isCoprime_iff_gcd_eq_one.mp (herasecop k hk2)
  rcases Option.isSome_iff_exists.mp hsome with ⟨z_list, hz⟩
  obtain ⟨hzlen, hzget⟩ := mapO_eq_some hz
  have hzlen' : z_list.length = n_list.length := by
    rw [hzlen, List.length_zip, hylen]; omega
  set T := ((a_list.zip y_list).zip z_list).map (fun p => p.1.1 * p.1.2 * p.2)
    with hT
  have hTlen : T.length = n_list.length := by
    simp only [hT, List.length_map, List.length_zip, hylen, hlen, hzlen']
    omega
  have hcrm : crm a_list n_list = some T.sum := by
    simp only [crm]
    rw [← hN, ← hy, hz]
    rfl
  refine ⟨T.sum, hcrm, ?_⟩
  intro i hi hi2
  have hTi : i < T.length := by omega
  have hTget : ∀ k (hk : k < T.length) (h1 : k < a_list.length)
      (h2 : k < y_list.length) (h3 : k < z_list.length),
      T[k] = a_list[k] * y_list[k] * z_list[k] := by
    intro k hk h1 h2 h3
    simp only [hT, List.getElem_map, List.getElem_zip]
  have hdvd : ∀ k (hk : k < T.length), k ≠ i → n_list[i] ∣ T.get ⟨k, hk⟩ := by
    intro k hk hne
    have hka : k < a_list.length := by omega
    have hky : k < y_list.length := by omega
    have hkz : k < z_list.length := by omega
    have hkn : k < n_list.length := by omega
    rw [List.get_eq_getElem, hTget k hk hka hky hkz]
    have hdy : n_list[i] ∣ y_list[k] := by
      rw [hyget k hkn hky]
      have := get_mem_eraseIdx n_list k i hi (by omega)
      rw [List.get_eq_getElem] at this
      exact List.dvd_prod this
    exact Dvd.dvd.mul_right (Dvd.dvd.mul_left hdy _) _
  have hsum : T.sum ≡ T.get ⟨i, hTi⟩ [ZMOD n_list[i]] :=
    list_sum_modEq _ T i hTi hdvd
  have hyi : i < y_list.length := by omega
  have hzi : i < z_list.length := by omega
  have hinv : inv_mod y_list[i] n_list[i] = some z_list[i] := by
    have hzip : i < (y_list.zip n_list).length := by
      rw [List.length_zip]; omega
    have := hzget i hzip (by omega)
    rw [List.get_eq_getElem, List.get_eq_getElem, List.getElem_zip] at this
    exact this
  have hprodinv := (inv_mod_spec (hpos _ (List.getElem_mem hi))
    (by
      rw [hyget i hi hyi]
      have h1 := herasepos i
      have h2 := hpos _ (List.getElem_mem hi)
      omega) hinv).1
  calc T.sum ≡ T.get ⟨i, hTi⟩ [ZMOD _] := hsum
    _ = a_list[i] * (y_list[i] * z_list[i]) := by
        rw [List.get_eq_getElem, hTget i hTi (by omega) hyi hzi]; ring
    _ ≡ a_list[i] * 1 [ZMOD _] := Int.ModEq.mul_left _ hprodinv
    _ = a_list[i] := by ring

/-! ## Shamir secret sharing (`damgard_jurik/shamir.py`) -/

/-- Embeds `Polynomial.__call__` from `damgard_jurik/shamir.py`
(`cryptovote/shamir.py` computes the same folded value). -/
def polyEval (coeffs : List ℕ) (modulus : ℕ) (x : ℕ) : ℕ :=
  coeffs.enum.foldl
    (fun f_x p => (f_x + p.2 * powMod x p.1 modulus % modulus) % modulus) 0

/-- Embeds `share_secret` from `damgard_jurik/shamir.py`; `draws` is the list
of `randbelow(modulus)` draws for the `threshold - 1` random coefficients
(each lies in `[0, modulus)` by construction of `randbelow`).  The Python
check `0 <= secret` is automatic for `ℕ`. -/
def share_secret (secret modulus threshold n_shares : ℕ) (draws : List ℕ) :
    Option (List (ℕ × ℕ)) :=
  if ¬secret < modulus then none
  else if n_shares < threshold then none
  else if threshold < 1 then none
  else
    let coeffs := secret :: draws
    some ((List.range' 1 n_shares).map (fun x => (x, polyEval coeffs modulus x)))

/-- Pairs every list element with the remaining elements (in order); this
renders Python's `for i ... for j ... if i != j` double loop. -/
def pickEach {α : Type} : List α → List (α × List α)
  | [] => []
  | a :: l => (a, l) :: (pickEach l).map (fun p => (p.1, a :: p.2))

/-- Inner loop of `reconstruct` from `damgard_jurik/shamir.py`: the running
Lagrange basis value `Π x_j · (x_j − x_i)⁻¹ mod modulus`. -/
def lagrangeProduct (modulus x_i : ℤ) (others : List ℤ) : Option ℤ :=
  others.foldlM (fun product x_j =>
    (inv_mod (x_j - x_i) modulus).map (fun w => product * x_j * w % modulus)) 1

/-- Embeds `reconstruct(shares, modulus)` from `damgard_jurik/shamir.py`. -/
def reconstruct (shares : List (ℤ × ℤ)) (modulus : ℤ) : Option ℤ :=
  (pickEach shares).foldlM (fun secret p =>
    (lagrangeProduct modulus p.1.1 (p.2.map Prod.fst)).map
      (fun product => (secret + p.1.2 * product % modulus) % modulus)) 0

/-! ## The Damgård–Jurik classes (`damgard_jurik/damgard_jurik.py`)

Ciphertext and share values are embedded as naturals: every value the
library constructs is a Python `%`-result, hence nonnegative (the spec's
data model has `value ∈ Z*_{n^{s+1}}`). -/

/-- Embeds `PublicKey.__init__`; `n_s`, `n_s_1`, `n_s_m` are the
pre-computations, and `__eq__`/`__hash__` compare exactly these fields. -/
structure PublicKey where
  n : ℕ
  s : ℕ
  m : ℕ
  threshold : ℕ
  delta : ℕ
deriving DecidableEq

def PublicKey.n_s (pk : PublicKey) : ℕ := pk.n ^ pk.s

def PublicKey.n_s_1 (pk : PublicKey) : ℕ := pk.n_s * pk.n

def PublicKey.n_s_m (pk : PublicKey) : ℕ := pk.n_s * pk.m

/-- Embeds `EncryptedNumber.__init__`. -/
structure EncryptedNumber where
  value : ℕ
  public_key : PublicKey
deriving DecidableEq

/-- Embeds `PublicKey.encrypt`; `r` is the draw `randbelow(n - 1) + 1`,
so a caller guarantees `1 ≤ r < n`. -/
def PublicKey.encrypt (pk : PublicKey) (m r : ℕ) : EncryptedNumber :=
  ⟨powMod (pk.n + 1) m pk.n_s_1 * powMod r pk.n_s pk.n_s_1 % pk.n_s_1, pk⟩

/-- Embeds `EncryptedNumber.__add__` (the `isinstance` check is rendered by
the typing); the `ValueError` on a key mismatch becomes `none`. -/
def EncryptedNumber.add (self other : EncryptedNumber) : Option EncryptedNumber :=
  if self.public_key ≠ other.public_key then none
  else some ⟨self.value * other.value % self.public_key.n_s_1, self.public_key⟩

/-- Embeds `EncryptedNumber.__sub__`: the key check fires before the modular
inversion of `other.value`, then `__add__` is called on the inverse. -/
def EncryptedNumber.sub (self other : EncryptedNumber) : Option EncryptedNumber :=
  if self.public_key ≠ other.public_key then none
  else
    (inv_mod (other.value : ℤ) (other.public_key.n_s_1 : ℤ)).bind (fun w =>
      some ⟨self.value * w.toNat % self.public_key.n_s_1, self.public_key⟩)

/-- Embeds `PrivateKeyShare.__init__`. -/
structure PrivateKeyShare where
  public_key : PublicKey
  i : ℕ
  s_i : ℕ
deriving DecidableEq

def PrivateKeyShare.two_delta_s_i (sh : PrivateKeyShare) : ℕ :=
  2 * sh.public_key.delta * sh.s_i

/-- Embeds `PrivateKeyShare.decrypt` (a partial decryption). -/
def PrivateKeyShare.decrypt (sh : PrivateKeyShare) (c : EncryptedNumber) : ℕ :=
  powMod c.value sh.two_delta_s_i sh.public_key.n_s_1

/-- Iteration `k` of the inner loop of `damgard_jurik_reduce`, on the state
`(i, t_2, t_1)`: `i -= 1`, `t_2 = t_2 * i % n^j`, and `t_1` loses
`t_2 · n^(k-1) · fact(k)⁻¹ mod n^j`. -/
def innerStep (n : ℕ) (nj : ℤ) (st : ℤ × ℤ × ℤ) (k : ℕ) : Option (ℤ × ℤ × ℤ) :=
  (inv_mod (k.factorial : ℤ) nj).map (fun w =>
    let ip := st.1 - 1
    let t2 := st.2.1 * ip % nj
    (ip, t2, st.2.2 - t2 * (n : ℤ) ^ (k - 1) * w % nj))

/-- Iteration `j` of the outer loop of `damgard_jurik_reduce`: the `assert`
inside `L` becomes `none`; the inner loop runs over `k = 2 .. j`. -/
def reduceStep (n a : ℕ) (j : ℕ) (i : ℤ) : Option ℤ :=
  let nj : ℤ := (n : ℤ) ^ j
  let b : ℕ := a % n ^ (j + 1)
  if ((b : ℤ) - 1) % (n : ℤ) ≠ 0 then none
  else
    ((List.range' 2 (j - 1)).foldlM (innerStep n nj)
      (i, i, ((b : ℤ) - 1).fdiv (n : ℤ))).map (fun st => st.2.2)

/-- Embeds `damgard_jurik_reduce(a, s, n)` (identical function in both
`damgard_jurik` and `cryptovote`): recovers `i` from
`a = (1 + n)^i (mod n^(s+1))`. -/
def reduce (a s n : ℕ) : Option ℤ :=
  (List.range' 1 s).foldlM (fun i j => reduceStep n a j i) 0

/-- Embeds the `PrivateKeyRing` object: the fields set by a successful
`__init__`. -/
structure PrivateKeyRing where
  public_key : PublicKey
  private_key_shares : List PrivateKeyShare
  inv_four_delta_squared : ℤ
deriving DecidableEq

def PrivateKeyRing.i_list (ring : PrivateKeyRing) : List ℕ :=
  ring.private_key_shares.map (·.i)

/-- Embeds `PrivateKeyRing.__init__`: the checks, the deduplication of the
share list (`set(private_key_shares)` deduplicates by full share equality,
not by index), the truncation to `threshold` shares, and the `(4Δ²)⁻¹ mod
nˢ` pre-computation.  Which members survive `list(set(...))[:threshold]` is
CPython-iteration-order dependent; the model keeps first occurrences, and
every theorem about decryption quantifies over the kept shares. -/
def mkPrivateKeyRing (private_key_shares : List PrivateKeyShare) :
    Option PrivateKeyRing :=
  match private_key_shares with
  | [] => none
  | sh :: _ =>
    if ((private_key_shares.map (·.public_key)).dedup.length > 1) then none
    else
      let pk := sh.public_key
      let uniq := private_key_shares.dedup
      if uniq.length < pk.threshold then none
      else
        (inv_mod (4 * (pk.delta : ℤ) ^ 2) (pk.n_s : ℤ)).map (fun w =>
          ⟨pk, uniq.take pk.threshold, w⟩)

/-- Embeds the `lam` function inside `PrivateKeyRing.decrypt`: the product
over `S' = S \ {i}` (the set `S` of distinct share indices) computed
`mod nˢ·m`.  The fold value is iteration-order independent, so the model
folds over the deduplicated index list. -/
def PrivateKeyRing.lam (ring : PrivateKeyRing) (i : ℕ) : Option ℤ :=
  (ring.i_list.dedup.filter (fun ip => ip ≠ i)).foldlM
    (fun (l : ℤ) (ip : ℕ) =>
      (inv_mod ((ip : ℤ) - (i : ℤ)) (ring.public_key.n_s_m : ℤ)).map
        (fun w => l * (ip : ℤ) * w % (ring.public_key.n_s_m : ℤ)))
    ((ring.public_key.delta : ℤ) % (ring.public_key.n_s_m : ℤ))

/-- Embeds `PrivateKeyRing.decrypt`: partial decryptions, combination with
the `2·λ_i` exponents, `damgard_jurik_reduce`, and the final multiplication
by `(4Δ²)⁻¹ mod nˢ`. -/
def PrivateKeyRing.decrypt (ring : PrivateKeyRing) (c : EncryptedNumber) :
    Option ℤ :=
  let K := ring.public_key.n_s_1
  let c_list := ring.private_key_shares.map (fun sh => sh.decrypt c)
  ((c_list.zip ring.i_list).foldlM (fun cp p =>
      (ring.lam p.2).map (fun li => cp * powMod p.1 (2 * li).toNat K % K)) 1).bind
    (fun cp => (reduce cp ring.public_key.s ring.public_key.n).map
      (fun v => v * ring.inv_four_delta_squared % (ring.public_key.n_s : ℤ)))

/-- Embeds `keygen` from `damgard_jurik/damgard_jurik.py`.  The safe primes
`p, q` stand for the `gen_safe_prime_pair(n_bits)` draw (their safe-prime
and bit-length guarantees are hypotheses of the theorems), and `draws` for
the Shamir coefficient draws. -/
def keygen (n_bits s threshold n_shares : ℕ) (p q : ℕ) (draws : List ℕ) :
    Option (PublicKey × PrivateKeyRing) :=
  if n_bits < 16 then none
  else if s < 1 then none
  else if n_shares < threshold then none
  else if threshold < 1 then none
  else
    let p' := (p - 1) / 2
    let q' := (q - 1) / 2
    let n := p * q
    let m := p' * q'
    let n_s := n ^ s
    let n_s_m := n_s * m
    (crm [0, 1] [(m : ℤ), (n_s : ℤ)]).bind (fun d =>
      (share_secret d.toNat n_s_m threshold n_shares draws).bind (fun shares =>
        let delta := n_shares.factorial
        let pk : PublicKey := ⟨n, s, m, threshold, delta⟩
        (mkPrivateKeyRing (shares.map (fun sh => ⟨pk, sh.1, sh.2⟩))).map
          (fun ring => (pk, ring))))

/-! ## The cryptovote variant (`cryptovote/damgard_jurik.py`)

The `PublicKey`, `EncryptedNumber` and `damgard_jurik_reduce` code there is
identical to the `damgard_jurik` package, so those embeddings are shared;
`cryptovote/utils.py`'s `inv_mod` (recursive extended Euclid) returns the
same canonical inverse in `[0, m)` and shares `inv_mod`. -/

/-- Embeds `PrivateKeyShare.__init__` of `cryptovote/damgard_jurik.py`
(which, unlike the `damgard_jurik` one, stores its own `delta`). -/
structure PrivateKeyShareCV where
  public_key : PublicKey
  i : ℕ
  s_i : ℕ
  delta : ℕ
deriving DecidableEq

def PrivateKeyShareCV.two_delta_s_i (sh : PrivateKeyShareCV) : ℕ :=
  2 * sh.delta * sh.s_i

/-- Embeds `PrivateKeyShare.decrypt` of `cryptovote/damgard_jurik.py`. -/
def PrivateKeyShareCV.decrypt (sh : PrivateKeyShareCV) (c : EncryptedNumber) : ℕ :=
  powMod c.value sh.two_delta_s_i sh.public_key.n_s_1

/-- Loop of `get_unique_private_key_shares` with the accumulated `i_set`. -/
def getUniqueAux : List PrivateKeyShareCV → List ℕ → List PrivateKeyShareCV
  | [], _ => []
  | sh :: rest, seen =>
    if sh.i ∈ seen then getUniqueAux rest seen
    else sh :: getUniqueAux rest (sh.i :: seen)

/-- Embeds `get_unique_private_key_shares`: keeps the first share for each
index `i`. -/
def get_unique_private_key_shares (l : List PrivateKeyShareCV) :
    List PrivateKeyShareCV :=
  getUniqueAux l []

/-- Embeds the `lam` function inside `threshold_decrypt` (`S` is the list of
selected distinct indices; the set-product is iteration-order
independent). -/
def lamCV (pk : PublicKey) (S : List ℕ) (i : ℕ) : Option ℤ :=
  ((S.filter (fun ip => ip ≠ i))).foldlM
    (fun (l : ℤ) (ip : ℕ) =>
      (inv_mod ((ip : ℤ) - (i : ℤ)) (pk.n_s_m : ℤ)).map
        (fun w => l * (ip : ℤ) * w % (pk.n_s_m : ℤ)))
    ((pk.delta : ℤ) % (pk.n_s_m : ℤ))

/-- Embeds `threshold_decrypt(c, private_key_shares)` of
`cryptovote/damgard_jurik.py`: deduplicate by index, reject below the
threshold, keep the first `threshold` shares, combine, reduce, and divide
by `4Δ²`. -/
def threshold_decrypt (c : EncryptedNumber)
    (private_key_shares : List PrivateKeyShareCV) : Option ℤ :=
  let pk := c.public_key
  let uniq := get_unique_private_key_shares private_key_shares
  if ¬uniq.length ≥ pk.threshold then none
  else
    let sel := uniq.take pk.threshold
    let S := sel.map (·.i)
    let c_list := sel.map (·.decrypt c)
    let i_list := sel.map (·.i)
    ((c_list.zip i_list).foldlM (fun cp p =>
        (lamCV pk S p.2).map
          (fun li => cp * powMod p.1 (2 * li).toNat pk.n_s_1 % pk.n_s_1)) 1).bind
      (fun cp => (reduce cp pk.s pk.n).bind (fun v =>
        (inv_mod (4 * (pk.delta : ℤ) ^ 2) (pk.n_s : ℤ)).map (fun w =>
          v * w % (pk.n_s : ℤ))))

/-! ## Prime generation (`cryptovote/prime_gen.py`) -/

/-- Embeds `is_prime(p)` of `cryptovote/prime_gen.py`: a Fermat test at the
fixed bases `2..9` (Python `range(2, 10)`), not Miller–Rabin. -/
def is_prime (p : ℕ) : Bool :=
  (List.range' 2 8).all (fun a => powMod a (p - 1) p = 1)

/-- Embeds `gen_safe_prime(b)` of `cryptovote/prime_gen.py` with the
`randint(2^(b-2), 2^(b-1)-1)` draws of the inner `gen_prime(b - 1)` made
explicit: the chain of rejections collapses the two nested `while True`
loops into one recursion over the draw list (each candidate `q` is tested
by `gen_prime`, re-tested by `gen_safe_prime`, then `2q+1` is tested). -/
def gen_safe_prime (b : ℕ) : List ℕ → Option ℕ
  | [] => none
  | d :: rest =>
    if is_prime d then
      if is_prime (2 * d + 1) then some (2 * d + 1)
      else gen_safe_prime b rest
    else gen_safe_prime b rest

/-! ## The elimination choice in `stv_tally` (`cryptovote/protocols.py`) -/

/-- Embeds the argmin loop of `stv_tally`'s elimination branch
(`for j in range(len(c_rem)): ... if i is None or tallies[j] < tallies[i]`).
Indexing uses `getD`; every access is in bounds when
`tallies.length = c_rem.length`, as `stv_tally` guarantees. -/
def selectMinTally (c_rem : List ℕ) (tallies : List ℤ) (stop_candidate : ℕ) :
    Option ℕ :=
  (List.range c_rem.length).foldl
    (fun i j =>
      if c_rem.getD j 0 = stop_candidate then i
      else
        match i with
        | none => some j
        | some i0 => if tallies.getD j 0 < tallies.getD i0 0 then some j else i)
    none

/-! ## Claim theorems: crm, key mismatch, ring construction, prime
generation, elimination choice -/

/-- C5 counterexample: `crm([1, 1], [3, 5])` returns `16`, which satisfies
the congruences but is not the unique solution in `[0, 3·5) = [0, 15)` —
`crm` never reduces its sum modulo the product. -/
theorem crm_value_exceeds_product :
    crm [1, 1] [3, 5] = some 16 ∧ prodI [3, 5] = 15 ∧ ¬(16 : ℤ) < 15 := by
  refine ⟨by decide, by decide, by decide⟩

/-- C5 (amended): for pairwise-coprime positive moduli `n_i` (and as many
residues as moduli), `crm` returns an integer `x` with `x ≡ a_i (mod n_i)`
for every `i`; the result need not lie in `[0, ∏ n_i)`. -/
theorem crm_solves_congruences {a_list n_list : List ℤ}
    (hlen : a_list.length = n_list.length)
    (hpos : ∀ n ∈ n_list, 0 < n)
    (hcop : n_list.Pairwise (fun x y => Int.gcd x y = 1)) :
    ∃ x, crm a_list n_list = some x ∧
      ∀ i (hi : i < n_list.length) (hi2 : i < a_list.length),
        x ≡ a_list[i] [ZMOD n_list[i]] :=
  crm_spec hlen hpos (hcop.imp (fun h => Int.isCoprime_iff_gcd_eq_one.mpr h))

theorem crm_solves_congruences_witness :
    ∃ x, crm [1, 1] [3, 5] = some x ∧
      ∀ i (hi : i < ([3, 5] : List ℤ).length)
        (hi2 : i < ([1, 1] : List ℤ).length),
        x ≡ ([1, 1] : List ℤ)[i] [ZMOD ([3, 5] : List ℤ)[i]] :=
  crm_solves_congruences (by decide) (by decide) (by decide)

/-- C8: adding or subtracting two EncryptedNumbers whose public keys differ
takes the ValueError path in `__add__`/`__sub__` (before any arithmetic),
so no result is produced; the embedding is pure, so the operands are left
unchanged by construction. -/
theorem add_sub_key_mismatch (c1 c2 : EncryptedNumber)
    (h : c1.public_key ≠ c2.public_key) :
    c1.add c2 = none ∧ c1.sub c2 = none :=
  ⟨by simp [EncryptedNumber.add, h], by simp [EncryptedNumber.sub, h]⟩

theorem add_sub_key_mismatch_witness :
    EncryptedNumber.add ⟨1, ⟨3, 1, 1, 1, 1⟩⟩ ⟨1, ⟨5, 1, 1, 1, 1⟩⟩ = none ∧
      EncryptedNumber.sub ⟨1, ⟨3, 1, 1, 1, 1⟩⟩ ⟨1, ⟨5, 1, 1, 1, 1⟩⟩ = none :=
  add_sub_key_mismatch _ _ (by decide)

/-- C3 counterexample: `PrivateKeyRing.__init__` deduplicates by full share
equality, not by index: with threshold 2, two shares that share the index
`i = 1` but differ in `s_i` are accepted (no error), although only one
distinct index is present. -/
theorem ring_accepts_duplicate_indices :
    (mkPrivateKeyRing
        [⟨⟨3, 1, 1, 2, 2⟩, 1, 0⟩, ⟨⟨3, 1, 1, 2, 2⟩, 1, 1⟩]).isSome = true ∧
      (mkPrivateKeyRing
          [⟨⟨3, 1, 1, 2, 2⟩, 1, 0⟩, ⟨⟨3, 1, 1, 2, 2⟩, 1, 1⟩]).map
        (fun r => (r.i_list.dedup.length, r.public_key.threshold))
        = some (1, 2) := by
  refine ⟨by decide, by decide⟩

/-- C9 counterexample: with `b = 31` and the in-range draw
`q = 939947009 = 263·1049·3407` (a Carmichael number), `gen_safe_prime`
returns `p = 2q + 1 = 1879894019` although `(p-1)/2 = q` is composite: the
fixed-base Fermat test accepts `q`, so the claimed postcondition
"`(p-1)/2` is also prime" fails (and the code runs a Fermat test at bases
`2..9`, not Miller–Rabin with 40 rounds). -/
theorem gen_safe_prime_composite_half :
    gen_safe_prime 31 [939947009] = some 1879894019 ∧
      ¬Nat.Prime ((1879894019 - 1) / 2) ∧
      2 ^ (31 - 2) ≤ 939947009 ∧ 939947009 < 2 ^ (31 - 1) := by
  refine ⟨by decide, ?_, by norm_num, by norm_num⟩
  show ¬Nat.Prime 939947009
  norm_num

/-- C9 (amended): whenever `gen_safe_prime(b)` returns (with all candidate
draws in the `randint(2^(b-2), 2^(b-1)-1)` range), the result is
`p = 2q + 1` of exactly `b` bits where both `q` and `p` pass the code's
fixed-base Fermat test (bases `2..9`); that probabilistic test, not
Miller–Rabin, is all the code guarantees, and composites can pass it. -/
theorem gen_safe_prime_postcondition (b : ℕ) (hb : 2 ≤ b) (draws : List ℕ)
    (hdr : ∀ d ∈ draws, 2 ^ (b - 2) ≤ d ∧ d < 2 ^ (b - 1)) (p : ℕ)
    (h : gen_safe_prime b draws = some p) :
    ∃ q, p = 2 * q + 1 ∧ is_prime q = true ∧ is_prime p = true ∧
      2 ^ (b - 1) < p ∧ p < 2 ^ b := by
  induction draws with
  | nil => simp [gen_safe_prime] at h
  | cons d rest ih =>
    rcases hdq : is_prime d with hf | ht
    · rw [gen_safe_prime, hdq] at h
      simp only [Bool.false_eq_true, if_false] at h
      exact ih (fun x hx => hdr x (by simp [hx])) h
    · rcases hdp : is_prime (2 * d + 1) with hf2 | ht2
      · rw [gen_safe_prime, hdq, hdp] at h
        simp only [Bool.false_eq_true, if_false, if_true] at h
        exact ih (fun x hx => hdr x (by simp [hx])) h
      · rw [gen_safe_prime, hdq, hdp] at h
        simp only [if_true, Option.some_inj] at h
        subst h
        obtain ⟨hlo, hhi⟩ := hdr d (by simp)
        refine ⟨d, rfl, hdq, hdp, ?_, ?_⟩
        · have hpow : 2 * 2 ^ (b - 2) = 2 ^ (b - 1) := by
            rw [← pow_succ']
            congr 1
            omega
          omega
        · have hpow : 2 * 2 ^ (b - 1) = 2 ^ b := by
            rw [← pow_succ']
            congr 1
            omega
          omega

theorem gen_safe_prime_postcondition_witness :
    ∃ q, (1879894019 : ℕ) = 2 * q + 1 ∧ is_prime q = true ∧
      is_prime 1879894019 = true ∧
      2 ^ (31 - 1) < 1879894019 ∧ 1879894019 < 2 ^ 31 :=
  gen_safe_prime_postcondition 31 (by norm_num) [939947009]
    (by intro d hd; simp at hd; subst hd; norm_num) 1879894019 (by decide)

theorem selectMinTally_inv (c_rem : List ℕ) (tallies : List ℤ)
    (stop_candidate : ℕ) : ∀ n, n ≤ c_rem.length →
    (((List.range n).foldl
        (fun i j =>
          if c_rem.getD j 0 = stop_candidate then i
          else
            match i with
            | none => some j
            | some i0 =>
              if tallies.getD j 0 < tallies.getD i0 0 then some j else i)
        none = none) →
      ∀ j, j < n → c_rem.getD j 0 = stop_candidate) ∧
    ∀ i0, ((List.range n).foldl
        (fun i j =>
          if c_rem.getD j 0 = stop_candidate then i
          else
            match i with
            | none => some j
            | some i0 =>
              if tallies.getD j 0 < tallies.getD i0 0 then some j else i)
        none = some i0) →
      i0 < n ∧ c_rem.getD i0 0 ≠ stop_candidate ∧
        ∀ j, j < n → c_rem.getD j 0 ≠ stop_candidate →
          tallies.getD i0 0 ≤ tallies.getD j 0 ∧
            (tallies.getD j 0 = tallies.getD i0 0 → i0 ≤ j) := by
  intro n
  induction n with
  | zero => exact fun _ => ⟨fun _ j hj => by omega, fun i0 h => by simp at h⟩
  | succ n ih =>
    intro hn
    obtain ⟨ihn, ihs⟩ := ih (by omega)
    rw [List.range_succ, List.foldl_append, List.foldl_cons, List.foldl_nil]
    set prev := (List.range n).foldl
        (fun i j =>
          if c_rem.getD j 0 = stop_candidate then i
          else
            match i with
            | none => some j
            | some i0 =>
              if tallies.getD j 0 < tallies.getD i0 0 then some j else i)
        none with hprev
    by_cases hstop : c_rem.getD n 0 = stop_candidate
    · rw [if_pos hstop]
      constructor
      · intro hnone j hj
        rcases Nat.lt_or_ge j n with h | h
        · exact ihn hnone j h
        · have : j = n := by omega
          rw [this]; exact hstop
      · intro i0 hsome
        obtain ⟨h1, h2, h3⟩ := ihs i0 hsome
        exact ⟨by omega, h2, fun j hj hjs => by
          rcases Nat.lt_or_ge j n with h | h
          · exact h3 j h hjs
          · have : j = n := by omega
            rw [this] at hjs; exact absurd hstop hjs⟩
    · rw [if_neg hstop]
      rcases hp : prev with _ | i1
      · simp only [hp]
        constructor
        · intro hcontra; simp at hcontra
        · intro i0 hsome
          simp only [Option.some_inj] at hsome
          subst hsome
          refine ⟨by omega, hstop, fun j hj hjs => ?_⟩
          rcases Nat.lt_or_ge j n with h | h
          · exact absurd (ihn hp j h) hjs
          · have hjn : j = n := by omega
            subst hjn
            exact ⟨le_rfl, fun _ => le_rfl⟩
      · simp only [hp]
        obtain ⟨h1, h2, h3⟩ := ihs i1 hp
        by_cases hlt : tallies.getD n 0 < tallies.getD i1 0
        · rw [if_pos hlt]
          constructor
          · intro hcontra; simp at hcontra
          · intro i0 hsome
            simp only [Option.some_inj] at hsome
            subst hsome
            refine ⟨by omega, hstop, fun j hj hjs => ?_⟩
            rcases Nat.lt_or_ge j n with h | h
            · have := (h3 j h hjs).1
              constructor
              · omega
              · intro he
                omega
            · have hjn : j = n := by omega
              subst hjn
              exact ⟨le_rfl, fun _ => le_rfl⟩
        · rw [if_neg hlt]
          constructor
          · intro hcontra; simp at hcontra
          · intro i0 hsome
            simp only [Option.some_inj] at hsome
            subst hsome
            refine ⟨by omega, h2, fun j hj hjs => ?_⟩
            rcases Nat.lt_or_ge j n with h | h
            · exact h3 j h hjs
            · have hjn : j = n := by omega
              subst hjn
              exact ⟨by omega, fun _ => by omega⟩

/-- C7: when `stv_tally` reaches its elimination branch (no candidate met
the quota), the argmin loop selects the position `i` of a non-stop
candidate whose tally is minimal among all remaining non-stop candidates,
and on ties the lowest such index — so `c_rem[i]`, the candidate
eliminated by `eliminate_candidate_set([c_rem[i]], ...)`, is the
lowest-indexed minimal-tally candidate. -/
theorem stv_elimination_picks_lowest_min (c_rem : List ℕ) (tallies : List ℤ)
    (stop_candidate : ℕ) (hlen : tallies.length = c_rem.length)
    (j0 : ℕ) (hj0 : j0 < c_rem.length) (hj0s : c_rem.getD j0 0 ≠ stop_candidate) :
    ∃ i, selectMinTally c_rem tallies stop_candidate = some i ∧
      i < c_rem.length ∧ c_rem.getD i 0 ≠ stop_candidate ∧
      ∀ j, j < c_rem.length → c_rem.getD j 0 ≠ stop_candidate →
        tallies.getD i 0 ≤ tallies.getD j 0 ∧
          (tallies.getD j 0 = tallies.getD i 0 → i ≤ j) := by
  obtain ⟨hnone, hsome⟩ :=
    selectMinTally_inv c_rem tallies stop_candidate c_rem.length le_rfl
  rcases hres : selectMinTally c_rem tallies stop_candidate with _ | i
  · exact absurd (hnone hres j0 hj0) hj0s
  · obtain ⟨h1, h2, h3⟩ := hsome i hres
    exact ⟨i, rfl, h1, h2, h3⟩

theorem stv_elimination_picks_lowest_min_witness :
    ∃ i, selectMinTally [4, 7, 9] [5, 2, 2] 9 = some i ∧
      i < ([4, 7, 9] : List ℕ).length ∧
      ([4, 7, 9] : List ℕ).getD i 0 ≠ 9 ∧
      ∀ j, j < ([4, 7, 9] : List ℕ).length →
        ([4, 7, 9] : List ℕ).getD j 0 ≠ 9 →
        ([5, 2, 2] : List ℤ).getD i 0 ≤ ([5, 2, 2] : List ℤ).getD j 0 ∧
          (([5, 2, 2] : List ℤ).getD j 0 = ([5, 2, 2] : List ℤ).getD i 0 →
            i ≤ j) :=
  stv_elimination_picks_lowest_min [4, 7, 9] [5, 2, 2] 9 (by decide) 0
    (by decide) (by decide)

/-! ## Number-theoretic core for the Damgård–Jurik reduction -/

/-- Falling factorial over `ℤ`: `x (x-1) ⋯ (x-k+1)`, the product that the
inner loop of `damgard_jurik_reduce` accumulates in `t_2`. -/
def descProd (x : ℤ) : ℕ → ℤ
  | 0 => 1
  | k + 1 => descProd x k * (x - k)

theorem descProd_natCast (I : ℕ) : ∀ k : ℕ, descProd (I : ℤ) k = (I.descFactorial k : ℤ) := by
  intro k
  induction k with
  | zero => simp [descProd]
  | succ k ih =>
    rw [descProd, ih, Nat.descFactorial_succ]
    rcases Nat.lt_or_ge I k with h | h
    · have h1 : I.descFactorial k = 0 := Nat.descFactorial_eq_zero_iff_lt.mpr h
      have h2 : I - k = 0 := by omega
      simp [h1, h2]
    · have : ((I - k : ℕ) : ℤ) = (I : ℤ) - k := by omega
      push_cast
      rw [← this]
      push_cast [Nat.cast_sub h]
      ring

theorem descProd_modEq {M x y : ℤ} (h : x ≡ y [ZMOD M]) :
    ∀ k : ℕ, descProd x k ≡ descProd y k [ZMOD M] := by
  intro k
  induction k with
  | zero => rfl
  | succ k ih => exact Int.ModEq.mul ih (h.sub_right _)

/-- Cancelling a common factor `c` out of a congruence `c·x ≡ c·y mod c·M`. -/
theorem modEq_cancel_left {c M x y : ℤ} (hc : c ≠ 0)
    (h : c * x ≡ c * y [ZMOD c * M]) : x ≡ y [ZMOD M] := by
  rw [Int.modEq_iff_dvd] at h ⊢
  have : c * M ∣ c * (y - x) := by
    have := h
    rw [show c * y - c * x = c * (y - x) by ring] at this
    exact this
  exact (mul_dvd_mul_iff_left hc).mp this

/-- Binomial expansion of `(1+n)^I` modulo `n^(j+1)`: only the first `j+1`
terms survive. -/
theorem one_add_pow_modEq (n I j : ℕ) :
    ((1 + n : ℕ) : ℤ) ^ I ≡
      ∑ k ∈ Finset.range (j + 1), (I.choose k : ℤ) * (n : ℤ) ^ k
      [ZMOD (n : ℤ) ^ (j + 1)] := by
  have hpow : ((1 + n : ℕ) : ℤ) ^ I
      = ∑ k ∈ Finset.range (I + 1), (I.choose k : ℤ) * (n : ℤ) ^ k := by
    push_cast
    rw [add_comm (1 : ℤ) n, add_pow]
    refine Finset.sum_congr rfl (fun k hk => by ring)
  rw [hpow]
  rcases le_or_lt I j with h | h
  · have hsub : Finset.range (I + 1) ⊆ Finset.range (j + 1) :=
      Finset.range_subset.mpr (by omega)
    rw [Finset.sum_subset hsub]
    intro x hx hnx
    have : I < x := by
      simp only [Finset.mem_range] at hx hnx
      omega
    simp [Nat.choose_eq_zero_of_lt this]
  · have hsplit := Finset.sum_Ico_consecutive
      (fun k => (I.choose k : ℤ) * (n : ℤ) ^ k)
      (Nat.zero_le (j + 1)) (by omega : j + 1 ≤ I + 1)
    rw [← Finset.range_eq_Ico] at hsplit
    rw [← hsplit]
    have hdvd : ((n : ℤ) ^ (j + 1)) ∣
        ∑ k ∈ Finset.Ico (j + 1) (I + 1), (I.choose k : ℤ) * (n : ℤ) ^ k := by
      apply Finset.dvd_sum
      intro k hk
      have hk1 : j + 1 ≤ k := (Finset.mem_Ico.mp hk).1
      exact Dvd.dvd.mul_left (pow_dvd_pow _ hk1) _
    calc _ ≡ ∑ k ∈ Finset.range (j + 1), (I.choose k : ℤ) * (n : ℤ) ^ k + 0
          [ZMOD (n : ℤ) ^ (j + 1)] :=
          Int.ModEq.add_left _ ((Int.modEq_zero_iff_dvd).mpr hdvd)
      _ = _ := by ring

/-- The element `1 + n` has order dividing `n^s` modulo `n^(s+1)`. -/
theorem one_add_pow_order (n : ℕ) : ∀ s : ℕ,
    ((1 + n : ℕ) : ℤ) ^ (n ^ s) ≡ 1 [ZMOD (n : ℤ) ^ (s + 1)] := by
  intro s
  induction s with
  | zero =>
    have h1 : ((1 + n : ℕ) : ℤ) ≡ 1 [ZMOD (n : ℤ)] := by
      unfold Int.ModEq
      push_cast
      simp [Int.add_mul_emod_self_left]
    have := h1.pow (n ^ 0)
    rw [one_pow] at this
    simpa using this
  | succ s ih =>
    obtain ⟨t, ht⟩ := (Int.modEq_iff_dvd.mp ih)
    have hexp : ((1 + n : ℕ) : ℤ) ^ (n ^ (s + 1))
        = (((1 + n : ℕ) : ℤ) ^ (n ^ s)) ^ n := by
      rw [← pow_mul, pow_succ]
    have hval : (((1 + n : ℕ) : ℤ) ^ (n ^ s))
        = -((n : ℤ) ^ (s + 1) * t) + 1 := by linarith
    rw [hexp, hval, add_pow]
    rw [Finset.sum_range_succ'
      (fun m => (-((n : ℤ) ^ (s + 1) * t)) ^ m * 1 ^ (n - m) * (n.choose m : ℤ)) n]
    have h0 : (-((n : ℤ) ^ (s + 1) * t)) ^ 0 * 1 ^ (n - 0) * (n.choose 0 : ℤ)
        = 1 := by simp
    rw [h0]
    have hdvd : ((n : ℤ) ^ (s + 1 + 1)) ∣
        ∑ k ∈ Finset.range n,
          (-((n : ℤ) ^ (s + 1) * t)) ^ (k + 1) * 1 ^ (n - (k + 1))
            * (n.choose (k + 1) : ℤ) := by
      apply Finset.dvd_sum
      intro k _
      match k with
      | 0 =>
        refine ⟨-t, ?_⟩
        rw [Nat.choose_one_right]
        push_cast
        ring
      | k + 1 =>
        have hB : (-((n : ℤ) ^ (s + 1) * t)) ^ (k + 2)
            = ((n : ℤ) ^ (s + 1)) ^ (k + 2) * (-t) ^ (k + 2) := by
          rw [show -((n : ℤ) ^ (s + 1) * t) = (n : ℤ) ^ (s + 1) * (-t) by ring,
            mul_pow]
        have hle : s + 1 + 1 ≤ (s + 1) * (k + 2) := by nlinarith
        have h1 : ((n : ℤ) ^ (s + 1 + 1)) ∣ ((n : ℤ) ^ (s + 1)) ^ (k + 2) := by
          rw [← pow_mul]
          exact pow_dvd_pow _ hle
        rw [hB]
        exact Dvd.dvd.mul_right (Dvd.dvd.mul_right (h1.mul_right _) _) _
    calc _ ≡ 0 + 1 [ZMOD (n : ℤ) ^ (s + 1 + 1)] :=
          Int.ModEq.add_right 1 ((Int.modEq_zero_iff_dvd).mpr hdvd)
      _ = 1 := by ring

theorem innerLoop_spec {n : ℕ} (hn : 2 ≤ n) {j I : ℕ} (i₀ : ℤ)
    (hi₀ : i₀ ≡ (I : ℤ) [ZMOD (n : ℤ) ^ (j - 1)])
    (hinv : ∀ k, 2 ≤ k → k ≤ j →
      (inv_mod (k.factorial : ℤ) ((n : ℤ) ^ j)).isSome) :
    ∀ (cnt : ℕ), ∀ (k0 : ℕ), 2 ≤ k0 → k0 + cnt = j + 1 →
    ∀ (iv t2 t1 : ℤ), iv = i₀ - (k0 : ℤ) + 2 →
      t2 ≡ descProd i₀ (k0 - 1) [ZMOD (n : ℤ) ^ j] →
      ∃ st : ℤ × ℤ × ℤ,
        (List.range' k0 cnt).foldlM (innerStep n ((n : ℤ) ^ j)) (iv, t2, t1)
          = some st ∧
        st.2.2 ≡
          t1 - ∑ k ∈ Finset.Ico k0 (j + 1), (I.choose k : ℤ) * (n : ℤ) ^ (k - 1)
          [ZMOD (n : ℤ) ^ j] := by
  intro cnt
  induction cnt with
  | zero =>
    intro k0 hk02 hcnt iv t2 t1 hiv ht2
    refine ⟨(iv, t2, t1), by simp, ?_⟩
    have : Finset.Ico k0 (j + 1) = ∅ := by
      apply Finset.Ico_eq_empty
      omega
    simp [this]
  | succ cnt ih =>
    intro k0 hk02 hcnt iv t2 t1 hiv ht2
    have hk0j : k0 ≤ j := by omega
    have hnj_pos : (0 : ℤ) < (n : ℤ) ^ j := by positivity
    rcases Option.isSome_iff_exists.mp (hinv k0 hk02 hk0j) with ⟨w, hw⟩
    have hwspec : (k0.factorial : ℤ) * w ≡ 1 [ZMOD (n : ℤ) ^ j] :=
      (inv_mod_spec hnj_pos
        ((neg_nonpos.mpr hnj_pos.le).trans (by positivity)) hw).1
    rw [List.range'_succ, List.foldlM_cons]
    have hstep : innerStep n ((n : ℤ) ^ j) (iv, t2, t1) k0
        = some (iv - 1, t2 * (iv - 1) % (n : ℤ) ^ j,
            t1 - (t2 * (iv - 1) % (n : ℤ) ^ j) * (n : ℤ) ^ (k0 - 1) * w
              % (n : ℤ) ^ j) := by
      rw [innerStep, hw]
      rfl
    rw [hstep]
    have hcast : ((k0 - 1 : ℕ) : ℤ) = (k0 : ℤ) - 1 := by omega
    have ht2' : t2 * (iv - 1) % (n : ℤ) ^ j ≡ descProd i₀ k0
        [ZMOD (n : ℤ) ^ j] := by
      have h1 : t2 * (iv - 1) % (n : ℤ) ^ j ≡ t2 * (iv - 1)
          [ZMOD (n : ℤ) ^ j] := Int.emod_emod_of_dvd _ dvd_rfl
      have h2 : t2 * (iv - 1) ≡ descProd i₀ (k0 - 1) * (i₀ - ((k0 - 1 : ℕ) : ℤ))
          [ZMOD (n : ℤ) ^ j] := by
        have hiv1 : iv - 1 = i₀ - ((k0 - 1 : ℕ) : ℤ) := by
          rw [hcast]; omega
        rw [hiv1]
        exact ht2.mul_right _
      have h3 : descProd i₀ (k0 - 1) * (i₀ - ((k0 - 1 : ℕ) : ℤ))
          = descProd i₀ k0 := by
        have hk : k0 = (k0 - 1) + 1 := by omega
        conv_rhs => rw [hk]
        rw [descProd]
      rw [← h3]
      exact h1.trans h2
    obtain ⟨st, hfold, hcong⟩ := ih (k0 + 1) (by omega) (by omega)
      (iv - 1) (t2 * (iv - 1) % (n : ℤ) ^ j)
      (t1 - (t2 * (iv - 1) % (n : ℤ) ^ j) * (n : ℤ) ^ (k0 - 1) * w
        % (n : ℤ) ^ j)
      (by push_cast; omega)
      (by simpa using ht2')
    refine ⟨st, by simpa using hfold, ?_⟩
    -- the amount subtracted in this iteration is `C(I, k0) · n^(k0-1)` mod n^j
    have hX : (t2 * (iv - 1) % (n : ℤ) ^ j) * (n : ℤ) ^ (k0 - 1) * w
        % (n : ℤ) ^ j ≡ (I.choose k0 : ℤ) * (n : ℤ) ^ (k0 - 1)
        [ZMOD (n : ℤ) ^ j] := by
      have h1 : (t2 * (iv - 1) % (n : ℤ) ^ j) * (n : ℤ) ^ (k0 - 1) * w
          % (n : ℤ) ^ j
          ≡ (t2 * (iv - 1) % (n : ℤ) ^ j) * (n : ℤ) ^ (k0 - 1) * w
          [ZMOD (n : ℤ) ^ j] := Int.emod_emod_of_dvd _ dvd_rfl
      have h2 : (t2 * (iv - 1) % (n : ℤ) ^ j) * (n : ℤ) ^ (k0 - 1) * w
          ≡ descProd i₀ k0 * (n : ℤ) ^ (k0 - 1) * w [ZMOD (n : ℤ) ^ j] :=
        (ht2'.mul_right _).mul_right _
      have h3 : descProd i₀ k0 * (n : ℤ) ^ (k0 - 1)
          ≡ descProd (I : ℤ) k0 * (n : ℤ) ^ (k0 - 1) [ZMOD (n : ℤ) ^ j] := by
        have hd := (descProd_modEq hi₀ k0).mul_right' (c := (n : ℤ) ^ (k0 - 1))
        refine hd.of_dvd ?_
        rw [← pow_add]
        exact pow_dvd_pow _ (by omega)
      have h4 : descProd (I : ℤ) k0 = ((k0.factorial * I.choose k0 : ℕ) : ℤ) := by
        rw [descProd_natCast, Nat.descFactorial_eq_factorial_mul_choose]
      have h5 : descProd (I : ℤ) k0 * (n : ℤ) ^ (k0 - 1) * w
          ≡ (I.choose k0 : ℤ) * (n : ℤ) ^ (k0 - 1) [ZMOD (n : ℤ) ^ j] := by
        rw [h4]
        push_cast
        calc (k0.factorial : ℤ) * (I.choose k0 : ℤ) * (n : ℤ) ^ (k0 - 1) * w
            = (I.choose k0 : ℤ) * (n : ℤ) ^ (k0 - 1)
              * ((k0.factorial : ℤ) * w) := by ring
          _ ≡ (I.choose k0 : ℤ) * (n : ℤ) ^ (k0 - 1) * 1
              [ZMOD (n : ℤ) ^ j] := hwspec.mul_left _
          _ = (I.choose k0 : ℤ) * (n : ℤ) ^ (k0 - 1) := by ring
      exact h1.trans (h2.trans ((h3.mul_right w).trans h5))
    have hpeel : ∑ k ∈ Finset.Ico k0 (j + 1),
        (I.choose k : ℤ) * (n : ℤ) ^ (k - 1)
        = (I.choose k0 : ℤ) * (n : ℤ) ^ (k0 - 1)
          + ∑ k ∈ Finset.Ico (k0 + 1) (j + 1),
            (I.choose k : ℤ) * (n : ℤ) ^ (k - 1) := by
      rw [← Finset.sum_Ico_consecutive _ (by omega : k0 ≤ k0 + 1)
        (by omega : k0 + 1 ≤ j + 1)]
      congr 1
      rw [Finset.sum_Ico_eq_sum_range]
      simp
    calc st.2.2
        ≡ t1 - (t2 * (iv - 1) % (n : ℤ) ^ j) * (n : ℤ) ^ (k0 - 1) * w
            % (n : ℤ) ^ j
          - ∑ k ∈ Finset.Ico (k0 + 1) (j + 1),
            (I.choose k : ℤ) * (n : ℤ) ^ (k - 1) [ZMOD (n : ℤ) ^ j] := hcong
      _ ≡ t1 - (I.choose k0 : ℤ) * (n : ℤ) ^ (k0 - 1)
          - ∑ k ∈ Finset.Ico (k0 + 1) (j + 1),
            (I.choose k : ℤ) * (n : ℤ) ^ (k - 1) [ZMOD (n : ℤ) ^ j] :=
        Int.ModEq.sub_right _ (Int.ModEq.sub_left _ hX)
      _ = t1 - ∑ k ∈ Finset.Ico k0 (j + 1),
            (I.choose k : ℤ) * (n : ℤ) ^ (k - 1) := by
          rw [hpeel]; ring

theorem reduceStep_spec {n s I : ℕ} (hn : 2 ≤ n)
    (hco : Nat.Coprime s.factorial n) {j : ℕ} (hj1 : 1 ≤ j) (hjs : j ≤ s)
    {i : ℤ} (hi : i ≡ (I : ℤ) [ZMOD (n : ℤ) ^ (j - 1)]) :
    ∃ v, reduceStep n ((1 + n) ^ I % n ^ (s + 1)) j i = some v ∧
      v ≡ (I : ℤ) [ZMOD (n : ℤ) ^ j] := by
  have hnpos : (0 : ℤ) < (n : ℤ) := by exact_mod_cast (by omega : 0 < n)
  have hb_def : (1 + n) ^ I % n ^ (s + 1) % n ^ (j + 1) = (1 + n) ^ I % n ^ (j + 1) :=
    Nat.mod_mod_of_dvd _ (pow_dvd_pow n (by omega))
  have hbinom := one_add_pow_modEq n I j
  have hbZ : (((1 + n) ^ I % n ^ (s + 1) % n ^ (j + 1) : ℕ) : ℤ)
      ≡ ((1 + n : ℕ) : ℤ) ^ I [ZMOD (n : ℤ) ^ (j + 1)] := by
    rw [hb_def]
    push_cast
    exact Int.emod_emod_of_dvd _ dvd_rfl
  set b : ℕ := (1 + n) ^ I % n ^ (s + 1) % n ^ (j + 1) with hb
  -- the assert in `L` passes: b ≡ 1 (mod n)
  have hpow1 : ((1 + n : ℕ) : ℤ) ^ I ≡ 1 [ZMOD (n : ℤ)] := by
    have h0 := one_add_pow_modEq n I 0
    simpa using h0
  have hb1 : ((b : ℤ) - 1) % (n : ℤ) = 0 := by
    have : (b : ℤ) ≡ 1 [ZMOD (n : ℤ)] :=
      ((hbZ.of_dvd (dvd_pow_self _ (by omega))).trans
        (hpow1.of_dvd dvd_rfl))
    exact Int.emod_eq_zero_of_dvd (Int.ModEq.dvd this.symm)
  have hdvd_b1 : (n : ℤ) ∣ (b : ℤ) - 1 := Int.dvd_of_emod_eq_zero hb1
  have hLdef : (n : ℤ) * (((b : ℤ) - 1).fdiv (n : ℤ)) = (b : ℤ) - 1 := by
    rw [Int.fdiv_eq_ediv _ hnpos.le, mul_comm]
    exact Int.ediv_mul_cancel hdvd_b1
  -- characterize L = (b-1)/n modulo n^j
  have hLsum : (n : ℤ) * (((b : ℤ) - 1).fdiv (n : ℤ))
      ≡ (n : ℤ) * ∑ k ∈ Finset.range j, (I.choose (k + 1) : ℤ) * (n : ℤ) ^ k
      [ZMOD (n : ℤ) * (n : ℤ) ^ j] := by
    rw [hLdef]
    have hsum : ∑ k ∈ Finset.range (j + 1), (I.choose k : ℤ) * (n : ℤ) ^ k
        = (n : ℤ) * (∑ k ∈ Finset.range j, (I.choose (k + 1) : ℤ) * (n : ℤ) ^ k)
          + 1 := by
      rw [Finset.sum_range_succ' (fun k => (I.choose k : ℤ) * (n : ℤ) ^ k) j]
      rw [Finset.mul_sum]
      simp only [Nat.choose_zero_right, Nat.cast_one, pow_zero, mul_one]
      congr 1
      refine Finset.sum_congr rfl (fun k _ => by ring)
    have := hbZ.trans hbinom
    rw [hsum] at this
    have h2 : (b : ℤ) - 1
        ≡ (n : ℤ) * (∑ k ∈ Finset.range j, (I.choose (k + 1) : ℤ) * (n : ℤ) ^ k)
        [ZMOD (n : ℤ) ^ (j + 1)] := by
      have := this.sub_right 1
      simpa using this
    have hpowsplit : (n : ℤ) ^ (j + 1) = (n : ℤ) * (n : ℤ) ^ j := by ring
    rw [← hpowsplit]
    exact h2
  have hL : (((b : ℤ) - 1).fdiv (n : ℤ))
      ≡ ∑ k ∈ Finset.range j, (I.choose (k + 1) : ℤ) * (n : ℤ) ^ k
      [ZMOD (n : ℤ) ^ j] :=
    modEq_cancel_left (ne_of_gt hnpos) hLsum
  -- the factorial inverses needed by the inner loop exist
  have hinv : ∀ k, 2 ≤ k → k ≤ j →
      (inv_mod (k.factorial : ℤ) ((n : ℤ) ^ j)).isSome := by
    intro k hk2 hkj
    apply inv_mod_isSome (by positivity)
    have h1 : k.factorial ∣ s.factorial :=
      Nat.factorial_dvd_factorial (by omega)
    have h2 : Nat.Coprime k.factorial (n ^ j) :=
      Nat.Coprime.pow_right _ (Nat.Coprime.coprime_dvd_left h1 hco)
    have : ((n : ℤ) ^ j) = ((n ^ j : ℕ) : ℤ) := by push_cast; ring
    rw [this, Int.gcd_natCast_natCast]
    exact h2
  obtain ⟨st, hfold, hcong⟩ := innerLoop_spec hn i hi hinv (j - 1) 2
    (by omega) (by omega) i i (((b : ℤ) - 1).fdiv (n : ℤ))
    (by ring) (by simp [descProd])
  refine ⟨st.2.2, ?_, ?_⟩
  · rw [reduceStep]
    simp only [← hb]
    rw [hfold]
    rw [if_neg (show ¬((b : ℤ) - 1) % (n : ℤ) ≠ 0 from by simp [hb1])]
    rfl
  · -- final telescoping: the sum minus the subtracted terms is `I`
    obtain ⟨j', rfl⟩ : ∃ jp, j = jp + 1 := ⟨j - 1, by omega⟩
    have hre : ∑ k ∈ Finset.Ico 2 (j' + 1 + 1), (I.choose k : ℤ) * (n : ℤ) ^ (k - 1)
        = ∑ k ∈ Finset.range j', (I.choose (k + 2) : ℤ) * (n : ℤ) ^ (k + 1) := by
      rw [Finset.sum_Ico_eq_sum_range]
      have hlen : j' + 1 + 1 - 2 = j' := by omega
      rw [hlen]
      refine Finset.sum_congr rfl (fun k _ => ?_)
      have h1 : 2 + k = k + 2 := by omega
      rw [h1]
      have h2 : k + 2 - 1 = k + 1 := by omega
      rw [h2]
    have hLre : ∑ k ∈ Finset.range (j' + 1), (I.choose (k + 1) : ℤ) * (n : ℤ) ^ k
        = ∑ k ∈ Finset.range j', (I.choose (k + 2) : ℤ) * (n : ℤ) ^ (k + 1)
          + (I : ℤ) := by
      rw [Finset.sum_range_succ'
        (fun k => (I.choose (k + 1) : ℤ) * (n : ℤ) ^ k) j']
      have hA : ∑ k ∈ Finset.range j',
          (I.choose (k + 1 + 1) : ℤ) * (n : ℤ) ^ (k + 1)
          = ∑ k ∈ Finset.range j', (I.choose (k + 2) : ℤ) * (n : ℤ) ^ (k + 1) :=
        Finset.sum_congr rfl
          (fun k _ => by rw [show k + 1 + 1 = k + 2 from by omega])
      rw [hA]
      simp [Nat.choose_one_right]
    calc st.2.2
        ≡ (((b : ℤ) - 1).fdiv (n : ℤ))
            - ∑ k ∈ Finset.Ico 2 (j' + 1 + 1), (I.choose k : ℤ) * (n : ℤ) ^ (k - 1)
          [ZMOD (n : ℤ) ^ (j' + 1)] := hcong
      _ ≡ (∑ k ∈ Finset.range (j' + 1), (I.choose (k + 1) : ℤ) * (n : ℤ) ^ k)
            - ∑ k ∈ Finset.Ico 2 (j' + 1 + 1), (I.choose k : ℤ) * (n : ℤ) ^ (k - 1)
          [ZMOD (n : ℤ) ^ (j' + 1)] := hL.sub_right _
      _ = (I : ℤ) := by rw [hre, hLre]; ring

theorem reduceLoop_spec {n s I : ℕ} (hn : 2 ≤ n)
    (hco : Nat.Coprime s.factorial n) :
    ∀ (cnt : ℕ), ∀ (j0 : ℕ), 1 ≤ j0 → j0 + cnt ≤ s + 1 →
    ∀ i : ℤ, i ≡ (I : ℤ) [ZMOD (n : ℤ) ^ (j0 - 1)] →
    ∃ v, (List.range' j0 cnt).foldlM
        (fun i j => reduceStep n ((1 + n) ^ I % n ^ (s + 1)) j i) i = some v ∧
      v ≡ (I : ℤ) [ZMOD (n : ℤ) ^ (j0 - 1 + cnt)] := by
  intro cnt
  induction cnt with
  | zero =>
    intro j0 hj0 hend i hi
    exact ⟨i, by simp, by simpa using hi⟩
  | succ cnt ih =>
    intro j0 hj0 hend i hi
    obtain ⟨v1, hstep, hcong1⟩ := reduceStep_spec hn hco hj0
      (by omega : j0 ≤ s) hi
    obtain ⟨v, hfold, hcong⟩ := ih (j0 + 1) (by omega) (by omega) v1
      (by simpa using hcong1)
    refine ⟨v, ?_, ?_⟩
    · rw [List.range'_succ, List.foldlM_cons, hstep]
      simpa using hfold
    · have : j0 + 1 - 1 + cnt = j0 - 1 + (cnt + 1) := by omega
      rw [← this]
      exact hcong

/-- Correctness of `damgard_jurik_reduce`: on `(1+n)^I mod n^(s+1)` it
returns a value congruent to `I` modulo `n^s` (given that the factorial
inverses it takes exist, i.e. `s!` is coprime to `n`). -/
theorem reduce_spec {n s I : ℕ} (hn : 2 ≤ n)
    (hco : Nat.Coprime s.factorial n) :
    ∃ v, reduce ((1 + n) ^ I % n ^ (s + 1)) s n = some v ∧
      v ≡ (I : ℤ) [ZMOD (n : ℤ) ^ s] := by
  obtain ⟨v, hv, hcong⟩ := reduceLoop_spec hn hco s 1 le_rfl (by omega) 0
    (by simp [Int.ModEq])
  exact ⟨v, by rw [reduce]; exact hv, by simpa using hcong⟩

/-! ## Counting: powers of `1+n` exhaust the residues `≡ 1 (mod n)` -/

/-- Every power of `1 + n` is `≡ 1 (mod n)`. -/
theorem one_add_pow_mod_self {n : ℕ} (hn : 2 ≤ n) (i : ℕ) :
    (1 + n) ^ i % n = 1 := by
  have h1 : (1 + n) % n = 1 % n := Nat.add_mod_right 1 n
  have h2 : (1 + n) ^ i % n = 1 ^ i % n := Nat.ModEq.pow i h1
  rw [h2, one_pow, Nat.mod_eq_of_lt (by omega)]

/-- The map `i ↦ (1+n)^i mod n^(s+1)` is injective on `[0, nˢ)`; this is a
consequence of the correctness of `damgard_jurik_reduce`, which inverts it. -/
theorem pow_mod_inj {n s : ℕ} (hn : 2 ≤ n) (hco : Nat.Coprime s.factorial n)
    {i j : ℕ} (hi : i < n ^ s) (hj : j < n ^ s)
    (h : (1 + n) ^ i % n ^ (s + 1) = (1 + n) ^ j % n ^ (s + 1)) : i = j := by
  obtain ⟨vi, hvi, hci⟩ := @reduce_spec n s i hn hco
  obtain ⟨vj, hvj, hcj⟩ := @reduce_spec n s j hn hco
  rw [h, hvj] at hvi
  have hv : vj = vi := by injection hvi
  have hcongr : (i : ℤ) ≡ (j : ℤ) [ZMOD (n : ℤ) ^ s] :=
    hci.symm.trans (hv ▸ hcj)
  have hpow : ((n : ℤ)) ^ s = ((n ^ s : ℕ) : ℤ) := by push_cast; ring
  have hmod : i % n ^ s = j % n ^ s := by
    have hq := hcongr
    unfold Int.ModEq at hq
    rw [hpow] at hq
    exact_mod_cast hq
  rwa [Nat.mod_eq_of_lt hi, Nat.mod_eq_of_lt hj] at hmod

/-- Discrete-log existence: every residue `c < n^(s+1)` with `c ≡ 1 (mod n)`
is a power of `1+n`, by counting both sides of the injection above. -/
theorem exists_dlog {n s : ℕ} (hn : 2 ≤ n) (hco : Nat.Coprime s.factorial n)
    {c : ℕ} (hc : c < n ^ (s + 1)) (hc1 : c % n = 1) :
    ∃ i, i < n ^ s ∧ (1 + n) ^ i % n ^ (s + 1) = c := by
  classical
  have hK0 : 0 < n ^ (s + 1) := Nat.pow_pos (show 0 < n by omega)
  have hmem1 : ∀ t ∈ Finset.range (n ^ s),
      1 + n * t ∈ (Finset.range (n ^ (s + 1))).filter (fun x => x % n = 1) := by
    intro t ht
    rw [Finset.mem_range] at ht
    rw [Finset.mem_filter, Finset.mem_range]
    refine ⟨?_, ?_⟩
    · have h1 : n * (t + 1) ≤ n * n ^ s := Nat.mul_le_mul_left n ht
      have h1' : n * (t + 1) = n * t + n := by ring
      have h2 : n * n ^ s = n ^ (s + 1) := by rw [pow_succ]; ring
      omega
    · rw [Nat.add_mul_mod_self_left, Nat.mod_eq_of_lt (by omega)]
  have hmem2 : ∀ x ∈ (Finset.range (n ^ (s + 1))).filter (fun x => x % n = 1),
      x / n ∈ Finset.range (n ^ s) := by
    intro x hx
    rw [Finset.mem_filter, Finset.mem_range] at hx
    rw [Finset.mem_range]
    have h2 : n * n ^ s = n ^ (s + 1) := by rw [pow_succ]; ring
    exact Nat.div_lt_of_lt_mul (by omega)
  have hli : ∀ t ∈ Finset.range (n ^ s), (1 + n * t) / n = t := by
    intro t ht
    rw [Nat.add_mul_div_left 1 t (show 0 < n by omega),
      Nat.div_eq_of_lt (show 1 < n by omega), zero_add]
  have hri : ∀ x ∈ (Finset.range (n ^ (s + 1))).filter (fun x => x % n = 1),
      1 + n * (x / n) = x := by
    intro x hx
    obtain ⟨-, hx1⟩ := Finset.mem_filter.mp hx
    have h0 := Nat.mod_add_div x n
    linarith
  have hcard : ((Finset.range (n ^ (s + 1))).filter (fun x => x % n = 1)).card
      = n ^ s := by
    have h := Finset.card_nbij' (fun t => 1 + n * t) (fun x => x / n)
      hmem1 hmem2 hli hri
    rw [Finset.card_range] at h
    exact h.symm
  have hphi : ∀ i ∈ Finset.range (n ^ s),
      (1 + n) ^ i % n ^ (s + 1)
        ∈ (Finset.range (n ^ (s + 1))).filter (fun x => x % n = 1) := by
    intro i _
    rw [Finset.mem_filter, Finset.mem_range]
    refine ⟨Nat.mod_lt _ hK0, ?_⟩
    rw [Nat.mod_mod_of_dvd _ (show n ∣ n ^ (s + 1) from ⟨n ^ s, by rw [pow_succ]; ring⟩)]
    exact one_add_pow_mod_self hn i
  have himg : Finset.image (fun i => (1 + n) ^ i % n ^ (s + 1))
      (Finset.range (n ^ s))
      = (Finset.range (n ^ (s + 1))).filter (fun x => x % n = 1) := by
    apply Finset.eq_of_subset_of_card_le
    · intro x hx
      obtain ⟨i, hi, rfl⟩ := Finset.mem_image.mp hx
      exact hphi i hi
    · have hic : (Finset.image (fun i => (1 + n) ^ i % n ^ (s + 1))
          (Finset.range (n ^ s))).card = n ^ s := by
        rw [Finset.card_image_of_injOn, Finset.card_range]
        intro i hi j hj hij
        have hi' := Finset.mem_range.mp (Finset.mem_coe.mp hi)
        have hj' := Finset.mem_range.mp (Finset.mem_coe.mp hj)
        exact pow_mod_inj hn hco hi' hj' hij
      rw [hcard, hic]
  have hcS : c ∈ (Finset.range (n ^ (s + 1))).filter (fun x => x % n = 1) := by
    rw [Finset.mem_filter, Finset.mem_range]
    exact ⟨hc, hc1⟩
  rw [← himg] at hcS
  obtain ⟨i, hi, hie⟩ := Finset.mem_image.mp hcS
  exact ⟨i, Finset.mem_range.mp hi, hie⟩

/-- Success of an option-valued left fold means every step succeeded on
some intermediate state. -/
theorem foldlM_some_of_mem {α σ : Type} (f : σ → α → Option σ) :
    ∀ (l : List α) (init : σ) (v : σ), l.foldlM f init = some v →
    ∀ x ∈ l, ∃ st st', f st x = some st' := by
  intro l
  induction l with
  | nil => intro init v h x hx; simp at hx
  | cons a l ih =>
    intro init v h x hx
    rw [List.foldlM_cons] at h
    cases hstep : f init a with
    | none => rw [hstep] at h; simp at h
    | some st1 =>
      rw [hstep] at h
      simp only [Option.bind_eq_bind, Option.some_bind] at h
      rcases List.mem_cons.mp hx with rfl | hx'
      · exact ⟨init, st1, hstep⟩
      · exact ih st1 v h x hx'

/-- If `damgard_jurik_reduce` succeeds (and `s ≥ 1`), its input was
`≡ 1 (mod n)`: the first outer iteration's `assert` checked exactly this. -/
theorem reduce_mod_one {a s n : ℕ} (hs : 1 ≤ s) (hn : 2 ≤ n) {v : ℤ}
    (h : reduce a s n = some v) : a % n = 1 := by
  rw [reduce] at h
  obtain ⟨st, st', hstep⟩ := foldlM_some_of_mem _ _ _ _ h 1
    (by rw [List.mem_range'_1]; omega)
  rw [reduceStep] at hstep
  by_cases hg : (((a % n ^ (1 + 1) : ℕ) : ℤ) - 1) % (n : ℤ) ≠ 0
  · rw [if_pos hg] at hstep
    exact absurd hstep (by simp)
  · push_neg at hg
    have hdvd : (n : ℤ) ∣ ((a % n ^ (1 + 1) : ℕ) : ℤ) - 1 :=
      Int.dvd_of_emod_eq_zero hg
    have hmod : ((a % n ^ (1 + 1) : ℕ) : ℤ) % (n : ℤ) = 1 % (n : ℤ) :=
      (Int.modEq_iff_dvd.mpr hdvd).symm
    have hNN : a % n ^ (1 + 1) % n = a % n :=
      Nat.mod_mod_of_dvd a ⟨n, by ring⟩
    have h2 : ((a % n ^ (1 + 1) % n : ℕ) : ℤ)
        = ((a % n ^ (1 + 1) : ℕ) : ℤ) % (n : ℤ) := Int.natCast_mod _ _
    rw [hNN, hmod, Int.emod_eq_of_lt (by omega)
      (by exact_mod_cast (show (1 : ℕ) < n by omega))] at h2
    exact_mod_cast h2

/-- If `damgard_jurik_reduce` succeeds then every factorial inverse it
required existed; in particular `s!` is coprime to `n`. -/
theorem reduce_coprime {a s n : ℕ} (hn : 2 ≤ n) {v : ℤ}
    (h : reduce a s n = some v) : Nat.Coprime s.factorial n := by
  rcases Nat.lt_or_ge s 2 with hs | hs
  · interval_cases s <;> simp [Nat.factorial]
  · rw [reduce] at h
    obtain ⟨st, st', hstep⟩ := foldlM_some_of_mem _ _ _ _ h s
      (by rw [List.mem_range'_1]; omega)
    rw [reduceStep] at hstep
    by_cases hg : (((a % n ^ (s + 1) : ℕ) : ℤ) - 1) % (n : ℤ) ≠ 0
    · rw [if_pos hg] at hstep
      exact absurd hstep (by simp)
    rw [if_neg hg] at hstep
    rw [Option.map_eq_some'] at hstep
    obtain ⟨stf, hfold, -⟩ := hstep
    obtain ⟨st2, st2', hinner⟩ := foldlM_some_of_mem _ _ _ _ hfold s
      (by rw [List.mem_range'_1]; omega)
    rw [innerStep, Option.map_eq_some'] at hinner
    obtain ⟨w, hw, -⟩ := hinner
    simp only [inv_mod] at hw
    rw [if_neg (show ¬((s.factorial : ℤ) < 0) from not_lt.mpr (by positivity))] at hw
    by_cases hgcd : Int.gcd (s.factorial : ℤ) ((n : ℤ) ^ s) ≠ 1
    · rw [if_pos hgcd] at hw
      exact absurd hw (by simp)
    · push_neg at hgcd
      have hg2 : Int.gcd ((s.factorial : ℕ) : ℤ) (((n ^ s : ℕ)) : ℤ) = 1 := by
        rw [show (((n ^ s : ℕ)) : ℤ) = (n : ℤ) ^ s by push_cast; ring]
        exact hgcd
      rw [Int.gcd_natCast_natCast] at hg2
      exact (Nat.coprime_pow_right_iff (by omega) _ _).mp hg2

/-! ## Homomorphic addition (C2) -/

/-- `reduceStep` only reads its input through `a mod n^(j+1)`. -/
theorem reduceStep_congr {a a' n : ℕ} {j s : ℕ} (hj : j ≤ s)
    (h : a ≡ a' [MOD n ^ (s + 1)]) (i : ℤ) :
    reduceStep n a j i = reduceStep n a' j i := by
  have hd : n ^ (j + 1) ∣ n ^ (s + 1) := pow_dvd_pow n (by omega)
  have hb : a % n ^ (j + 1) = a' % n ^ (j + 1) := by
    calc a % n ^ (j + 1) = a % n ^ (s + 1) % n ^ (j + 1) :=
          (Nat.mod_mod_of_dvd a hd).symm
      _ = a' % n ^ (s + 1) % n ^ (j + 1) := by
          rw [show a % n ^ (s + 1) = a' % n ^ (s + 1) from h]
      _ = a' % n ^ (j + 1) := Nat.mod_mod_of_dvd a' hd
  rw [reduceStep, reduceStep, hb]

/-- Congruence for option-valued folds with pointwise-equal steps. -/
theorem foldlM_congr {α σ : Type} (f g : σ → α → Option σ) :
    ∀ (l : List α), (∀ x ∈ l, ∀ st, f st x = g st x) →
    ∀ init, l.foldlM f init = l.foldlM g init := by
  intro l
  induction l with
  | nil => intro _ init; rfl
  | cons a l ih =>
    intro h init
    rw [List.foldlM_cons, List.foldlM_cons, h a (List.mem_cons_self a l)]
    cases g init a with
    | none => rfl
    | some st =>
      simp only [Option.bind_eq_bind, Option.some_bind]
      exact ih (fun x hx st => h x (List.mem_cons_of_mem a hx) st) st

/-- `damgard_jurik_reduce` only depends on its input modulo `n^(s+1)`. -/
theorem reduce_congr {a a' s n : ℕ} (h : a ≡ a' [MOD n ^ (s + 1)]) :
    reduce a s n = reduce a' s n := by
  rw [reduce, reduce]
  refine foldlM_congr _ _ _ ?_ 0
  intro j hj i
  rw [List.mem_range'_1] at hj
  exact reduceStep_congr (by omega) h i

/-- The additivity of `damgard_jurik_reduce` on products: if `reduce`
succeeds on two residues `≡ 1 (mod n)` then it succeeds on (anything
congruent to) their product, with additive result. -/
theorem reduce_mul {n s : ℕ} (hn : 2 ≤ n) (hco : Nat.Coprime s.factorial n)
    {a b ab : ℕ} (ha : a < n ^ (s + 1)) (hb : b < n ^ (s + 1))
    (ha1 : a % n = 1) (hb1 : b % n = 1)
    {va vb : ℤ} (hva : reduce a s n = some va) (hvb : reduce b s n = some vb)
    (hab : ab ≡ a * b [MOD n ^ (s + 1)]) :
    ∃ vab, reduce ab s n = some vab ∧ vab ≡ va + vb [ZMOD (n : ℤ) ^ s] := by
  obtain ⟨x, hx, hxe⟩ := exists_dlog hn hco ha ha1
  obtain ⟨y, hy, hye⟩ := exists_dlog hn hco hb hb1
  obtain ⟨v1, hv1, hc1⟩ := @reduce_spec n s x hn hco
  obtain ⟨v2, hv2, hc2⟩ := @reduce_spec n s y hn hco
  rw [hxe] at hv1
  rw [hye] at hv2
  rw [hva] at hv1
  rw [hvb] at hv2
  have e1 : va = v1 := by injection hv1
  have e2 : vb = v2 := by injection hv2
  have hab' : ab ≡ (1 + n) ^ (x + y) % n ^ (s + 1) [MOD n ^ (s + 1)] := by
    calc ab ≡ a * b [MOD n ^ (s + 1)] := hab
      _ = ((1 + n) ^ x % n ^ (s + 1)) * ((1 + n) ^ y % n ^ (s + 1)) := by
          rw [hxe, hye]
      _ ≡ (1 + n) ^ x * (1 + n) ^ y [MOD n ^ (s + 1)] :=
          Nat.ModEq.mul (Nat.mod_modEq _ _) (Nat.mod_modEq _ _)
      _ = (1 + n) ^ (x + y) := (pow_add _ _ _).symm
      _ ≡ (1 + n) ^ (x + y) % n ^ (s + 1) [MOD n ^ (s + 1)] :=
          (Nat.mod_modEq _ _).symm
  obtain ⟨v12, hv12, hc12⟩ := @reduce_spec n s (x + y) hn hco
  refine ⟨v12, ?_, ?_⟩
  · rw [reduce_congr hab']
    exact hv12
  · calc v12 ≡ ((x + y : ℕ) : ℤ) [ZMOD (n : ℤ) ^ s] := hc12
      _ = (x : ℤ) + (y : ℤ) := by push_cast; ring
      _ ≡ va + vb [ZMOD (n : ℤ) ^ s] := by
          have hc1' : va ≡ (x : ℤ) [ZMOD (n : ℤ) ^ s] := by rw [e1]; exact hc1
          have hc2' : vb ≡ (y : ℤ) [ZMOD (n : ℤ) ^ s] := by rw [e2]; exact hc2
          exact Int.ModEq.add hc1'.symm hc2'.symm

/-- The pure value computed by the combination fold of
`PrivateKeyRing.decrypt` once every Lagrange coefficient `lv i` is known to
exist: `∏ᵢ (v^{2Δsᵢ} mod K)^{(2λᵢ)⁺} mod K` accumulated left to right. -/
def combineVal (ring : PrivateKeyRing) (lv : ℕ → ℤ) (v : ℕ) : ℕ :=
  ring.private_key_shares.foldl
    (fun cp sh => cp * powMod (powMod v sh.two_delta_s_i ring.public_key.n_s_1)
      (2 * lv sh.i).toNat ring.public_key.n_s_1 % ring.public_key.n_s_1) 1

/-- The combination fold succeeds and computes the pure fold of the
Lagrange values whenever every `lam` lookup succeeds. -/
theorem decrypt_foldlM_eq (K : ℕ) (lam : ℕ → Option ℤ) (lv : ℕ → ℤ) :
    ∀ (l : List (ℕ × ℕ)) (init : ℕ), (∀ p ∈ l, lam p.2 = some (lv p.2)) →
    l.foldlM (fun cp p => (lam p.2).map
        (fun li => cp * powMod p.1 (2 * li).toNat K % K)) init
      = some (l.foldl (fun cp p => cp * powMod p.1 (2 * lv p.2).toNat K % K)
          init) := by
  intro l
  induction l with
  | nil => intro init _; rfl
  | cons p l ih =>
    intro init hall
    rw [List.foldlM_cons, hall p (List.mem_cons_self p l), Option.map_some']
    simp only [Option.bind_eq_bind, Option.some_bind]
    rw [List.foldl_cons]
    exact ih _ (fun x hx => hall x (List.mem_cons_of_mem p hx))

/-- The combination fold of `PrivateKeyRing.decrypt` evaluates to
`combineVal` when the ring is well-formed and every `lam` succeeds. -/
theorem decrypt_fold_eq (ring : PrivateKeyRing) (c : EncryptedNumber)
    (lv : ℕ → ℤ)
    (hshk : ∀ sh ∈ ring.private_key_shares, sh.public_key = ring.public_key)
    (hall : ∀ sh ∈ ring.private_key_shares, ring.lam sh.i = some (lv sh.i)) :
    ((ring.private_key_shares.map (fun sh => sh.decrypt c)).zip
        ring.i_list).foldlM
      (fun cp p => (ring.lam p.2).map
        (fun li => cp * powMod p.1 (2 * li).toNat ring.public_key.n_s_1
          % ring.public_key.n_s_1)) 1
      = some (combineVal ring lv c.value) := by
  have hmap : ring.private_key_shares.map (fun sh => sh.decrypt c)
      = ring.private_key_shares.map (fun sh =>
          powMod c.value sh.two_delta_s_i ring.public_key.n_s_1) := by
    refine List.map_congr_left ?_
    intro sh hsh
    rw [PrivateKeyShare.decrypt, hshk sh hsh]
  rw [hmap, PrivateKeyRing.i_list, List.zip_map']
  have hall2 : ∀ p ∈ ring.private_key_shares.map (fun sh =>
      (powMod c.value sh.two_delta_s_i ring.public_key.n_s_1, sh.i)),
      ring.lam p.2 = some (lv p.2) := by
    intro p hp
    obtain ⟨sh, hsh, rfl⟩ := List.mem_map.mp hp
    exact hall sh hsh
  rw [decrypt_foldlM_eq ring.public_key.n_s_1 ring.lam lv _ 1 hall2,
    List.foldl_map]
  rfl

/-- A fold whose every step ends in `mod K` stays below `K`. -/
theorem foldl_mod_lt {σ : Type} (K : ℕ) (hK : 0 < K) (f : ℕ → σ → ℕ) :
    ∀ (l : List σ) (acc : ℕ), acc < K →
      l.foldl (fun cp x => f cp x % K) acc < K := by
  intro l
  induction l with
  | nil => intro acc h; exact h
  | cons a l ih =>
    intro acc h
    rw [List.foldl_cons]
    exact ih _ (Nat.mod_lt _ hK)

/-- `combineVal` lies below the ciphertext modulus. -/
theorem combineVal_lt (ring : PrivateKeyRing) (lv : ℕ → ℤ) (v : ℕ)
    (hK : 2 ≤ ring.public_key.n_s_1) :
    combineVal ring lv v < ring.public_key.n_s_1 := by
  rw [combineVal]
  exact foldl_mod_lt ring.public_key.n_s_1
    (show 0 < ring.public_key.n_s_1 by omega)
    (fun cp (sh : PrivateKeyShare) => cp * powMod (powMod v sh.two_delta_s_i
      ring.public_key.n_s_1) (2 * lv sh.i).toNat ring.public_key.n_s_1)
    ring.private_key_shares 1 (by omega)

/-- One factor of the combination fold is multiplicative in the ciphertext
value, modulo `K`. -/
theorem powMod_mul_split (K e f v w : ℕ) :
    powMod (powMod (v * w % K) e K) f K
      ≡ powMod (powMod v e K) f K * powMod (powMod w e K) f K [MOD K] := by
  have hL : powMod (powMod (v * w % K) e K) f K = (v * w) ^ (e * f) % K := by
    rw [powMod_eq, powMod_eq, ← Nat.pow_mod, ← pow_mul, ← Nat.pow_mod]
  have hv : powMod (powMod v e K) f K = v ^ (e * f) % K := by
    rw [powMod_eq, powMod_eq, ← Nat.pow_mod, ← pow_mul]
  have hw : powMod (powMod w e K) f K = w ^ (e * f) % K := by
    rw [powMod_eq, powMod_eq, ← Nat.pow_mod, ← pow_mul]
  rw [hL, hv, hw, mul_pow]
  exact (Nat.mod_modEq _ _).trans
    (((Nat.mod_modEq _ _).mul (Nat.mod_modEq _ _)).symm)

/-- The combination fold is multiplicative in the ciphertext value:
generalized-accumulator induction. -/
theorem combineVal_fold_mul (K : ℕ) (e fx : PrivateKeyShare → ℕ) (v w : ℕ) :
    ∀ (l : List PrivateKeyShare) (a1 a2 a12 : ℕ), a12 ≡ a1 * a2 [MOD K] →
      l.foldl (fun cp sh =>
          cp * powMod (powMod (v * w % K) (e sh) K) (fx sh) K % K) a12
        ≡ (l.foldl (fun cp sh =>
            cp * powMod (powMod v (e sh) K) (fx sh) K % K) a1)
          * (l.foldl (fun cp sh =>
            cp * powMod (powMod w (e sh) K) (fx sh) K % K) a2) [MOD K] := by
  intro l
  induction l with
  | nil => intro a1 a2 a12 h; exact h
  | cons sh l ih =>
    intro a1 a2 a12 h
    simp only [List.foldl_cons]
    apply ih
    calc a12 * powMod (powMod (v * w % K) (e sh) K) (fx sh) K % K
        ≡ a12 * powMod (powMod (v * w % K) (e sh) K) (fx sh) K [MOD K] :=
          Nat.mod_modEq _ _
      _ ≡ (a1 * a2) * (powMod (powMod v (e sh) K) (fx sh) K
            * powMod (powMod w (e sh) K) (fx sh) K) [MOD K] :=
          Nat.ModEq.mul h (powMod_mul_split K (e sh) (fx sh) v w)
      _ = (a1 * powMod (powMod v (e sh) K) (fx sh) K)
            * (a2 * powMod (powMod w (e sh) K) (fx sh) K) := by ring
      _ ≡ (a1 * powMod (powMod v (e sh) K) (fx sh) K % K)
            * (a2 * powMod (powMod w (e sh) K) (fx sh) K % K) [MOD K] :=
          ((Nat.mod_modEq _ _).mul (Nat.mod_modEq _ _)).symm

/-- `combineVal` on a product ciphertext is the product of the
`combineVal`s, modulo `K`. -/
theorem combineVal_mul (ring : PrivateKeyRing) (lv : ℕ → ℤ) (v w : ℕ) :
    combineVal ring lv (v * w % ring.public_key.n_s_1)
      ≡ combineVal ring lv v * combineVal ring lv w
        [MOD ring.public_key.n_s_1] := by
  rw [combineVal, combineVal, combineVal]
  exact combineVal_fold_mul ring.public_key.n_s_1
    (fun sh => sh.two_delta_s_i) (fun sh => (2 * lv sh.i).toNat) v w
    ring.private_key_shares 1 1 1 (Nat.ModEq.refl 1)

/-- C2: homomorphic addition.  For a well-formed ring (every share carries
the ring's public key) over a key with `n ≥ 2`, `s ≥ 1`, and two
ciphertexts under that key that decrypt to `a` and `b`, `__add__` succeeds
and the resulting ciphertext decrypts to `(a + b) mod nˢ`. -/
theorem add_homomorphic (ring : PrivateKeyRing) (c1 c2 : EncryptedNumber)
    (hn : 2 ≤ ring.public_key.n) (hs : 1 ≤ ring.public_key.s)
    (hshk : ∀ sh ∈ ring.private_key_shares, sh.public_key = ring.public_key)
    (hk1 : c1.public_key = ring.public_key)
    (hk2 : c2.public_key = ring.public_key)
    {a b : ℤ} (h1 : ring.decrypt c1 = some a) (h2 : ring.decrypt c2 = some b) :
    ∃ c12, c1.add c2 = some c12 ∧
      ring.decrypt c12 = some ((a + b) % ((ring.public_key.n_s : ℕ) : ℤ)) := by
  have hKeq : ring.public_key.n_s_1 = ring.public_key.n ^ (ring.public_key.s + 1) := by
    rw [PublicKey.n_s_1, PublicKey.n_s, pow_succ]
  have hK2 : 2 ≤ ring.public_key.n_s_1 := by
    rw [hKeq]
    calc 2 ≤ ring.public_key.n := hn
      _ = ring.public_key.n ^ 1 := (pow_one _).symm
      _ ≤ ring.public_key.n ^ (ring.public_key.s + 1) :=
          Nat.pow_le_pow_right (by omega) (by omega)
  have hadd : c1.add c2
      = some ⟨c1.value * c2.value % ring.public_key.n_s_1, ring.public_key⟩ := by
    rw [EncryptedNumber.add,
      if_neg (not_not_intro (hk1.trans hk2.symm)), hk1]
  simp only [PrivateKeyRing.decrypt] at h1 h2
  rw [Option.bind_eq_some'] at h1 h2
  obtain ⟨F1, hF1, h1r⟩ := h1
  obtain ⟨F2, hF2, h2r⟩ := h2
  rw [Option.map_eq_some'] at h1r h2r
  obtain ⟨v1, hv1, ha⟩ := h1r
  obtain ⟨v2, hv2, hb⟩ := h2r
  have hall : ∀ sh ∈ ring.private_key_shares,
      ring.lam sh.i = some ((ring.lam sh.i).getD 0) := by
    intro sh hsh
    have hpmem : (sh.decrypt c1, sh.i)
        ∈ (ring.private_key_shares.map (fun sh => sh.decrypt c1)).zip
          ring.i_list := by
      rw [PrivateKeyRing.i_list, List.zip_map']
      exact List.mem_map.mpr ⟨sh, hsh, rfl⟩
    obtain ⟨st, st', hstep⟩ := foldlM_some_of_mem _ _ _ _ hF1 _ hpmem
    obtain ⟨w, hw, -⟩ := Option.map_eq_some'.mp hstep
    rw [hw]
    rfl
  have hfold1 := decrypt_fold_eq ring c1 (fun i => (ring.lam i).getD 0)
    hshk hall
  have hfold2 := decrypt_fold_eq ring c2 (fun i => (ring.lam i).getD 0)
    hshk hall
  rw [hF1] at hfold1
  rw [hF2] at hfold2
  have hE1 : F1 = combineVal ring (fun i => (ring.lam i).getD 0) c1.value := by
    injection hfold1
  have hE2 : F2 = combineVal ring (fun i => (ring.lam i).getD 0) c2.value := by
    injection hfold2
  rw [hE1] at hv1
  rw [hE2] at hv2
  have hco := reduce_coprime hn hv1
  have hmod1 := reduce_mod_one hs hn hv1
  have hmod2 := reduce_mod_one hs hn hv2
  have hlt1 : combineVal ring (fun i => (ring.lam i).getD 0) c1.value
      < ring.public_key.n ^ (ring.public_key.s + 1) := by
    rw [← hKeq]
    exact combineVal_lt ring _ _ hK2
  have hlt2 : combineVal ring (fun i => (ring.lam i).getD 0) c2.value
      < ring.public_key.n ^ (ring.public_key.s + 1) := by
    rw [← hKeq]
    exact combineVal_lt ring _ _ hK2
  have hmul12 : combineVal ring (fun i => (ring.lam i).getD 0)
        (c1.value * c2.value % ring.public_key.n_s_1)
      ≡ combineVal ring (fun i => (ring.lam i).getD 0) c1.value
        * combineVal ring (fun i => (ring.lam i).getD 0) c2.value
        [MOD ring.public_key.n ^ (ring.public_key.s + 1)] := by
    rw [← hKeq]
    exact combineVal_mul ring _ _ _
  obtain ⟨v12, hred12, hcong12⟩ :=
    reduce_mul hn hco hlt1 hlt2 hmod1 hmod2 hv1 hv2 hmul12
  refine ⟨⟨c1.value * c2.value % ring.public_key.n_s_1, ring.public_key⟩,
    hadd, ?_⟩
  simp only [PrivateKeyRing.decrypt]
  have hfold12 := decrypt_fold_eq ring
    ⟨c1.value * c2.value % ring.public_key.n_s_1, ring.public_key⟩
    (fun i => (ring.lam i).getD 0) hshk hall
  rw [hfold12]
  rw [Option.bind_eq_some']
  refine ⟨_, rfl, ?_⟩
  have hval : (⟨c1.value * c2.value % ring.public_key.n_s_1,
      ring.public_key⟩ : EncryptedNumber).value
      = c1.value * c2.value % ring.public_key.n_s_1 := rfl
  rw [hval, hred12, Option.map_some']
  have hNcast : ((ring.public_key.n_s : ℕ) : ℤ)
      = (ring.public_key.n : ℤ) ^ ring.public_key.s := by
    rw [PublicKey.n_s]
    push_cast
    ring
  rw [← hNcast] at hcong12
  have hfinal : v12 * ring.inv_four_delta_squared ≡ a + b
      [ZMOD ((ring.public_key.n_s : ℕ) : ℤ)] := by
    calc v12 * ring.inv_four_delta_squared
        ≡ (v1 + v2) * ring.inv_four_delta_squared
          [ZMOD ((ring.public_key.n_s : ℕ) : ℤ)] :=
          hcong12.mul_right _
      _ = v1 * ring.inv_four_delta_squared
            + v2 * ring.inv_four_delta_squared := by ring
      _ ≡ (v1 * ring.inv_four_delta_squared % ((ring.public_key.n_s : ℕ) : ℤ))
            + (v2 * ring.inv_four_delta_squared
              % ((ring.public_key.n_s : ℕ) : ℤ))
          [ZMOD ((ring.public_key.n_s : ℕ) : ℤ)] :=
          Int.ModEq.add (Int.emod_emod_of_dvd _ dvd_rfl).symm
            (Int.emod_emod_of_dvd _ dvd_rfl).symm
      _ = a + b := by rw [ha, hb]
  exact congrArg some hfinal

/-- Witness for `add_homomorphic`: a concrete one-share key with
`n = 3`, `s = 1`, both ciphertexts encrypting `1`, the sum decrypting to
`2 = (1 + 1) mod 3`. -/
theorem add_homomorphic_witness :
    ∃ c12, EncryptedNumber.add ⟨4, ⟨3, 1, 1, 1, 1⟩⟩ ⟨4, ⟨3, 1, 1, 1, 1⟩⟩
        = some c12 ∧
      PrivateKeyRing.decrypt ⟨⟨3, 1, 1, 1, 1⟩, [⟨⟨3, 1, 1, 1, 1⟩, 1, 1⟩], 1⟩
          c12
        = some ((1 + 1) % ((PublicKey.n_s ⟨3, 1, 1, 1, 1⟩ : ℕ) : ℤ)) :=
  add_homomorphic ⟨⟨3, 1, 1, 1, 1⟩, [⟨⟨3, 1, 1, 1, 1⟩, 1, 1⟩], 1⟩
    ⟨4, ⟨3, 1, 1, 1, 1⟩⟩ ⟨4, ⟨3, 1, 1, 1, 1⟩⟩
    (by decide) (by decide) (by decide) rfl rfl
    (show PrivateKeyRing.decrypt
        ⟨⟨3, 1, 1, 1, 1⟩, [⟨⟨3, 1, 1, 1, 1⟩, 1, 1⟩], 1⟩ ⟨4, ⟨3, 1, 1, 1, 1⟩⟩
      = some 1 by decide)
    (show PrivateKeyRing.decrypt
        ⟨⟨3, 1, 1, 1, 1⟩, [⟨⟨3, 1, 1, 1, 1⟩, 1, 1⟩], 1⟩ ⟨4, ⟨3, 1, 1, 1, 1⟩⟩
      = some 1 by decide)

/-! ## Encrypt/decrypt round trip (C1) -/

set_option maxRecDepth 100000 in
/-- C1 counterexample: `encrypt` draws `r` uniformly from `[1, n)` with no
coprimality check, and the round trip fails when `gcd(r, n) ≠ 1`.  With the
16-bit safe primes `p = 32843 = 2·16421 + 1`, `q = 32987 = 2·16493 + 1`,
the key produced by `keygen(n_bits = 16, s = 1, threshold = 1,
n_shares = 1)`, plaintext `m = 1 < nˢ` and randomness `r = p ∈ [1, n)`,
decryption aborts (the `assert` in `damgard_jurik_reduce` fails), so the
round trip does not return `m`. -/
theorem roundtrip_fails_for_noncoprime_r :
    Nat.Prime 32843 ∧ Nat.Prime 16421 ∧ 32843 = 2 * 16421 + 1 ∧
    Nat.Prime 32987 ∧ Nat.Prime 16493 ∧ 32987 = 2 * 16493 + 1 ∧
    2 ^ 15 ≤ 32843 ∧ 32843 < 2 ^ 16 ∧ 2 ^ 15 ≤ 32987 ∧ 32987 < 2 ^ 16 ∧
    ∃ pk ring, keygen 16 1 1 1 32843 32987 [] = some (pk, ring) ∧
      1 < pk.n_s ∧ 1 ≤ 32843 ∧ 32843 < pk.n ∧
      ring.decrypt (pk.encrypt 1 32843) = none := by
  refine ⟨by norm_num, by norm_num, by norm_num, by norm_num, by norm_num,
    by norm_num, by norm_num, by norm_num, by norm_num, by norm_num,
    ⟨1083392041, 1, 270831553, 1, 1⟩,
    ⟨⟨1083392041, 1, 270831553, 1, 1⟩,
      [⟨⟨1083392041, 1, 270831553, 1, 1⟩, 1, 28499699113233550⟩],
      812544031⟩, ?_, ?_, ?_, ?_, ?_⟩
  · decide
  · decide
  · decide
  · decide
  · decide

/-- Transfer of an integer congruence between casts of naturals back to
`Nat.ModEq`. -/
theorem natModEq_of_intModEq {a b N : ℕ}
    (h : (a : ℤ) ≡ (b : ℤ) [ZMOD (N : ℤ)]) : a ≡ b [MOD N] := by
  have h2 : ((a % N : ℕ) : ℤ) = ((b % N : ℕ) : ℤ) := by
    rw [Int.natCast_mod, Int.natCast_mod]
    exact h
  exact_mod_cast h2

/-- `Nat` form of the order of `1 + n`: `(1+n)^(nˢ) ≡ 1 (mod n^(s+1))`. -/
theorem one_add_pow_order_nat (n s : ℕ) :
    (1 + n) ^ n ^ s ≡ 1 [MOD n ^ (s + 1)] := by
  refine natModEq_of_intModEq ?_
  have h := one_add_pow_order n s
  have hc : ((n ^ (s + 1) : ℕ) : ℤ) = (n : ℤ) ^ (s + 1) := by push_cast; ring
  rw [hc]
  calc (((1 + n) ^ n ^ s : ℕ) : ℤ) = ((1 + n : ℕ) : ℤ) ^ n ^ s := by push_cast; ring
    _ ≡ 1 [ZMOD (n : ℤ) ^ (s + 1)] := h

/-- Euler/CRT order bound: for `n = p·q` with `p = 2p'+1`, `q = 2q'+1`
distinct primes, every `r` coprime to `n` satisfies
`r^(2·nˢ·(p'·q')) ≡ 1 (mod n^(s+1))`. -/
theorem unit_pow_order {p q p' q' : ℕ} (hp : p.Prime) (hq : q.Prime)
    (hpe : p = 2 * p' + 1) (hqe : q = 2 * q' + 1) (hpq : p ≠ q) (s : ℕ)
    {r : ℕ} (hr : Nat.Coprime r (p * q)) :
    r ^ (2 * (p * q) ^ s * (p' * q')) ≡ 1 [MOD (p * q) ^ (s + 1)] := by
  have hrp : Nat.Coprime r p := Nat.Coprime.coprime_dvd_right ⟨q, rfl⟩ hr
  have hrq : Nat.Coprime r q :=
    Nat.Coprime.coprime_dvd_right ⟨p, mul_comm p q⟩ hr
  have hmodp : r ^ (2 * (p * q) ^ s * (p' * q')) ≡ 1 [MOD p ^ (s + 1)] := by
    have hco : Nat.Coprime r (p ^ (s + 1)) := hrp.pow_right _
    have htot := Nat.ModEq.pow_totient hco
    have htp : (p ^ (s + 1)).totient = p ^ s * (p - 1) := by
      rw [Nat.totient_prime_pow hp (Nat.succ_pos s)]
      simp
    have hdvd : (p ^ (s + 1)).totient ∣ 2 * (p * q) ^ s * (p' * q') := by
      rw [htp, hpe, Nat.add_sub_cancel]
      exact ⟨q ^ s * q', by rw [mul_pow]; ring⟩
    obtain ⟨t, ht⟩ := hdvd
    rw [ht, pow_mul]
    calc (r ^ (p ^ (s + 1)).totient) ^ t ≡ 1 ^ t [MOD p ^ (s + 1)] :=
          htot.pow t
      _ = 1 := one_pow t
  have hmodq : r ^ (2 * (p * q) ^ s * (p' * q')) ≡ 1 [MOD q ^ (s + 1)] := by
    have hco : Nat.Coprime r (q ^ (s + 1)) := hrq.pow_right _
    have htot := Nat.ModEq.pow_totient hco
    have htq : (q ^ (s + 1)).totient = q ^ s * (q - 1) := by
      rw [Nat.totient_prime_pow hq (Nat.succ_pos s)]
      simp
    have hdvd : (q ^ (s + 1)).totient ∣ 2 * (p * q) ^ s * (p' * q') := by
      rw [htq, hqe, Nat.add_sub_cancel]
      exact ⟨p ^ s * p', by rw [mul_pow]; ring⟩
    obtain ⟨t, ht⟩ := hdvd
    rw [ht, pow_mul]
    calc (r ^ (q ^ (s + 1)).totient) ^ t ≡ 1 ^ t [MOD q ^ (s + 1)] :=
          htot.pow t
      _ = 1 := one_pow t
  have hcop : Nat.Coprime (p ^ (s + 1)) (q ^ (s + 1)) :=
    Nat.Coprime.pow _ _ ((Nat.coprime_primes hp hq).mpr hpq)
  have hres := (Nat.modEq_and_modEq_iff_modEq_mul hcop).mp ⟨hmodp, hmodq⟩
  rwa [← mul_pow] at hres

/-- Exponent reduction below a known power of order one:
`a^T ≡ 1 (mod K)` and `e ≡ e' (mod T)` give `a^e ≡ a^e' (mod K)`. -/
theorem pow_congr_of_pow_eq_one {a K T : ℕ} (hT : 0 < T)
    (h1 : a ^ T ≡ 1 [MOD K]) {e e' : ℕ} (he : e ≡ e' [MOD T]) :
    a ^ e ≡ a ^ e' [MOD K] := by
  have key : ∀ x : ℕ, a ^ x ≡ a ^ (x % T) [MOD K] := by
    intro x
    conv_lhs => rw [show x = T * (x / T) + x % T from (Nat.div_add_mod x T).symm]
    rw [pow_add, pow_mul]
    calc (a ^ T) ^ (x / T) * a ^ (x % T)
        ≡ 1 ^ (x / T) * a ^ (x % T) [MOD K] :=
          Nat.ModEq.mul (h1.pow _) (Nat.ModEq.refl _)
      _ = a ^ (x % T) := by rw [one_pow, one_mul]
  calc a ^ e ≡ a ^ (e % T) [MOD K] := key e
    _ = a ^ (e' % T) := by rw [he]
    _ ≡ a ^ e' [MOD K] := (key e').symm

/-- Collapsing two chained `powMod`s. -/
theorem powMod_powMod (K e f v : ℕ) :
    powMod (powMod v e K) f K = v ^ (e * f) % K := by
  rw [powMod_eq, powMod_eq, ← Nat.pow_mod, ← pow_mul]

/-- The combination fold of `decrypt` is a single power of the ciphertext
value: generalized-accumulator induction. -/
theorem combineVal_fold_pow {σ : Type} (K : ℕ) (e fx : σ → ℕ) (v : ℕ) :
    ∀ (l : List σ) (acc E0 : ℕ), acc ≡ v ^ E0 [MOD K] →
      l.foldl (fun cp sh => cp * powMod (powMod v (e sh) K) (fx sh) K % K) acc
        ≡ v ^ (E0 + (l.map (fun sh => e sh * fx sh)).sum) [MOD K] := by
  intro l
  induction l with
  | nil => intro acc E0 h; simpa using h
  | cons sh l ih =>
    intro acc E0 h
    rw [List.foldl_cons, List.map_cons, List.sum_cons]
    have hstep : acc * powMod (powMod v (e sh) K) (fx sh) K % K
        ≡ v ^ (E0 + e sh * fx sh) [MOD K] := by
      calc acc * powMod (powMod v (e sh) K) (fx sh) K % K
          ≡ acc * powMod (powMod v (e sh) K) (fx sh) K [MOD K] :=
            Nat.mod_modEq _ _
        _ = acc * (v ^ (e sh * fx sh) % K) := by rw [powMod_powMod]
        _ ≡ v ^ E0 * v ^ (e sh * fx sh) [MOD K] :=
            Nat.ModEq.mul h (Nat.mod_modEq _ _)
        _ = v ^ (E0 + e sh * fx sh) := (pow_add v _ _).symm
    have hres := ih _ _ hstep
    have hE : E0 + e sh * fx sh + (l.map (fun sh => e sh * fx sh)).sum
        = E0 + (e sh * fx sh + (l.map (fun sh => e sh * fx sh)).sum) := by
      ring
    rw [hE] at hres
    exact hres

/-- `combineVal` is the ciphertext value raised to the total exponent
`Σᵢ 2Δsᵢ·(2λᵢ)⁺`, modulo `K`. -/
theorem combineVal_pow (ring : PrivateKeyRing) (lv : ℕ → ℤ) (v : ℕ) :
    combineVal ring lv v
      ≡ v ^ ((ring.private_key_shares.map
          (fun sh => sh.two_delta_s_i * (2 * lv sh.i).toNat)).sum)
        [MOD ring.public_key.n_s_1] := by
  rw [combineVal]
  have hres := combineVal_fold_pow ring.public_key.n_s_1
    (fun sh => sh.two_delta_s_i) (fun sh => (2 * lv sh.i).toNat) v
    ring.private_key_shares 1 0 (by rw [pow_zero])
  simpa using hres

/-! ## Lagrange interpolation over `ZMod N` (composite modulus) -/

/-- A polynomial over `ZMod N` vanishing on a list of points with pairwise
unit differences, of degree below the number of points, is zero. -/
theorem poly_eq_zero_of_roots {N : ℕ} :
    ∀ (xs : List (ZMod N)) (g : Polynomial (ZMod N)),
      xs.Pairwise (fun a b => IsUnit (a - b)) →
      (∀ x ∈ xs, g.eval x = 0) → g.natDegree < xs.length → g = 0 := by
  intro xs
  induction xs with
  | nil =>
    intro g _ _ hdeg
    exact absurd hdeg (by simp)
  | cons x rest ih =>
    intro g hpw hroot hdeg
    obtain ⟨h, hg⟩ :=
      Polynomial.dvd_iff_isRoot.mpr (hroot x (List.mem_cons_self x rest))
    by_cases hh : h = 0
    · rw [hg, hh, mul_zero]
    · haveI hnt : Nontrivial (ZMod N) := by
        rcases subsingleton_or_nontrivial (ZMod N) with hsub | hnt
        · exact absurd (Subsingleton.elim h 0) hh
        · exact hnt
      have hld : (Polynomial.X - Polynomial.C x).leadingCoeff
          * h.leadingCoeff ≠ 0 := by
        rw [(Polynomial.monic_X_sub_C x).leadingCoeff, one_mul]
        exact Polynomial.leadingCoeff_ne_zero.mpr hh
      have hdm := Polynomial.natDegree_mul' hld
      rw [Polynomial.natDegree_X_sub_C] at hdm
      have hroot' : ∀ y ∈ rest, h.eval y = 0 := by
        intro y hy
        have he := hroot y (List.mem_cons_of_mem x hy)
        rw [hg, Polynomial.eval_mul, Polynomial.eval_sub, Polynomial.eval_X,
          Polynomial.eval_C] at he
        have hu : IsUnit (y - x) := by
          have hu0 := (List.pairwise_cons.mp hpw).1 y hy
          have hu1 := hu0.neg
          rwa [neg_sub] at hu1
        exact (hu.mul_right_eq_zero).mp he
      have hdlt : h.natDegree < rest.length := by
        rw [hg, hdm] at hdeg
        simp only [List.length_cons] at hdeg
        omega
      exact absurd (ih h (List.pairwise_cons.mp hpw).2 hroot' hdlt) hh

/-- Evaluation distributes over list sums of polynomials. -/
theorem eval_list_sum {N : ℕ} (l : List (Polynomial (ZMod N))) (x : ZMod N) :
    Polynomial.eval x l.sum = (l.map (Polynomial.eval x)).sum := by
  induction l with
  | nil => simp
  | cons p l ih => simp [ih]

/-- A mapped list sum collapses to the single nonzero term. -/
theorem sum_map_eq_single {α M : Type} [AddCommMonoid M] (t : α → M) :
    ∀ (xs : List α) (xk : α), xs.Nodup → xk ∈ xs →
      (∀ xi ∈ xs, xi ≠ xk → t xi = 0) → (xs.map t).sum = t xk := by
  intro xs
  induction xs with
  | nil => intro xk _ h; simp at h
  | cons y rest ih =>
    intro xk hnd hmem hz
    rw [List.map_cons, List.sum_cons]
    rcases List.mem_cons.mp hmem with rfl | hmem'
    · have hrest : (rest.map t).sum = 0 := by
        refine List.sum_eq_zero ?_
        intro v hv
        obtain ⟨xi, hxi, rfl⟩ := List.mem_map.mp hv
        refine hz xi (List.mem_cons_of_mem _ hxi) ?_
        rintro rfl
        exact (List.nodup_cons.mp hnd).1 hxi
      rw [hrest, add_zero]
    · have hyne : y ≠ xk := by
        rintro rfl
        exact (List.nodup_cons.mp hnd).1 hmem'
      rw [hz y (List.mem_cons_self y rest) hyne, zero_add]
      exact ih xk (List.nodup_cons.mp hnd).2 hmem'
        (fun xi hxi => hz xi (List.mem_cons_of_mem _ hxi))

/-- Inverse of a negated unit in `ZMod N`. -/
theorem zmod_neg_inv {N : ℕ} {u : ZMod N} (hu : IsUnit u) :
    (-u)⁻¹ = -u⁻¹ := by
  have h1 : (-u⁻¹) * (-u) = 1 := by
    rw [neg_mul_neg, mul_comm]
    exact ZMod.mul_inv_of_unit u hu
  calc (-u)⁻¹ = 1 * (-u)⁻¹ := (one_mul _).symm
    _ = ((-u⁻¹) * (-u)) * (-u)⁻¹ := by rw [h1]
    _ = (-u⁻¹) * ((-u) * (-u)⁻¹) := by ring
    _ = -u⁻¹ := by rw [ZMod.mul_inv_of_unit (-u) hu.neg, mul_one]

/-- Bound on `foldr max 0`. -/
theorem foldr_max_le {B : ℕ} :
    ∀ {l : List ℕ}, (∀ x ∈ l, x ≤ B) → l.foldr max 0 ≤ B := by
  intro l
  induction l with
  | nil => intro _; simp
  | cons a l ih =>
    intro h
    rw [List.foldr_cons]
    exact max_le (h a (List.mem_cons_self a l))
      (ih (fun x hx => h x (List.mem_cons_of_mem a hx)))

/-- Lagrange interpolation at `0` over `ZMod N`, for node lists with
pairwise unit differences: `Σᵢ f(xᵢ)·Πⱼ xⱼ·(xⱼ-xᵢ)⁻¹ = f(0)`. -/
theorem lagrange_interpolation {N : ℕ} (xs : List (ZMod N))
    (hpw : xs.Pairwise (fun a b => IsUnit (a - b))) (hnd : xs.Nodup)
    (f : Polynomial (ZMod N)) (hdeg : f.natDegree < xs.length) :
    (xs.map (fun xi => f.eval xi *
      ((xs.filter (fun xj => xj ≠ xi)).map
        (fun xj => xj * (xj - xi)⁻¹)).prod)).sum = f.eval 0 := by
  have hunit : ∀ xi ∈ xs, ∀ xj ∈ xs, xj ≠ xi → IsUnit (xi - xj) := by
    intro xi hxi xj hxj hne
    have hsymm : Symmetric (fun a b : ZMod N => IsUnit (a - b)) := by
      intro a b hab
      have h2 := hab.neg
      rwa [neg_sub] at h2
    exact List.Pairwise.forall hsymm hpw hxi hxj (fun he => hne he.symm)
  set P' : Polynomial (ZMod N) := (xs.map (fun xi =>
    Polynomial.C (f.eval xi) *
      ((xs.filter (fun xj => xj ≠ xi)).map
        (fun xj => (Polynomial.X - Polynomial.C xj)
          * Polynomial.C ((xi - xj)⁻¹))).prod)).sum with hP'
  have hevalP' : ∀ z : ZMod N, Polynomial.eval z P'
      = (xs.map (fun xi => f.eval xi *
          ((xs.filter (fun xj => xj ≠ xi)).map
            (fun xj => (z - xj) * (xi - xj)⁻¹)).prod)).sum := by
    intro z
    rw [hP', eval_list_sum, List.map_map]
    refine congrArg List.sum (List.map_congr_left ?_)
    intro xi _
    simp only [Function.comp_apply, Polynomial.eval_mul, Polynomial.eval_C,
      Polynomial.eval_list_prod, List.map_map]
    refine congrArg (fun w => f.eval xi * w) (congrArg List.prod
      (List.map_congr_left ?_))
    intro xj _
    simp [Polynomial.eval_mul, Polynomial.eval_sub]
  have hevalnode : ∀ xk ∈ xs, Polynomial.eval xk P' = f.eval xk := by
    intro xk hxk
    rw [hevalP' xk]
    have hz : ∀ xi ∈ xs, xi ≠ xk → f.eval xi *
        ((xs.filter (fun xj => xj ≠ xi)).map
          (fun xj => (xk - xj) * (xi - xj)⁻¹)).prod = 0 := by
      intro xi hxi hne
      have hzero : ((xs.filter (fun xj => xj ≠ xi)).map
          (fun xj => (xk - xj) * (xi - xj)⁻¹)).prod = 0 := by
        refine List.prod_eq_zero ?_
        refine List.mem_map.mpr ⟨xk, ?_, by simp⟩
        refine List.mem_filter.mpr ⟨hxk, by simpa using hne.symm⟩
      rw [hzero, mul_zero]
    have hcollapse := sum_map_eq_single (fun xi => f.eval xi *
      ((xs.filter (fun xj => xj ≠ xi)).map
        (fun xj => (xk - xj) * (xi - xj)⁻¹)).prod) xs xk hnd hxk hz
    refine hcollapse.trans ?_
    show f.eval xk * ((xs.filter (fun xj => xj ≠ xk)).map
      (fun xj => (xk - xj) * (xk - xj)⁻¹)).prod = f.eval xk
    have hone : ((xs.filter (fun xj => xj ≠ xk)).map
        (fun xj => (xk - xj) * (xk - xj)⁻¹)).prod = 1 := by
      refine List.prod_eq_one ?_
      intro v hv
      obtain ⟨xj, hxj, rfl⟩ := List.mem_map.mp hv
      obtain ⟨hxj1, hxj2⟩ := List.mem_filter.mp hxj
      exact ZMod.mul_inv_of_unit _ (hunit xk hxk xj hxj1 (by simpa using hxj2))
    rw [hone, mul_one]
  have hdegP' : P'.natDegree < xs.length := by
    cases hxs : xs with
    | nil => rw [hxs] at hdeg; exact absurd hdeg (by simp)
    | cons a l =>
      rw [← hxs]
      have hlen : 1 ≤ xs.length := by rw [hxs]; simp
      refine lt_of_le_of_lt (le_trans (Polynomial.natDegree_list_sum_le _)
        (foldr_max_le ?_)) (show xs.length - 1 < xs.length by omega)
      intro w hw
      rw [List.map_map] at hw
      obtain ⟨xi, hxi, rfl⟩ := List.mem_map.mp hw
      simp only [Function.comp_apply]
      refine le_trans Polynomial.natDegree_mul_le ?_
      rw [Polynomial.natDegree_C, zero_add]
      refine le_trans (Polynomial.natDegree_list_prod_le _) ?_
      have hterm : ∀ y ∈ ((xs.filter (fun xj => xj ≠ xi)).map
          (fun xj => (Polynomial.X - Polynomial.C xj)
            * Polynomial.C ((xi - xj)⁻¹))).map Polynomial.natDegree,
          y ≤ 1 := by
        intro y hy
        rw [List.map_map] at hy
        obtain ⟨xj, _, rfl⟩ := List.mem_map.mp hy
        simp only [Function.comp_apply]
        refine le_trans Polynomial.natDegree_mul_le ?_
        rw [Polynomial.natDegree_C, add_zero]
        exact Polynomial.natDegree_X_sub_C_le xj
      refine le_trans (List.sum_le_card_nsmul _ 1 hterm) ?_
      simp only [List.length_map, smul_eq_mul, mul_one]
      have hflt : (xs.filter (fun xj => xj ≠ xi)).length < xs.length :=
        List.length_filter_lt_length_iff_exists.mpr ⟨xi, hxi, by simp⟩
      omega
  have hg0 : f - P' = 0 := by
    refine poly_eq_zero_of_roots xs (f - P') hpw ?_ ?_
    · intro x hx
      rw [Polynomial.eval_sub, hevalnode x hx, sub_self]
    · refine lt_of_le_of_lt (Polynomial.natDegree_sub_le f P') ?_
      exact max_lt hdeg hdegP'
  have hfP' : f = P' := by
    have h1 : f - P' + P' = 0 + P' := by rw [hg0]
    rwa [sub_add_cancel, zero_add] at h1
  have hconv : (xs.map (fun xi => f.eval xi *
      ((xs.filter (fun xj => xj ≠ xi)).map
        (fun xj => xj * (xj - xi)⁻¹)).prod)).sum
      = (xs.map (fun xi => f.eval xi *
        ((xs.filter (fun xj => xj ≠ xi)).map
          (fun xj => (0 - xj) * (xi - xj)⁻¹)).prod)).sum := by
    refine congrArg List.sum (List.map_congr_left ?_)
    intro xi hxi
    refine congrArg (fun w => Polynomial.eval xi f * w)
      (congrArg List.prod (List.map_congr_left ?_))
    intro xj hxj
    obtain ⟨hxj1, hxj2⟩ := List.mem_filter.mp hxj
    have hu : IsUnit (xi - xj) := hunit xi hxi xj hxj1 (by simpa using hxj2)
    calc xj * (xj - xi)⁻¹ = xj * (-(xi - xj))⁻¹ := by rw [neg_sub]
      _ = xj * (-(xi - xj)⁻¹) := by rw [zmod_neg_inv hu]
      _ = (0 - xj) * (xi - xj)⁻¹ := by ring
  rw [hconv, ← hevalP' 0, hfP']

/-- Uniqueness of inverses in `ZMod N`. -/
theorem zmod_eq_inv_of_mul_eq_one {N : ℕ} {u x : ZMod N} (h : x * u = 1) :
    x = u⁻¹ := by
  have hu : IsUnit u := isUnit_of_mul_eq_one u x (by rw [mul_comm]; exact h)
  calc x = x * (u * u⁻¹) := by rw [ZMod.mul_inv_of_unit u hu, mul_one]
    _ = (x * u) * u⁻¹ := by ring
    _ = u⁻¹ := by rw [h, one_mul]

/-- The `lam` fold of `PrivateKeyRing.decrypt` succeeds when every index
difference is invertible, and its value casts to
`acc·Π i'·(i'-i)⁻¹` in `ZMod (nˢ·m)`. -/
theorem lam_fold_spec (N : ℕ) (hN : 0 < N) (i : ℕ) :
    ∀ (l : List ℕ) (acc : ℤ), 0 ≤ acc → acc < N →
      (∀ ip ∈ l, Int.gcd ((ip : ℤ) - (i : ℤ)) (N : ℤ) = 1 ∧
        (i : ℤ) ≤ (N : ℤ) + ip) →
      ∃ L : ℤ, l.foldlM (fun (l : ℤ) (ip : ℕ) =>
          (inv_mod ((ip : ℤ) - (i : ℤ)) (N : ℤ)).map
            (fun w => l * (ip : ℤ) * w % (N : ℤ))) acc = some L ∧
        0 ≤ L ∧ L < N ∧
        (L : ZMod N) = (acc : ZMod N) *
          (l.map (fun (ip : ℕ) => (ip : ZMod N)
            * ((ip : ZMod N) - (i : ZMod N))⁻¹)).prod := by
  intro l
  induction l with
  | nil =>
    intro acc h0 h1 _
    exact ⟨acc, rfl, h0, h1, by simp⟩
  | cons ip l ih =>
    intro acc h0 h1 hall
    obtain ⟨hgcd, hle⟩ := hall ip (List.mem_cons_self ip l)
    have hN' : (0 : ℤ) < (N : ℤ) := by exact_mod_cast hN
    obtain ⟨w, hw⟩ := Option.isSome_iff_exists.mp (inv_mod_isSome hN' hgcd)
    obtain ⟨hmul, hw0, hwN⟩ := inv_mod_spec hN' (by linarith) hw
    rw [List.foldlM_cons, hw, Option.map_some']
    simp only [Option.bind_eq_bind, Option.some_bind]
    have hacc'0 : 0 ≤ acc * (ip : ℤ) * w % (N : ℤ) :=
      Int.emod_nonneg _ hN'.ne'
    have hacc'N : acc * (ip : ℤ) * w % (N : ℤ) < N :=
      Int.emod_lt_of_pos _ hN'
    obtain ⟨L, hL, hL0, hLN, hLcast⟩ := ih _ hacc'0 hacc'N
      (fun x hx => hall x (List.mem_cons_of_mem _ hx))
    refine ⟨L, hL, hL0, hLN, ?_⟩
    have hwcast : ((w : ℤ) : ZMod N)
        = ((ip : ZMod N) - (i : ZMod N))⁻¹ := by
      refine zmod_eq_inv_of_mul_eq_one ?_
      have hc := (ZMod.intCast_eq_intCast_iff _ _ _).mpr hmul
      push_cast at hc
      rw [mul_comm] at hc
      exact hc
    have haccc : ((acc * (ip : ℤ) * w % (N : ℤ) : ℤ) : ZMod N)
        = (acc : ZMod N) * (ip : ZMod N)
          * ((ip : ZMod N) - (i : ZMod N))⁻¹ := by
      rw [ZMod.intCast_mod]
      push_cast
      rw [hwcast]
    rw [hLcast, haccc, List.map_cons, List.prod_cons]
    ring

/-- `PrivateKeyRing.lam` succeeds under invertible index differences, with
value `Δ·Π i'·(i'-i)⁻¹` in `ZMod (nˢ·m)` and in the range `[0, nˢ·m)`. -/
theorem lam_spec (ring : PrivateKeyRing) (i : ℕ)
    (hN : 0 < ring.public_key.n_s_m)
    (hall : ∀ ip ∈ ring.i_list.dedup.filter (fun ip => ip ≠ i),
      Int.gcd ((ip : ℤ) - (i : ℤ)) (ring.public_key.n_s_m : ℤ) = 1 ∧
      (i : ℤ) ≤ (ring.public_key.n_s_m : ℤ) + ip) :
    ∃ L : ℤ, ring.lam i = some L ∧ 0 ≤ L ∧ L < ring.public_key.n_s_m ∧
      (L : ZMod ring.public_key.n_s_m)
        = (ring.public_key.delta : ZMod ring.public_key.n_s_m) *
          ((ring.i_list.dedup.filter (fun ip => ip ≠ i)).map
            (fun (ip : ℕ) => (ip : ZMod ring.public_key.n_s_m)
              * ((ip : ZMod ring.public_key.n_s_m)
                - (i : ZMod ring.public_key.n_s_m))⁻¹)).prod := by
  have hN' : (0 : ℤ) < (ring.public_key.n_s_m : ℤ) := by exact_mod_cast hN
  have h0 : (0 : ℤ) ≤ (ring.public_key.delta : ℤ)
      % (ring.public_key.n_s_m : ℤ) := Int.emod_nonneg _ hN'.ne'
  have h1 : (ring.public_key.delta : ℤ) % (ring.public_key.n_s_m : ℤ)
      < ring.public_key.n_s_m := Int.emod_lt_of_pos _ hN'
  obtain ⟨L, hL, hL0, hLN, hLcast⟩ := lam_fold_spec ring.public_key.n_s_m hN i
    (ring.i_list.dedup.filter (fun ip => ip ≠ i))
    ((ring.public_key.delta : ℤ) % (ring.public_key.n_s_m : ℤ)) h0 h1 hall
  refine ⟨L, ?_, hL0, hLN, ?_⟩
  · rw [PrivateKeyRing.lam]
    exact hL
  · rw [hLcast, ZMod.intCast_mod]
    push_cast
    ring

/-- Cast of the Horner fold of `Polynomial.__call__` into `ZMod N`. -/
theorem polyEval_fold_cast {N : ℕ} (x : ℕ) :
    ∀ (l : List (ℕ × ℕ)) (acc : ℕ),
      ((l.foldl (fun f_x p => (f_x + p.2 * powMod x p.1 N % N) % N) acc : ℕ)
          : ZMod N)
        = (acc : ZMod N)
          + (l.map (fun p => (p.2 : ZMod N) * (x : ZMod N) ^ p.1)).sum := by
  intro l
  induction l with
  | nil => intro acc; simp
  | cons p l ih =>
    intro acc
    rw [List.foldl_cons, ih, List.map_cons, List.sum_cons]
    have hstep : (((acc + p.2 * powMod x p.1 N % N) % N : ℕ) : ZMod N)
        = (acc : ZMod N) + (p.2 : ZMod N) * (x : ZMod N) ^ p.1 := by
      rw [powMod_eq]
      push_cast [ZMod.natCast_mod]
      ring
    rw [hstep]
    ring

/-- `Polynomial.__call__` evaluates, in `ZMod N`, to `Σₖ cₖ·xᵏ`. -/
theorem polyEval_cast {N : ℕ} (coeffs : List ℕ) (x : ℕ) :
    ((polyEval coeffs N x : ℕ) : ZMod N)
      = (coeffs.enum.map
          (fun p => (p.2 : ZMod N) * (x : ZMod N) ^ p.1)).sum := by
  rw [polyEval, polyEval_fold_cast]
  simp

/-- Inversion of a successful `share_secret`. -/
theorem share_secret_some {secret modulus threshold n_shares : ℕ}
    {draws : List ℕ} {shares : List (ℕ × ℕ)}
    (h : share_secret secret modulus threshold n_shares draws = some shares) :
    secret < modulus ∧
    shares = (List.range' 1 n_shares).map
      (fun x => (x, polyEval (secret :: draws) modulus x)) := by
  rw [share_secret] at h
  by_cases h1 : ¬secret < modulus
  · rw [if_pos h1] at h
    exact absurd h (by simp)
  · rw [if_neg h1] at h
    by_cases h2 : n_shares < threshold
    · rw [if_pos h2] at h
      exact absurd h (by simp)
    · rw [if_neg h2] at h
      by_cases h3 : threshold < 1
      · rw [if_pos h3] at h
        exact absurd h (by simp)
      · rw [if_neg h3] at h
        push_neg at h1
        refine ⟨h1, ?_⟩
        have h4 : _ = shares := Option.some.inj h
        exact h4.symm

/-- Inversion of a successful `PrivateKeyRing.__init__`. -/
theorem mkPrivateKeyRing_some {l : List PrivateKeyShare}
    {ring : PrivateKeyRing} (h : mkPrivateKeyRing l = some ring) :
    ∃ sh0 rest, l = sh0 :: rest ∧
      ∃ w, inv_mod (4 * (sh0.public_key.delta : ℤ) ^ 2)
          (sh0.public_key.n_s : ℤ) = some w ∧
        ring = ⟨sh0.public_key, l.dedup.take sh0.public_key.threshold, w⟩ := by
  cases l with
  | nil =>
    rw [mkPrivateKeyRing] at h
    exact absurd h (by simp)
  | cons sh0 rest =>
    rw [mkPrivateKeyRing] at h
    by_cases h1 : ((sh0 :: rest).map (·.public_key)).dedup.length > 1
    · rw [if_pos h1] at h
      exact absurd h (by simp)
    · rw [if_neg h1] at h
      by_cases h2 : (sh0 :: rest).dedup.length < sh0.public_key.threshold
      · rw [if_pos h2] at h
        exact absurd h (by simp)
      · rw [if_neg h2] at h
        rw [Option.map_eq_some'] at h
        obtain ⟨w, hw, hring⟩ := h
        exact ⟨sh0, rest, rfl, w, hw, hring.symm⟩

/-- Doubling commutes with `Int.toNat` on nonnegative integers. -/
theorem toNat_two_mul {l : ℤ} (h : 0 ≤ l) : (2 * l).toNat = 2 * l.toNat := by
  have h2 : (0 : ℤ) ≤ 2 * l := by linarith
  have hc : ((2 * l).toNat : ℤ) = ((2 * l.toNat : ℕ) : ℤ) := by
    rw [Int.toNat_of_nonneg h2]
    push_cast
    rw [Int.toNat_of_nonneg h]
  exact_mod_cast hc

/-- Casting `Int.toNat` of a nonnegative integer into `ZMod N`. -/
theorem toNat_cast_zmod {N : ℕ} {l : ℤ} (h : 0 ≤ l) :
    ((l.toNat : ℕ) : ZMod N) = ((l : ℤ) : ZMod N) := by
  rw [← Int.cast_natCast, Int.toNat_of_nonneg h]

/-- Index differences of Shamir evaluation points are coprime to `nˢ·m`
when `n_shares` stays below the safe-prime halves. -/
theorem diff_coprime {p q p' q' s n_shares : ℕ}
    (hp : p.Prime) (hq : q.Prime) (hp' : p'.Prime) (hq' : q'.Prime)
    (hpe : p = 2 * p' + 1) (hqe : q = 2 * q' + 1)
    (hnp : n_shares ≤ p') (hnq : n_shares ≤ q')
    {i j : ℕ} (hi : 1 ≤ i) (hin : i ≤ n_shares) (hj : 1 ≤ j)
    (hjn : j ≤ n_shares) (hne : i ≠ j) :
    Int.gcd ((j : ℤ) - (i : ℤ)) (((p * q) ^ s * (p' * q') : ℕ) : ℤ) = 1 := by
  have hD1 : 1 ≤ ((j : ℤ) - (i : ℤ)).natAbs := by omega
  have hDp' : ((j : ℤ) - (i : ℤ)).natAbs < p' := by omega
  have hDq' : ((j : ℤ) - (i : ℤ)).natAbs < q' := by omega
  have hDp : ((j : ℤ) - (i : ℤ)).natAbs < p := by omega
  have hDq : ((j : ℤ) - (i : ℤ)).natAbs < q := by omega
  have hnotdvd : ∀ a : ℕ, a.Prime → ((j : ℤ) - (i : ℤ)).natAbs < a →
      Nat.Coprime a ((j : ℤ) - (i : ℤ)).natAbs := by
    intro a ha hDa
    rw [ha.coprime_iff_not_dvd]
    intro hdvd
    have := Nat.le_of_dvd (by omega) hdvd
    omega
  have hcop : Nat.Coprime ((j : ℤ) - (i : ℤ)).natAbs
      ((p * q) ^ s * (p' * q')) := by
    refine Nat.Coprime.mul_right ?_ ?_
    · refine Nat.Coprime.pow_right _ ?_
      exact Nat.Coprime.mul_right ((hnotdvd p hp hDp).symm)
        ((hnotdvd q hq hDq).symm)
    · exact Nat.Coprime.mul_right ((hnotdvd p' hp' hDp').symm)
        ((hnotdvd q' hq' hDq').symm)
  rw [Int.gcd, Int.natAbs_ofNat]
  exact hcop

/-- Evaluation of the coefficient-list polynomial. -/
theorem eval_enum_poly {N : ℕ} (coeffs : List ℕ) (z : ZMod N) :
    Polynomial.eval z ((coeffs.enum.map (fun (pr : ℕ × ℕ) =>
      Polynomial.C (pr.2 : ZMod N) * Polynomial.X ^ pr.1)).sum)
      = (coeffs.enum.map (fun (pr : ℕ × ℕ) => (pr.2 : ZMod N) * z ^ pr.1)).sum := by
  rw [eval_list_sum, List.map_map]
  refine congrArg List.sum (List.map_congr_left ?_)
  intro p _
  simp [Polynomial.eval_mul, Polynomial.eval_pow]

/-- Degree bound for the coefficient-list polynomial. -/
theorem natDegree_enum_poly {N : ℕ} (coeffs : List ℕ) (hne : coeffs ≠ []) :
    ((coeffs.enum.map (fun (pr : ℕ × ℕ) =>
      Polynomial.C (pr.2 : ZMod N) * Polynomial.X ^ pr.1)).sum).natDegree
      < coeffs.length := by
  have hlen : 1 ≤ coeffs.length := by
    cases coeffs with
    | nil => exact absurd rfl hne
    | cons a l => simp
  refine lt_of_le_of_lt (le_trans (Polynomial.natDegree_list_sum_le _)
    (foldr_max_le ?_)) (show coeffs.length - 1 < coeffs.length by omega)
  intro w hw
  rw [List.map_map] at hw
  obtain ⟨pp, hpp, rfl⟩ := List.mem_map.mp hw
  obtain ⟨k, c⟩ := pp
  obtain ⟨-, hk2, -⟩ := List.mem_enumFrom hpp
  simp only [Function.comp_apply]
  refine le_trans Polynomial.natDegree_mul_le ?_
  rw [Polynomial.natDegree_C, zero_add]
  refine le_trans (Polynomial.natDegree_X_pow_le k) ?_
  omega

/-- The coefficient-list polynomial evaluates at `0` to the secret. -/
theorem eval_zero_enum_poly {N : ℕ} (c0 : ℕ) (rest : List ℕ) :
    Polynomial.eval 0 (((c0 :: rest).enum.map (fun (pr : ℕ × ℕ) =>
      Polynomial.C (pr.2 : ZMod N) * Polynomial.X ^ pr.1)).sum)
      = (c0 : ZMod N) := by
  rw [eval_enum_poly, List.enum_cons, List.map_cons, List.sum_cons]
  have htail : ((List.enumFrom 1 rest).map
      (fun p => ((p.2 : ℕ) : ZMod N) * (0 : ZMod N) ^ p.1)).sum = 0 := by
    refine List.sum_eq_zero ?_
    intro v hv
    obtain ⟨pp, hpp, rfl⟩ := List.mem_map.mp hv
    obtain ⟨k, c⟩ := pp
    obtain ⟨h1, -, -⟩ := List.mem_enumFrom hpp
    rw [zero_pow (by omega : k ≠ 0), mul_zero]
  rw [htail, add_zero]
  simp

/-- The Shamir/Lagrange combination identity, in the exact shape `decrypt`
computes it: `Σᵢ f(i)·λᵢ ≡ Δ·f(0) (mod N)` for the code's integer values. -/
theorem shamir_lagrange_sum {N : ℕ} (c0 : ℕ) (rest : List ℕ)
    (S : List ℕ) (hSnd : S.Nodup) (hlen : rest.length + 1 ≤ S.length)
    (hmem : ∀ i0 ∈ S, i0 < N)
    (hgcd : ∀ i0 ∈ S, ∀ j0 ∈ S, i0 ≠ j0 →
      Int.gcd ((j0 : ℤ) - (i0 : ℤ)) (N : ℤ) = 1)
    (dl : ℕ) (lv : ℕ → ℤ)
    (hlv : ∀ i0 ∈ S, 0 ≤ lv i0 ∧
      ((lv i0 : ℤ) : ZMod N) = (dl : ZMod N) *
        ((S.filter (fun ip => ip ≠ i0)).map
          (fun (ip : ℕ) => (ip : ZMod N) *
            ((ip : ZMod N) - (i0 : ZMod N))⁻¹)).prod) :
    (S.map (fun i0 => polyEval (c0 :: rest) N i0 * (lv i0).toNat)).sum
      ≡ dl * c0 [MOD N] := by
  refine (ZMod.natCast_eq_natCast_iff _ _ _).mp ?_
  have hinj : ∀ x ∈ S, ∀ y ∈ S, (x : ZMod N) = (y : ZMod N) → x = y := by
    intro x hx y hy hxy
    have hm := (ZMod.natCast_eq_natCast_iff _ _ _).mp hxy
    rw [Nat.ModEq] at hm
    rw [Nat.mod_eq_of_lt (hmem x hx), Nat.mod_eq_of_lt (hmem y hy)] at hm
    exact hm
  have hunit2 : ∀ a ∈ S, ∀ b ∈ S, a ≠ b →
      IsUnit ((a : ZMod N) - (b : ZMod N)) := by
    intro a ha b hb hne
    have hg := hgcd b hb a ha (fun he => hne he.symm)
    have hN' : (0 : ℤ) < (N : ℤ) := by
      have := hmem a ha
      exact_mod_cast (show (0 : ℕ) < N by omega)
    obtain ⟨w, hw⟩ := Option.isSome_iff_exists.mp (inv_mod_isSome hN' hg)
    have hble : ((b : ℕ) : ℤ) < (N : ℤ) := by exact_mod_cast hmem b hb
    obtain ⟨hmul, -, -⟩ := inv_mod_spec hN' (by linarith [Int.natCast_nonneg a]) hw
    have hc := (ZMod.intCast_eq_intCast_iff _ _ _).mpr hmul
    push_cast at hc
    exact isUnit_of_mul_eq_one _ _ hc
  have hxs_nodup : (S.map (Nat.cast : ℕ → ZMod N)).Nodup :=
    List.Nodup.map_on hinj hSnd
  have hxs_pw : (S.map (Nat.cast : ℕ → ZMod N)).Pairwise
      (fun a b => IsUnit (a - b)) := by
    rw [List.pairwise_map]
    refine List.Pairwise.imp_of_mem ?_ hSnd
    intro a b ha hb hne
    exact hunit2 a ha b hb hne
  have hdeg : (((c0 :: rest).enum.map (fun (pr : ℕ × ℕ) =>
      Polynomial.C (pr.2 : ZMod N) * Polynomial.X ^ pr.1)).sum).natDegree
      < (S.map (Nat.cast : ℕ → ZMod N)).length := by
    refine lt_of_lt_of_le (natDegree_enum_poly _ (by simp)) ?_
    rw [List.length_map]
    simpa using hlen
  have hinterp := lagrange_interpolation (S.map (Nat.cast : ℕ → ZMod N))
    hxs_pw hxs_nodup _ hdeg
  have hfilter : ∀ i0 ∈ S,
      ((S.map (Nat.cast : ℕ → ZMod N)).filter
          (fun xj => xj ≠ (i0 : ZMod N))).map
        (fun xj => xj * (xj - (i0 : ZMod N))⁻¹)
      = (S.filter (fun ip => ip ≠ i0)).map
        (fun (ip : ℕ) => (ip : ZMod N) *
          ((ip : ZMod N) - (i0 : ZMod N))⁻¹) := by
    intro i0 hi0
    rw [List.filter_map, List.map_map]
    have hfc : S.filter ((fun xj => decide (xj ≠ (i0 : ZMod N)))
        ∘ (Nat.cast : ℕ → ZMod N)) = S.filter (fun ip => decide (ip ≠ i0)) := by
      refine List.filter_congr ?_
      intro x hx
      simp only [Function.comp_apply]
      refine decide_eq_decide.mpr ?_
      constructor
      · intro hcne he
        exact hcne (by rw [he])
      · intro hne hce
        exact hne (hinj x hx i0 hi0 hce)
    rw [hfc]
    rfl
  have hsum : ((S.map (fun i0 =>
      polyEval (c0 :: rest) N i0 * (lv i0).toNat)).sum : ZMod N)
      = (dl : ZMod N) * (c0 : ZMod N) := by
    rw [Nat.cast_list_sum, List.map_map]
    have hterm : ∀ i0 ∈ S,
        ((Nat.cast : ℕ → ZMod N) ∘ (fun i0 =>
          polyEval (c0 :: rest) N i0 * (lv i0).toNat)) i0
        = (dl : ZMod N) * (Polynomial.eval (i0 : ZMod N)
            (((c0 :: rest).enum.map (fun (pr : ℕ × ℕ) =>
              Polynomial.C (pr.2 : ZMod N) * Polynomial.X ^ pr.1)).sum)
          * ((S.filter (fun ip => ip ≠ i0)).map
            (fun (ip : ℕ) => (ip : ZMod N) *
              ((ip : ZMod N) - (i0 : ZMod N))⁻¹)).prod) := by
      intro i0 hi0
      obtain ⟨hlv0, hlvc⟩ := hlv i0 hi0
      simp only [Function.comp_apply, Nat.cast_mul]
      rw [toNat_cast_zmod hlv0, hlvc, polyEval_cast, ← eval_enum_poly]
      ring
    rw [List.map_congr_left hterm]
    rw [List.sum_map_mul_left]
    have hmatch : (S.map (fun (i0 : ℕ) => Polynomial.eval (i0 : ZMod N)
        (((c0 :: rest).enum.map (fun (pr : ℕ × ℕ) =>
          Polynomial.C (pr.2 : ZMod N) * Polynomial.X ^ pr.1)).sum)
        * ((S.filter (fun ip => ip ≠ i0)).map
          (fun (ip : ℕ) => (ip : ZMod N) *
            ((ip : ZMod N) - (i0 : ZMod N))⁻¹)).prod)).sum
        = ((S.map (Nat.cast : ℕ → ZMod N)).map (fun xi =>
          Polynomial.eval xi (((c0 :: rest).enum.map (fun (pr : ℕ × ℕ) =>
            Polynomial.C (pr.2 : ZMod N) * Polynomial.X ^ pr.1)).sum)
          * (((S.map (Nat.cast : ℕ → ZMod N)).filter
              (fun xj => xj ≠ xi)).map
            (fun xj => xj * (xj - xi)⁻¹)).prod)).sum := by
      rw [List.map_map]
      refine congrArg List.sum (List.map_congr_left ?_)
      intro i0 hi0
      simp only [Function.comp_apply]
      rw [hfilter i0 hi0]
    rw [hmatch, hinterp, eval_zero_enum_poly]
  rw [hsum]
  push_cast
  ring

/-- A successful `inv_mod` value is nonnegative (it is an `emod`). -/
theorem inv_mod_nonneg {a m v : ℤ} (hm : 0 < m) (h : inv_mod a m = some v) :
    0 ≤ v := by
  simp only [inv_mod] at h
  by_cases hg : Int.gcd (if a < 0 then m + a else a) m ≠ 1
  · rw [if_pos hg] at h
    exact absurd h (by simp)
  · rw [if_neg hg] at h
    have hv := Option.some.inj h
    rw [← hv]
    exact Int.emod_nonneg _ hm.ne'

/-- Successful `mapO` values come from successful applications. -/
theorem mapO_mem {α β : Type} {f : α → Option β} :
    ∀ {l : List α} {out : List β}, mapO f l = some out →
      ∀ b ∈ out, ∃ a ∈ l, f a = some b := by
  intro l
  induction l with
  | nil =>
    intro out h b hb
    rw [mapO] at h
    rw [← Option.some.inj h] at hb
    exact absurd hb (by simp)
  | cons a l ih =>
    intro out h b hb
    rw [mapO] at h
    cases hfa : f a with
    | none =>
      rw [hfa] at h
      simp at h
    | some b1 =>
      cases hml : mapO f l with
      | none =>
        rw [hfa, hml] at h
        simp at h
      | some out1 =>
        rw [hfa, hml] at h
        rw [← Option.some.inj h] at hb
        rcases List.mem_cons.mp hb with rfl | hb2
        · exact ⟨a, List.mem_cons_self a l, hfa⟩
        · obtain ⟨a2, ha2, hfa2⟩ := ih hml b hb2
          exact ⟨a2, List.mem_cons_of_mem a ha2, hfa2⟩

/-- `crm` is nonnegative when all residues are. -/
theorem crm_nonneg {a_list n_list : List ℤ} (ha : ∀ a ∈ a_list, 0 ≤ a)
    (hpos : ∀ n ∈ n_list, 0 < n) {x : ℤ} (h : crm a_list n_list = some x) :
    0 ≤ x := by
  simp only [crm] at h
  rw [Option.map_eq_some'] at h
  obtain ⟨z_list, hz, hx⟩ := h
  rw [← hx]
  refine List.sum_nonneg ?_
  intro v hv
  obtain ⟨pp, hpp, rfl⟩ := List.mem_map.mp hv
  obtain ⟨⟨av, yv⟩, zv⟩ := pp
  obtain ⟨hay, hzv⟩ := List.of_mem_zip hpp
  obtain ⟨hav, hyv⟩ := List.of_mem_zip hay
  have h1 : 0 ≤ av := ha av hav
  have h2 : 0 ≤ yv := by
    obtain ⟨ni, hni, rfl⟩ := List.mem_map.mp hyv
    refine Int.fdiv_nonneg ?_ (le_of_lt (hpos ni hni))
    rw [prodI_eq]
    exact le_of_lt (List.prod_pos hpos)
  have h3 : 0 ≤ zv := by
    obtain ⟨pr, hpr, hf⟩ := mapO_mem hz zv hzv
    obtain ⟨y0, n0⟩ := pr
    obtain ⟨-, hn0⟩ := List.of_mem_zip hpr
    exact inv_mod_nonneg (hpos n0 hn0) hf
  positivity

set_option maxHeartbeats 1000000 in
/-- C1 (amended): the encrypt/decrypt round trip.  For every key produced
by `keygen` from a safe-prime pair `p = 2p'+1`, `q = 2q'+1` (distinct
primes with `p', q'` prime, `s` below `p, q` and `n_shares` at most
`p', q'`), every plaintext `m < nˢ` and every randomness `r` COPRIME to
`n`, decryption of `encrypt(m, r)` returns exactly `m`.  The coprimality
hypothesis cannot be dropped: the claim's "every `r` in `[1, n)`" fails
at `r = p` (see the counterexample above). -/
theorem keygen_roundtrip {p q p' q' : ℕ}
    (hp : p.Prime) (hq : q.Prime) (hp' : p'.Prime) (hq' : q'.Prime)
    (hpe : p = 2 * p' + 1) (hqe : q = 2 * q' + 1) (hpq : p ≠ q)
    (hp'q : p' ≠ q) (hq'p : q' ≠ p)
    {n_bits s threshold n_shares : ℕ} {draws : List ℕ}
    (hbits : 16 ≤ n_bits) (hs1 : 1 ≤ s) (hts : threshold ≤ n_shares)
    (ht1 : 1 ≤ threshold) (hsp : s < p) (hsq : s < q)
    (hnp : n_shares ≤ p') (hnq : n_shares ≤ q')
    (hdraws : draws.length + 1 = threshold)
    {pk : PublicKey} {ring : PrivateKeyRing}
    (hkg : keygen n_bits s threshold n_shares p q draws = some (pk, ring))
    {M r : ℕ} (hM : M < pk.n_s) (hr : Nat.Coprime r pk.n) :
    ring.decrypt (pk.encrypt M r) = some (M : ℤ) := by
  have hp2 : 2 ≤ p' := hp'.two_le
  have hq2 : 2 ≤ q' := hq'.two_le
  -- Step 1: unfold keygen
  rw [keygen] at hkg
  rw [if_neg (show ¬(n_bits < 16) by omega)] at hkg
  rw [if_neg (show ¬(s < 1) by omega)] at hkg
  rw [if_neg (show ¬(n_shares < threshold) by omega)] at hkg
  rw [if_neg (show ¬(threshold < 1) by omega)] at hkg
  simp only [Option.bind_eq_some', Option.map_eq_some'] at hkg
  obtain ⟨d, hcrm, shares, hss, ring2, hmk, hpair⟩ := hkg
  injection hpair with hpk hring
  subst hring
  have hpdiv : (p - 1) / 2 = p' := by omega
  have hqdiv : (q - 1) / 2 = q' := by omega
  rw [hpdiv, hqdiv] at hcrm hss hmk hpk
  have hppos : 5 ≤ p := by omega
  have hqpos : 5 ≤ q := by omega
  -- pk fields
  have hn : pk.n = p * q := by rw [← hpk]
  have hsf : pk.s = s := by rw [← hpk]
  have hmf : pk.m = p' * q' := by rw [← hpk]
  have hthr : pk.threshold = threshold := by rw [← hpk]
  have hdel : pk.delta = n_shares.factorial := by rw [← hpk]
  -- crm congruences
  have hcpp : Nat.Coprime p' p := (Nat.coprime_primes hp' hp).mpr (by omega)
  have hcpq : Nat.Coprime p' q := (Nat.coprime_primes hp' hq).mpr hp'q
  have hcqp : Nat.Coprime q' p := (Nat.coprime_primes hq' hp).mpr hq'p
  have hcqq : Nat.Coprime q' q := (Nat.coprime_primes hq' hq).mpr (by omega)
  have hcmn : Nat.Coprime (p' * q') ((p * q) ^ s) :=
    Nat.Coprime.pow_right s
      (Nat.Coprime.mul (hcpp.mul_right hcpq) (hcqp.mul_right hcqq))
  obtain ⟨x, hx, hcong⟩ := @crm_spec [0, 1]
    [((p' * q' : ℕ) : ℤ), (((p * q) ^ s : ℕ) : ℤ)] rfl
    (by
      intro nn hnn
      rcases List.mem_cons.mp hnn with rfl | h2
      · exact_mod_cast (show 0 < p' * q' by positivity)
      · rcases List.mem_cons.mp h2 with rfl | h3
        · exact_mod_cast (show 0 < (p * q) ^ s by positivity)
        · exact absurd h3 (by simp))
    (by
      simp only [List.pairwise_cons, List.mem_singleton]
      refine ⟨?_, by simp⟩
      intro nn hnn
      rw [hnn, Int.isCoprime_iff_gcd_eq_one, Int.gcd_natCast_natCast]
      exact hcmn)
  rw [hcrm] at hx
  have hdx : d = x := Option.some.inj hx
  subst hdx
  have hd0' : d ≡ 0 [ZMOD ((p' * q' : ℕ) : ℤ)] := by simpa using hcong 0 (by simp) (by simp)
  have hd1' : d ≡ 1 [ZMOD (((p * q) ^ s : ℕ) : ℤ)] := by simpa using hcong 1 (by simp) (by simp)
  have hdnn : 0 ≤ d := by
    refine crm_nonneg ?_ ?_ hcrm
    · intro a ha
      rcases List.mem_cons.mp ha with rfl | h2
      · omega
      · rcases List.mem_cons.mp h2 with rfl | h3
        · omega
        · exact absurd h3 (by simp)
    · intro nn hnn
      rcases List.mem_cons.mp hnn with rfl | h2
      · exact_mod_cast (show 0 < p' * q' by positivity)
      · rcases List.mem_cons.mp h2 with rfl | h3
        · exact_mod_cast (show 0 < (p * q) ^ s by positivity)
        · exact absurd h3 (by simp)
  have hdcast : ((d.toNat : ℕ) : ℤ) = d := Int.toNat_of_nonneg hdnn
  have hd0 : d.toNat ≡ 0 [MOD p' * q'] := by
    refine natModEq_of_intModEq ?_
    rw [hdcast]
    exact_mod_cast hd0'
  have hd1 : d.toNat ≡ 1 [MOD (p * q) ^ s] := by
    refine natModEq_of_intModEq ?_
    rw [hdcast]
    exact_mod_cast hd1'
  -- share_secret inversion
  obtain ⟨hdlt, hshares⟩ := share_secret_some hss
  subst hshares
  rw [List.map_map] at hmk
  rw [hpk] at hmk
  have hn1 : 1 ≤ n_shares := le_trans ht1 hts
  have hcomp : (List.range' 1 n_shares).map
      ((fun sh => (⟨pk, sh.1, sh.2⟩ : PrivateKeyShare)) ∘
        (fun x => (x, polyEval (d.toNat :: draws)
          ((p * q) ^ s * (p' * q')) x)))
      = (List.range' 1 n_shares).map (fun x =>
        (⟨pk, x, polyEval (d.toNat :: draws)
          ((p * q) ^ s * (p' * q')) x⟩ : PrivateKeyShare)) :=
    List.map_congr_left (fun x _ => rfl)
  rw [hcomp] at hmk
  obtain ⟨sh0, rest0, hL, w, hw, hring2⟩ := mkPrivateKeyRing_some hmk
  have hrange : List.range' 1 n_shares = 1 :: List.range' 2 (n_shares - 1) := by
    conv_lhs => rw [show n_shares = (n_shares - 1) + 1 by omega]
    rw [List.range'_succ]
  rw [hrange, List.map_cons] at hL
  have hsh0 : (⟨pk, 1, polyEval (d.toNat :: draws)
      ((p * q) ^ s * (p' * q')) 1⟩ : PrivateKeyShare) = sh0 := by
    injection hL
  have hsh0pk : sh0.public_key = pk := by rw [← hsh0]
  rw [hsh0pk] at hw
  have hLi : ((List.range' 1 n_shares).map (fun x =>
      (⟨pk, x, polyEval (d.toNat :: draws)
        ((p * q) ^ s * (p' * q')) x⟩ : PrivateKeyShare))).map (·.i)
      = List.range' 1 n_shares := by
    rw [List.map_map]
    calc (List.range' 1 n_shares).map ((·.i) ∘ (fun x =>
        (⟨pk, x, polyEval (d.toNat :: draws)
          ((p * q) ^ s * (p' * q')) x⟩ : PrivateKeyShare)))
        = (List.range' 1 n_shares).map (fun x => x) :=
          List.map_congr_left (fun x _ => rfl)
      _ = List.range' 1 n_shares := List.map_id' _
  have hLnodup : ((List.range' 1 n_shares).map (fun x =>
      (⟨pk, x, polyEval (d.toNat :: draws)
        ((p * q) ^ s * (p' * q')) x⟩ : PrivateKeyShare))).Nodup := by
    refine List.Nodup.of_map (fun sh => sh.i) ?_
    rw [hLi]
    exact List.nodup_range' 1 n_shares
  have hdedup : ((List.range' 1 n_shares).map (fun x =>
      (⟨pk, x, polyEval (d.toNat :: draws)
        ((p * q) ^ s * (p' * q')) x⟩ : PrivateKeyShare))).dedup
      = (List.range' 1 n_shares).map (fun x =>
        (⟨pk, x, polyEval (d.toNat :: draws)
          ((p * q) ^ s * (p' * q')) x⟩ : PrivateKeyShare)) :=
    List.dedup_eq_self.mpr hLnodup
  rw [hsh0pk, hdedup, hthr] at hring2
  have hr2pk : ring2.public_key = pk := by rw [hring2]
  have hr2sh : ring2.private_key_shares
      = ((List.range' 1 n_shares).map (fun x =>
        (⟨pk, x, polyEval (d.toNat :: draws)
          ((p * q) ^ s * (p' * q')) x⟩ : PrivateKeyShare))).take threshold := by
    rw [hring2]
  have hr2iv : ring2.inv_four_delta_squared = w := by rw [hring2]
  have hkept_mem : ∀ sh ∈ ring2.private_key_shares, ∃ x2,
      1 ≤ x2 ∧ x2 ≤ n_shares ∧ sh = (⟨pk, x2, polyEval (d.toNat :: draws)
        ((p * q) ^ s * (p' * q')) x2⟩ : PrivateKeyShare) := by
    intro sh hsh
    rw [hr2sh] at hsh
    have hmem2 := (List.take_sublist _ _).subset hsh
    obtain ⟨x2, hx2, rfl⟩ := List.mem_map.mp hmem2
    rw [List.mem_range'_1] at hx2
    exact ⟨x2, by omega, by omega, rfl⟩
  have hshk : ∀ sh ∈ ring2.private_key_shares,
      sh.public_key = ring2.public_key := by
    intro sh hsh
    obtain ⟨x2, -, -, rfl⟩ := hkept_mem sh hsh
    rw [hr2pk]
  have hilist : ring2.i_list = (((List.range' 1 n_shares).map (fun x =>
      (⟨pk, x, polyEval (d.toNat :: draws)
        ((p * q) ^ s * (p' * q')) x⟩ : PrivateKeyShare))).take threshold).map
      (·.i) := by
    rw [PrivateKeyRing.i_list, hr2sh]
  have hinodup : ring2.i_list.Nodup := by
    rw [hilist, List.map_take, hLi]
    exact List.Nodup.sublist (List.take_sublist _ _)
      (List.nodup_range' 1 n_shares)
  have hidedup : ring2.i_list.dedup = ring2.i_list :=
    List.dedup_eq_self.mpr hinodup
  have hilen : ring2.i_list.length = threshold := by
    rw [hilist, List.length_map, List.length_take, List.length_map,
      List.length_range']
    omega
  have himem : ∀ i0 ∈ ring2.i_list, 1 ≤ i0 ∧ i0 ≤ n_shares := by
    intro i0 hi0
    rw [hilist] at hi0
    obtain ⟨sh, hsh, rfl⟩ := List.mem_map.mp hi0
    have hsh2 : sh ∈ ring2.private_key_shares := by
      rw [hr2sh]
      exact hsh
    obtain ⟨x2, h1, h2, rfl⟩ := hkept_mem sh hsh2
    exact ⟨h1, h2⟩
  -- the modulus of the Lagrange computation
  have hNL : ring2.public_key.n_s_m = (p * q) ^ s * (p' * q') := by
    rw [hr2pk, PublicKey.n_s_m, PublicKey.n_s, hn, hmf, hsf]
  have hpq25 : 25 ≤ p * q :=
    Nat.mul_le_mul (show 5 ≤ p by omega) (show 5 ≤ q by omega)
  have hpows : p * q ≤ (p * q) ^ s := Nat.le_self_pow (by omega) _
  have hNbig : n_shares < (p * q) ^ s * (p' * q') := by
    have h2 : p' * 2 ≤ p' * q' := Nat.mul_le_mul_left p' hq2
    have h3 : 1 * (p' * q') ≤ (p * q) ^ s * (p' * q') :=
      Nat.mul_le_mul_right (p' * q')
        (Nat.pow_pos (show 0 < p * q by omega))
    omega
  have hNpos : 0 < ring2.public_key.n_s_m := by rw [hNL]; positivity
  -- Lagrange coefficients
  have hlamS : ∀ i0 ∈ ring2.i_list, ∃ L0 : ℤ,
      ring2.lam i0 = some L0 ∧ 0 ≤ L0 ∧ L0 < ((p * q) ^ s * (p' * q') : ℕ) ∧
      (L0 : ZMod ((p * q) ^ s * (p' * q')))
        = (ring2.public_key.delta : ZMod ((p * q) ^ s * (p' * q'))) *
          ((ring2.i_list.filter (fun ip => ip ≠ i0)).map
            (fun (ip : ℕ) => (ip : ZMod ((p * q) ^ s * (p' * q')))
              * ((ip : ZMod ((p * q) ^ s * (p' * q')))
                - (i0 : ZMod ((p * q) ^ s * (p' * q'))))⁻¹)).prod := by
    intro i0 hi0
    have hall : ∀ ip ∈ ring2.i_list.dedup.filter (fun ip => ip ≠ i0),
        Int.gcd ((ip : ℤ) - (i0 : ℤ)) (ring2.public_key.n_s_m : ℤ) = 1 ∧
        (i0 : ℤ) ≤ (ring2.public_key.n_s_m : ℤ) + ip := by
      intro ip hip
      rw [hidedup] at hip
      obtain ⟨hip1, hip2⟩ := List.mem_filter.mp hip
      have hipne : ip ≠ i0 := by simpa using hip2
      obtain ⟨hb1, hb2⟩ := himem ip hip1
      obtain ⟨hc1, hc2⟩ := himem i0 hi0
      constructor
      · rw [hNL]
        exact diff_coprime hp hq hp' hq' hpe hqe hnp hnq hc1 hc2 hb1 hb2
          (fun he => hipne he.symm)
      · have hle2 : (i0 : ℤ) ≤ (ring2.public_key.n_s_m : ℤ) := by
          rw [hNL]
          exact_mod_cast le_of_lt (lt_of_le_of_lt hc2 hNbig)
        have hip0 : (0 : ℤ) ≤ (ip : ℤ) := Int.natCast_nonneg ip
        linarith
    obtain ⟨L0, hL0, h1, h2, h3⟩ := lam_spec ring2 i0 hNpos hall
    rw [hidedup] at h3
    rw [hNL] at h2 h3
    exact ⟨L0, hL0, h1, h2, h3⟩
  have hlv : ∀ i0 ∈ ring2.i_list,
      ring2.lam i0 = some ((ring2.lam i0).getD 0) ∧
      0 ≤ (ring2.lam i0).getD 0 ∧
      (((ring2.lam i0).getD 0 : ℤ) : ZMod ((p * q) ^ s * (p' * q')))
        = (ring2.public_key.delta : ZMod ((p * q) ^ s * (p' * q'))) *
          ((ring2.i_list.filter (fun ip => ip ≠ i0)).map
            (fun (ip : ℕ) => (ip : ZMod ((p * q) ^ s * (p' * q')))
              * ((ip : ZMod ((p * q) ^ s * (p' * q')))
                - (i0 : ZMod ((p * q) ^ s * (p' * q'))))⁻¹)).prod := by
    intro i0 hi0
    obtain ⟨L0, hL0, h1, h2, h3⟩ := hlamS i0 hi0
    rw [hL0]
    simp only [Option.getD_some]
    exact ⟨trivial, h1, h3⟩
  have hT := @shamir_lagrange_sum ((p * q) ^ s * (p' * q')) d.toNat draws
    ring2.i_list hinodup
    (by rw [hilen]; omega)
    (by
      intro i0 hi0
      have h2 := (himem i0 hi0).2
      omega)
    (by
      intro i0 hi0 j0 hj0 hne
      exact diff_coprime hp hq hp' hq' hpe hqe hnp hnq
        (himem i0 hi0).1 (himem i0 hi0).2 (himem j0 hj0).1 (himem j0 hj0).2
        hne)
    ring2.public_key.delta (fun i0 => (ring2.lam i0).getD 0)
    (by
      intro i0 hi0
      obtain ⟨-, h1, h3⟩ := hlv i0 hi0
      exact ⟨h1, h3⟩)
  rw [hr2pk, hdel] at hT
  -- key arithmetic abbreviations
  have hK : pk.n_s_1 = (p * q) ^ (s + 1) := by
    rw [PublicKey.n_s_1, PublicKey.n_s, hn, hsf, pow_succ]
  have hNs : pk.n_s = (p * q) ^ s := by rw [PublicKey.n_s, hn, hsf]
  -- unfold decrypt
  simp only [PrivateKeyRing.decrypt]
  have hall2 : ∀ sh ∈ ring2.private_key_shares,
      ring2.lam sh.i = some ((ring2.lam sh.i).getD 0) := by
    intro sh hsh
    have hmemi : sh.i ∈ ring2.i_list := List.mem_map_of_mem (·.i) hsh
    exact (hlv sh.i hmemi).1
  have hfold := decrypt_fold_eq ring2 (pk.encrypt M r)
    (fun i0 => (ring2.lam i0).getD 0) hshk hall2
  rw [hfold, Option.bind_eq_some']
  refine ⟨_, rfl, ?_⟩
  rw [hr2pk, hsf, hn, hr2iv]
  -- exponent decomposition
  have hE : (ring2.private_key_shares.map (fun sh =>
      sh.two_delta_s_i * (2 * ((ring2.lam sh.i).getD 0)).toNat)).sum
      = 4 * n_shares.factorial * (ring2.i_list.map (fun i0 =>
        polyEval (d.toNat :: draws) ((p * q) ^ s * (p' * q')) i0 *
          ((ring2.lam i0).getD 0).toNat)).sum := by
    have hperm : ∀ sh ∈ ring2.private_key_shares,
        sh.two_delta_s_i * (2 * ((ring2.lam sh.i).getD 0)).toNat
        = 4 * n_shares.factorial * (polyEval (d.toNat :: draws)
            ((p * q) ^ s * (p' * q')) sh.i *
          ((ring2.lam sh.i).getD 0).toNat) := by
      intro sh hsh
      have hmemi : sh.i ∈ ring2.i_list := List.mem_map_of_mem (·.i) hsh
      have hnn := (hlv sh.i hmemi).2.1
      obtain ⟨x2, -, -, rfl⟩ := hkept_mem sh hsh
      have h2d : (⟨pk, x2, polyEval (d.toNat :: draws)
          ((p * q) ^ s * (p' * q')) x2⟩ :
            PrivateKeyShare).two_delta_s_i
          = 2 * pk.delta * polyEval (d.toNat :: draws)
            ((p * q) ^ s * (p' * q')) x2 := rfl
      rw [h2d, toNat_two_mul hnn, hdel]
      ring
    calc (ring2.private_key_shares.map (fun sh =>
        sh.two_delta_s_i * (2 * ((ring2.lam sh.i).getD 0)).toNat)).sum
        = (ring2.private_key_shares.map (fun sh =>
            4 * n_shares.factorial * (polyEval (d.toNat :: draws)
              ((p * q) ^ s * (p' * q')) sh.i *
              ((ring2.lam sh.i).getD 0).toNat))).sum := by
          rw [List.map_congr_left hperm]
      _ = 4 * n_shares.factorial * (ring2.private_key_shares.map (fun sh =>
            polyEval (d.toNat :: draws) ((p * q) ^ s * (p' * q')) sh.i *
              ((ring2.lam sh.i).getD 0).toNat)).sum :=
          List.sum_map_mul_left _ _ _
      _ = 4 * n_shares.factorial * (ring2.i_list.map (fun i0 =>
            polyEval (d.toNat :: draws) ((p * q) ^ s * (p' * q')) i0 *
              ((ring2.lam i0).getD 0).toNat)).sum := by
          rw [PrivateKeyRing.i_list, List.map_map]
          rfl
  -- the ciphertext value modulo n^(s+1)
  have hrn : Nat.Coprime r (p * q) := by rw [hn] at hr; exact hr
  have hv0 : (pk.encrypt M r).value
      ≡ (1 + p * q) ^ M * r ^ ((p * q) ^ s) [MOD (p * q) ^ (s + 1)] := by
    have hval : (pk.encrypt M r).value
        = powMod (pk.n + 1) M pk.n_s_1 * powMod r pk.n_s pk.n_s_1
          % pk.n_s_1 := rfl
    rw [hval, powMod_eq, powMod_eq, hn, hNs, hK, Nat.add_comm (p * q) 1]
    calc (1 + p * q) ^ M % (p * q) ^ (s + 1)
          * (r ^ (p * q) ^ s % (p * q) ^ (s + 1)) % (p * q) ^ (s + 1)
        ≡ (1 + p * q) ^ M % (p * q) ^ (s + 1)
          * (r ^ (p * q) ^ s % (p * q) ^ (s + 1)) [MOD (p * q) ^ (s + 1)] :=
          Nat.mod_modEq _ _
      _ ≡ (1 + p * q) ^ M * r ^ ((p * q) ^ s) [MOD (p * q) ^ (s + 1)] :=
          Nat.ModEq.mul (Nat.mod_modEq _ _) (Nat.mod_modEq _ _)
  -- the r-part vanishes
  have hrpow : r ^ (2 * ((p * q) ^ s * (p' * q'))) ≡ 1 [MOD (p * q) ^ (s + 1)] := by
    have h0 := unit_pow_order hp hq hpe hqe hpq s hrn
    rwa [show 2 * (p * q) ^ s * (p' * q') = 2 * ((p * q) ^ s * (p' * q'))
      from by ring] at h0
  have hTdvd : p' * q' ∣ (ring2.i_list.map (fun i0 =>
      polyEval (d.toNat :: draws) ((p * q) ^ s * (p' * q')) i0 *
        ((ring2.lam i0).getD 0).toNat)).sum := by
    rw [← Nat.modEq_zero_iff_dvd]
    have h1 := Nat.ModEq.of_dvd
      (show p' * q' ∣ (p * q) ^ s * (p' * q') from ⟨(p * q) ^ s, by ring⟩) hT
    refine h1.trans ?_
    calc n_shares.factorial * d.toNat
        ≡ n_shares.factorial * 0 [MOD p' * q'] :=
          Nat.ModEq.mul_left _ hd0
      _ = 0 := by ring
  obtain ⟨T0, hT0⟩ := hTdvd
  have hrpart : r ^ ((p * q) ^ s * (ring2.private_key_shares.map (fun sh =>
      sh.two_delta_s_i * (2 * ((ring2.lam sh.i).getD 0)).toNat)).sum)
      ≡ 1 [MOD (p * q) ^ (s + 1)] := by
    rw [hE, hT0, show (p * q) ^ s * (4 * n_shares.factorial * (p' * q' * T0))
      = 2 * ((p * q) ^ s * (p' * q')) * (2 * n_shares.factorial * T0)
      from by ring, pow_mul]
    calc (r ^ (2 * ((p * q) ^ s * (p' * q'))))
          ^ (2 * n_shares.factorial * T0)
        ≡ 1 ^ (2 * n_shares.factorial * T0) [MOD (p * q) ^ (s + 1)] :=
          hrpow.pow _
      _ = 1 := one_pow _
  -- the (1+n)-part reduces to the plaintext exponent
  have hTNs : (ring2.i_list.map (fun i0 =>
      polyEval (d.toNat :: draws) ((p * q) ^ s * (p' * q')) i0 *
        ((ring2.lam i0).getD 0).toNat)).sum
      ≡ n_shares.factorial [MOD (p * q) ^ s] := by
    have h1 := Nat.ModEq.of_dvd
      (show (p * q) ^ s ∣ (p * q) ^ s * (p' * q') from ⟨p' * q', rfl⟩) hT
    refine h1.trans ?_
    calc n_shares.factorial * d.toNat
        ≡ n_shares.factorial * 1 [MOD (p * q) ^ s] :=
          Nat.ModEq.mul_left _ hd1
      _ = n_shares.factorial := by ring
  have hME : M * (ring2.private_key_shares.map (fun sh =>
      sh.two_delta_s_i * (2 * ((ring2.lam sh.i).getD 0)).toNat)).sum
      ≡ 4 * n_shares.factorial ^ 2 * M [MOD (p * q) ^ s] := by
    rw [hE, show M * (4 * n_shares.factorial * (ring2.i_list.map (fun i0 =>
      polyEval (d.toNat :: draws) ((p * q) ^ s * (p' * q')) i0 *
        ((ring2.lam i0).getD 0).toNat)).sum)
      = 4 * n_shares.factorial * M * (ring2.i_list.map (fun i0 =>
        polyEval (d.toNat :: draws) ((p * q) ^ s * (p' * q')) i0 *
          ((ring2.lam i0).getD 0).toNat)).sum from by ring]
    calc 4 * n_shares.factorial * M * (ring2.i_list.map (fun i0 =>
        polyEval (d.toNat :: draws) ((p * q) ^ s * (p' * q')) i0 *
          ((ring2.lam i0).getD 0).toNat)).sum
        ≡ 4 * n_shares.factorial * M * n_shares.factorial [MOD (p * q) ^ s] :=
          Nat.ModEq.mul_left _ hTNs
      _ = 4 * n_shares.factorial ^ 2 * M := by ring
  have hmain : combineVal ring2 (fun i0 => (ring2.lam i0).getD 0)
      (pk.encrypt M r).value
      ≡ (1 + p * q) ^ (4 * n_shares.factorial ^ 2 * M)
        [MOD (p * q) ^ (s + 1)] := by
    have hcv := combineVal_pow ring2 (fun i0 => (ring2.lam i0).getD 0)
      (pk.encrypt M r).value
    rw [hr2pk, hK] at hcv
    refine hcv.trans ?_
    calc (pk.encrypt M r).value ^ (ring2.private_key_shares.map (fun sh =>
        sh.two_delta_s_i * (2 * ((ring2.lam sh.i).getD 0)).toNat)).sum
        ≡ ((1 + p * q) ^ M * r ^ ((p * q) ^ s))
            ^ (ring2.private_key_shares.map (fun sh =>
              sh.two_delta_s_i * (2 * ((ring2.lam sh.i).getD 0)).toNat)).sum
          [MOD (p * q) ^ (s + 1)] := hv0.pow _
      _ = (1 + p * q) ^ (M * (ring2.private_key_shares.map (fun sh =>
            sh.two_delta_s_i * (2 * ((ring2.lam sh.i).getD 0)).toNat)).sum)
          * r ^ ((p * q) ^ s * (ring2.private_key_shares.map (fun sh =>
            sh.two_delta_s_i * (2 * ((ring2.lam sh.i).getD 0)).toNat)).sum) := by
          rw [mul_pow, ← pow_mul, ← pow_mul]
      _ ≡ (1 + p * q) ^ (4 * n_shares.factorial ^ 2 * M) * 1
          [MOD (p * q) ^ (s + 1)] :=
          Nat.ModEq.mul (pow_congr_of_pow_eq_one
            (Nat.pow_pos (show 0 < p * q by omega))
            (one_add_pow_order_nat (p * q) s) hME) hrpart
      _ = (1 + p * q) ^ (4 * n_shares.factorial ^ 2 * M) := mul_one _
  -- reduce
  have hcofact : Nat.Coprime s.factorial (p * q) := by
    refine Nat.Coprime.mul_right ?_ ?_
    · refine Nat.Coprime.symm ?_
      rw [Nat.Prime.coprime_iff_not_dvd hp]
      intro hdvd
      have := (Nat.Prime.dvd_factorial hp).mp hdvd
      omega
    · refine Nat.Coprime.symm ?_
      rw [Nat.Prime.coprime_iff_not_dvd hq]
      intro hdvd
      have := (Nat.Prime.dvd_factorial hq).mp hdvd
      omega
  obtain ⟨v, hv, hvc⟩ := @reduce_spec (p * q) s
    (4 * n_shares.factorial ^ 2 * M) (by omega) hcofact
  have hcong2 : combineVal ring2 (fun i0 => (ring2.lam i0).getD 0)
      (pk.encrypt M r).value
      ≡ (1 + p * q) ^ (4 * n_shares.factorial ^ 2 * M) % (p * q) ^ (s + 1)
        [MOD (p * q) ^ (s + 1)] :=
    hmain.trans (Nat.mod_modEq _ _).symm
  have hred : reduce (combineVal ring2 (fun i0 => (ring2.lam i0).getD 0)
      (pk.encrypt M r).value) s (p * q) = some v := by
    rw [reduce_congr hcong2]
    exact hv
  rw [hred, Option.map_some']
  have hw4 : (4 * ((n_shares.factorial : ℕ) : ℤ) ^ 2) * w ≡ 1
      [ZMOD ((pk.n_s : ℕ) : ℤ)] := by
    have hnspos : (0 : ℤ) < (pk.n_s : ℤ) := by
      rw [hNs]
      exact_mod_cast Nat.pow_pos (show 0 < p * q by omega)
    have hsp2 := inv_mod_spec hnspos
      (le_trans (neg_nonpos.mpr (le_of_lt hnspos)) (by positivity)) hw
    rw [hdel] at hsp2
    exact hsp2.1
  have hfin : v * w % ((pk.n_s : ℕ) : ℤ) = (M : ℤ) := by
    have hNsc : ((pk.n_s : ℕ) : ℤ) = ((p * q : ℕ) : ℤ) ^ s := by
      rw [hNs]
      push_cast
      ring
    have hvc2 : v ≡ ((4 * n_shares.factorial ^ 2 * M : ℕ) : ℤ)
        [ZMOD ((pk.n_s : ℕ) : ℤ)] := by
      rw [hNsc]
      exact hvc
    have hchain : v * w ≡ (M : ℤ) [ZMOD ((pk.n_s : ℕ) : ℤ)] := by
      calc v * w ≡ ((4 * n_shares.factorial ^ 2 * M : ℕ) : ℤ) * w
          [ZMOD ((pk.n_s : ℕ) : ℤ)] := hvc2.mul_right w
        _ = (M : ℤ) * (4 * ((n_shares.factorial : ℕ) : ℤ) ^ 2 * w) := by
            push_cast
            ring
        _ ≡ (M : ℤ) * 1 [ZMOD ((pk.n_s : ℕ) : ℤ)] :=
            Int.ModEq.mul_left _ hw4
        _ = (M : ℤ) := mul_one _
    have hMlt : (M : ℤ) < ((pk.n_s : ℕ) : ℤ) := by exact_mod_cast hM
    calc v * w % ((pk.n_s : ℕ) : ℤ)
        = (M : ℤ) % ((pk.n_s : ℕ) : ℤ) := hchain
      _ = (M : ℤ) := Int.emod_eq_of_lt (by positivity) hMlt
  exact congrArg some hfin

set_option maxRecDepth 100000 in
/-- Witness for `keygen_roundtrip`: the concrete 16-bit safe-prime key from
the counterexample, plaintext `7`, coprime randomness `r = 2`. -/
theorem keygen_roundtrip_witness :
    PrivateKeyRing.decrypt
      ⟨⟨1083392041, 1, 270831553, 1, 1⟩,
        [⟨⟨1083392041, 1, 270831553, 1, 1⟩, 1, 28499699113233550⟩],
        812544031⟩
      (PublicKey.encrypt ⟨1083392041, 1, 270831553, 1, 1⟩ 7 2)
      = some ((7 : ℕ) : ℤ) :=
  @keygen_roundtrip 32843 32987 16421 16493
    (by norm_num) (by norm_num) (by norm_num) (by norm_num)
    (by norm_num) (by norm_num) (by norm_num) (by norm_num) (by norm_num)
    16 1 1 1 []
    (by norm_num) (by norm_num) (by norm_num) (by norm_num) (by norm_num)
    (by norm_num) (by norm_num) (by norm_num) rfl
    ⟨1083392041, 1, 270831553, 1, 1⟩
    ⟨⟨1083392041, 1, 270831553, 1, 1⟩,
      [⟨⟨1083392041, 1, 270831553, 1, 1⟩, 1, 28499699113233550⟩],
      812544031⟩
    (by decide) 7 2 (by decide) (by decide)

/-- `get_unique_private_key_shares` keeps a distinct-index list whole. -/
theorem getUniqueAux_of_nodup :
    ∀ (l : List PrivateKeyShareCV) (seen : List ℕ),
      (l.map (·.i)).Nodup → (∀ sh ∈ l, sh.i ∉ seen) →
      getUniqueAux l seen = l := by
  intro l
  induction l with
  | nil => intro seen _ _; rfl
  | cons sh l ih =>
    intro seen hnd hseen
    rw [getUniqueAux, if_neg (hseen sh (List.mem_cons_self sh l))]
    congr 1
    refine ih (sh.i :: seen) ?_ ?_
    · exact (List.nodup_cons.mp (by simpa using hnd)).2
    · intro sh2 hsh2
      rw [List.mem_cons]
      push_neg
      refine ⟨?_, hseen sh2 (List.mem_cons_of_mem sh hsh2)⟩
      intro he
      have hmem : sh.i ∈ l.map (·.i) := by
        rw [← he]
        exact List.mem_map_of_mem (·.i) hsh2
      exact (List.nodup_cons.mp (by simpa using hnd)).1 hmem

/-- Pure value of the `threshold_decrypt` combination fold. -/
def combineValCV (pk : PublicKey) (sel : List PrivateKeyShareCV)
    (lv : ℕ → ℤ) (v : ℕ) : ℕ :=
  sel.foldl (fun cp sh => cp * powMod (powMod v sh.two_delta_s_i pk.n_s_1)
    (2 * lv sh.i).toNat pk.n_s_1 % pk.n_s_1) 1

/-- The `threshold_decrypt` combination fold evaluates to `combineValCV`
when every Lagrange lookup succeeds. -/
theorem cv_fold_eq (pk : PublicKey) (sel : List PrivateKeyShareCV)
    (c : EncryptedNumber) (S : List ℕ) (lv : ℕ → ℤ)
    (hshk : ∀ sh ∈ sel, sh.public_key = pk)
    (hall : ∀ sh ∈ sel, lamCV pk S sh.i = some (lv sh.i)) :
    ((sel.map (·.decrypt c)).zip (sel.map (·.i))).foldlM
      (fun cp p => (lamCV pk S p.2).map
        (fun li => cp * powMod p.1 (2 * li).toNat pk.n_s_1 % pk.n_s_1)) 1
      = some (combineValCV pk sel lv c.value) := by
  have hmap : sel.map (·.decrypt c) = sel.map (fun sh =>
      powMod c.value sh.two_delta_s_i pk.n_s_1) := by
    refine List.map_congr_left ?_
    intro sh hsh
    rw [PrivateKeyShareCV.decrypt, hshk sh hsh]
  rw [hmap, List.zip_map']
  have hall2 : ∀ p ∈ sel.map (fun sh =>
      (powMod c.value sh.two_delta_s_i pk.n_s_1, sh.i)),
      lamCV pk S p.2 = some (lv p.2) := by
    intro p hp
    obtain ⟨sh, hsh, rfl⟩ := List.mem_map.mp hp
    exact hall sh hsh
  rw [decrypt_foldlM_eq pk.n_s_1 (lamCV pk S) lv _ 1 hall2, List.foldl_map]
  rfl

/-- `combineValCV` is a single power of the ciphertext value. -/
theorem combineValCV_pow (pk : PublicKey) (sel : List PrivateKeyShareCV)
    (lv : ℕ → ℤ) (v : ℕ) :
    combineValCV pk sel lv v
      ≡ v ^ ((sel.map (fun sh =>
          sh.two_delta_s_i * (2 * lv sh.i).toNat)).sum) [MOD pk.n_s_1] := by
  rw [combineValCV]
  have hres := combineVal_fold_pow pk.n_s_1
    (fun sh : PrivateKeyShareCV => sh.two_delta_s_i)
    (fun sh : PrivateKeyShareCV => (2 * lv sh.i).toNat) v sel 1 0
    (by rw [pow_zero])
  simpa using hres

set_option maxHeartbeats 1000000 in
/-- Positive half of the threshold property: any `threshold`-or-more
keygen-shaped shares with pairwise distinct indices decrypt `encrypt M r`
(coprime `r`) back to `M`, whichever `threshold` shares come first. -/
theorem threshold_decrypt_correct :
    ∀ (p q p' q' : ℕ), p.Prime → q.Prime → p'.Prime → q'.Prime →
        p = 2 * p' + 1 → q = 2 * q' + 1 → p ≠ q → p' ≠ q → q' ≠ p →
        ∀ (s threshold n_shares : ℕ), 1 ≤ s → 1 ≤ threshold →
          threshold ≤ n_shares → s < p → s < q →
          n_shares ≤ p' → n_shares ≤ q' →
        ∀ (d0 : ℕ) (rest : List ℕ),
          d0 ≡ 0 [MOD p' * q'] → d0 ≡ 1 [MOD (p * q) ^ s] →
          rest.length + 1 = threshold →
        ∀ (shares : List PrivateKeyShareCV),
          (shares.map (·.i)).Nodup →
          threshold ≤ shares.length →
          (∀ sh ∈ shares,
            sh.public_key = (⟨p * q, s, p' * q', threshold,
              n_shares.factorial⟩ : PublicKey) ∧
            sh.delta = n_shares.factorial ∧ 1 ≤ sh.i ∧ sh.i ≤ n_shares ∧
            sh.s_i = polyEval (d0 :: rest)
              ((p * q) ^ s * (p' * q')) sh.i) →
        ∀ (M r : ℕ), M < (p * q) ^ s → Nat.Coprime r (p * q) →
          threshold_decrypt
            (PublicKey.encrypt
              ⟨p * q, s, p' * q', threshold, n_shares.factorial⟩ M r)
            shares = some (M : ℤ) := by
  intro p q p' q' hp hq hp' hq' hpe hqe hpq hp'q hq'p
  intro s threshold n_shares hs1 ht1 hts hsp hsq hnp hnq
  intro d0 rest hd0 hd1 hdraws
  intro shares hnodup hlen hprops
  intro M r hM hr
  have hp2 : 2 ≤ p' := hp'.two_le
  have hq2 : 2 ≤ q' := hq'.two_le
  have hppos : 5 ≤ p := by omega
  have hqpos : 5 ≤ q := by omega
  have hpq25 : 25 ≤ p * q :=
    Nat.mul_le_mul (show 5 ≤ p by omega) (show 5 ≤ q by omega)
  have hthr : (⟨p * q, s, p' * q', threshold, n_shares.factorial⟩ :
      PublicKey).threshold = threshold := rfl
  have hdelL : (⟨p * q, s, p' * q', threshold, n_shares.factorial⟩ :
      PublicKey).delta = n_shares.factorial := rfl
  have hnsm : (⟨p * q, s, p' * q', threshold, n_shares.factorial⟩ :
      PublicKey).n_s_m = (p * q) ^ s * (p' * q') := rfl
  have hnsL : (⟨p * q, s, p' * q', threshold, n_shares.factorial⟩ :
      PublicKey).n_s = (p * q) ^ s := rfl
  have hnL : (⟨p * q, s, p' * q', threshold, n_shares.factorial⟩ :
      PublicKey).n = p * q := rfl
  have hsL : (⟨p * q, s, p' * q', threshold, n_shares.factorial⟩ :
      PublicKey).s = s := rfl
  have hK : (⟨p * q, s, p' * q', threshold, n_shares.factorial⟩ :
      PublicKey).n_s_1 = (p * q) ^ (s + 1) := by
    show (p * q) ^ s * (p * q) = (p * q) ^ (s + 1)
    rw [pow_succ]
  have huniq : get_unique_private_key_shares shares = shares :=
    getUniqueAux_of_nodup shares [] hnodup (by simp)
  simp only [threshold_decrypt]
  rw [show (PublicKey.encrypt
      ⟨p * q, s, p' * q', threshold, n_shares.factorial⟩ M r).public_key
    = (⟨p * q, s, p' * q', threshold, n_shares.factorial⟩ : PublicKey)
    from rfl, huniq, hthr]
  rw [if_neg (not_not_intro (show shares.length ≥ threshold from hlen))]
  -- selected shares and their indices
  have hsel_mem : ∀ sh ∈ shares.take threshold,
      sh.public_key = (⟨p * q, s, p' * q', threshold,
        n_shares.factorial⟩ : PublicKey) ∧
      sh.delta = n_shares.factorial ∧ 1 ≤ sh.i ∧ sh.i ≤ n_shares ∧
      sh.s_i = polyEval (d0 :: rest) ((p * q) ^ s * (p' * q')) sh.i :=
    fun sh hsh => hprops sh ((List.take_sublist _ _).subset hsh)
  have hSnodup : ((shares.take threshold).map (·.i)).Nodup := by
    rw [List.map_take]
    exact List.Nodup.sublist (List.take_sublist _ _) hnodup
  have hSlen : ((shares.take threshold).map (·.i)).length = threshold := by
    rw [List.length_map, List.length_take]
    omega
  have hSmem : ∀ i0 ∈ (shares.take threshold).map (·.i),
      1 ≤ i0 ∧ i0 ≤ n_shares := by
    intro i0 hi0
    obtain ⟨sh, hsh, rfl⟩ := List.mem_map.mp hi0
    exact ⟨(hsel_mem sh hsh).2.2.1, (hsel_mem sh hsh).2.2.2.1⟩
  have hNbig : n_shares < (p * q) ^ s * (p' * q') := by
    have h2 : p' * 2 ≤ p' * q' := Nat.mul_le_mul_left p' hq2
    have h3 : 1 * (p' * q') ≤ (p * q) ^ s * (p' * q') :=
      Nat.mul_le_mul_right (p' * q')
        (Nat.pow_pos (show 0 < p * q by omega))
    omega
  have hNpos : 0 < (⟨p * q, s, p' * q', threshold,
      n_shares.factorial⟩ : PublicKey).n_s_m := by
    rw [hnsm]
    positivity
  -- Lagrange coefficients via the lamCV fold
  have hlamS : ∀ i0 ∈ (shares.take threshold).map (·.i), ∃ L0 : ℤ,
      lamCV (⟨p * q, s, p' * q', threshold, n_shares.factorial⟩ :
        PublicKey) ((shares.take threshold).map (·.i)) i0 = some L0 ∧
      0 ≤ L0 ∧ L0 < ((p * q) ^ s * (p' * q') : ℕ) ∧
      (L0 : ZMod ((p * q) ^ s * (p' * q')))
        = ((n_shares.factorial : ℕ) : ZMod ((p * q) ^ s * (p' * q'))) *
          ((((shares.take threshold).map (·.i)).filter
              (fun ip => ip ≠ i0)).map
            (fun (ip : ℕ) => (ip : ZMod ((p * q) ^ s * (p' * q')))
              * ((ip : ZMod ((p * q) ^ s * (p' * q')))
                - (i0 : ZMod ((p * q) ^ s * (p' * q'))))⁻¹)).prod := by
    intro i0 hi0
    have hN' : (0 : ℤ) < ((⟨p * q, s, p' * q', threshold,
        n_shares.factorial⟩ : PublicKey).n_s_m : ℤ) := by
      exact_mod_cast hNpos
    have hall : ∀ ip ∈ ((shares.take threshold).map (·.i)).filter
        (fun ip => ip ≠ i0),
        Int.gcd ((ip : ℤ) - (i0 : ℤ))
          (((⟨p * q, s, p' * q', threshold, n_shares.factorial⟩ :
            PublicKey).n_s_m : ℕ) : ℤ) = 1 ∧
        (i0 : ℤ) ≤ (((⟨p * q, s, p' * q', threshold,
          n_shares.factorial⟩ : PublicKey).n_s_m : ℕ) : ℤ) + ip := by
      intro ip hip
      obtain ⟨hip1, hip2⟩ := List.mem_filter.mp hip
      have hipne : ip ≠ i0 := by simpa using hip2
      obtain ⟨hb1, hb2⟩ := hSmem ip hip1
      obtain ⟨hc1, hc2⟩ := hSmem i0 hi0
      constructor
      · rw [hnsm]
        exact diff_coprime hp hq hp' hq' hpe hqe hnp hnq hc1 hc2 hb1 hb2
          (fun he => hipne he.symm)
      · have hle2 : (i0 : ℤ) ≤ (((⟨p * q, s, p' * q', threshold,
            n_shares.factorial⟩ : PublicKey).n_s_m : ℕ) : ℤ) := by
          rw [hnsm]
          exact_mod_cast le_of_lt (lt_of_le_of_lt hc2 hNbig)
        have hip0 : (0 : ℤ) ≤ (ip : ℤ) := Int.natCast_nonneg ip
        linarith
    have h0 : (0 : ℤ) ≤ ((⟨p * q, s, p' * q', threshold,
        n_shares.factorial⟩ : PublicKey).delta : ℤ)
          % ((⟨p * q, s, p' * q', threshold,
            n_shares.factorial⟩ : PublicKey).n_s_m : ℤ) :=
      Int.emod_nonneg _ hN'.ne'
    have h1 : ((⟨p * q, s, p' * q', threshold,
        n_shares.factorial⟩ : PublicKey).delta : ℤ)
          % ((⟨p * q, s, p' * q', threshold,
            n_shares.factorial⟩ : PublicKey).n_s_m : ℤ)
        < ((⟨p * q, s, p' * q', threshold,
          n_shares.factorial⟩ : PublicKey).n_s_m : ℤ) :=
      Int.emod_lt_of_pos _ hN'
    obtain ⟨L0, hL0, hh1, hh2, hh3⟩ := lam_fold_spec
      (⟨p * q, s, p' * q', threshold, n_shares.factorial⟩ :
        PublicKey).n_s_m hNpos i0
      (((shares.take threshold).map (·.i)).filter (fun ip => ip ≠ i0))
      _ h0 h1 hall
    refine ⟨L0, ?_, hh1, ?_, ?_⟩
    · rw [lamCV]
      exact hL0
    · rw [hnsm] at hh2
      exact hh2
    · rw [hnsm] at hh3
      rw [hh3, ZMod.intCast_mod]
      push_cast
      ring
  have hlv : ∀ i0 ∈ (shares.take threshold).map (·.i),
      lamCV (⟨p * q, s, p' * q', threshold, n_shares.factorial⟩ :
          PublicKey) ((shares.take threshold).map (·.i)) i0
        = some ((lamCV (⟨p * q, s, p' * q', threshold,
            n_shares.factorial⟩ : PublicKey)
            ((shares.take threshold).map (·.i)) i0).getD 0) ∧
      0 ≤ (lamCV (⟨p * q, s, p' * q', threshold, n_shares.factorial⟩ :
          PublicKey) ((shares.take threshold).map (·.i)) i0).getD 0 ∧
      (((lamCV (⟨p * q, s, p' * q', threshold, n_shares.factorial⟩ :
          PublicKey) ((shares.take threshold).map (·.i)) i0).getD 0 : ℤ)
            : ZMod ((p * q) ^ s * (p' * q')))
        = ((n_shares.factorial : ℕ) : ZMod ((p * q) ^ s * (p' * q'))) *
          ((((shares.take threshold).map (·.i)).filter
              (fun ip => ip ≠ i0)).map
            (fun (ip : ℕ) => (ip : ZMod ((p * q) ^ s * (p' * q')))
              * ((ip : ZMod ((p * q) ^ s * (p' * q')))
                - (i0 : ZMod ((p * q) ^ s * (p' * q'))))⁻¹)).prod := by
    intro i0 hi0
    obtain ⟨L0, hL0, h1, h2, h3⟩ := hlamS i0 hi0
    rw [hL0]
    simp only [Option.getD_some]
    exact ⟨trivial, h1, h3⟩
  have hT := @shamir_lagrange_sum ((p * q) ^ s * (p' * q')) d0 rest
    ((shares.take threshold).map (·.i)) hSnodup
    (by rw [hSlen]; omega)
    (by
      intro i0 hi0
      have h2 := (hSmem i0 hi0).2
      omega)
    (by
      intro i0 hi0 j0 hj0 hne
      exact diff_coprime hp hq hp' hq' hpe hqe hnp hnq
        (hSmem i0 hi0).1 (hSmem i0 hi0).2 (hSmem j0 hj0).1 (hSmem j0 hj0).2
        hne)
    n_shares.factorial
    (fun i0 => (lamCV (⟨p * q, s, p' * q', threshold,
      n_shares.factorial⟩ : PublicKey)
      ((shares.take threshold).map (·.i)) i0).getD 0)
    (by
      intro i0 hi0
      obtain ⟨-, h1, h3⟩ := hlv i0 hi0
      exact ⟨h1, h3⟩)
  -- unfolded combination fold
  have hshk2 : ∀ sh ∈ shares.take threshold,
      sh.public_key = (⟨p * q, s, p' * q', threshold,
        n_shares.factorial⟩ : PublicKey) :=
    fun sh hsh => (hsel_mem sh hsh).1
  have hall2 : ∀ sh ∈ shares.take threshold,
      lamCV (⟨p * q, s, p' * q', threshold, n_shares.factorial⟩ :
          PublicKey) ((shares.take threshold).map (·.i)) sh.i
        = some ((lamCV (⟨p * q, s, p' * q', threshold,
            n_shares.factorial⟩ : PublicKey)
            ((shares.take threshold).map (·.i)) sh.i).getD 0) := by
    intro sh hsh
    exact (hlv sh.i (List.mem_map_of_mem (·.i) hsh)).1
  have hfold := cv_fold_eq
    (⟨p * q, s, p' * q', threshold, n_shares.factorial⟩ : PublicKey)
    (shares.take threshold)
    (PublicKey.encrypt
      ⟨p * q, s, p' * q', threshold, n_shares.factorial⟩ M r)
    ((shares.take threshold).map (·.i))
    (fun i0 => (lamCV (⟨p * q, s, p' * q', threshold,
      n_shares.factorial⟩ : PublicKey)
      ((shares.take threshold).map (·.i)) i0).getD 0)
    hshk2 hall2
  rw [hfold, Option.bind_eq_some']
  refine ⟨_, rfl, ?_⟩
  -- exponent decomposition
  have hE : ((shares.take threshold).map (fun sh =>
      sh.two_delta_s_i * (2 * ((lamCV (⟨p * q, s, p' * q', threshold,
        n_shares.factorial⟩ : PublicKey)
        ((shares.take threshold).map (·.i)) sh.i).getD 0)).toNat)).sum
      = 4 * n_shares.factorial
        * (((shares.take threshold).map (·.i)).map (fun i0 =>
          polyEval (d0 :: rest) ((p * q) ^ s * (p' * q')) i0 *
            ((lamCV (⟨p * q, s, p' * q', threshold,
              n_shares.factorial⟩ : PublicKey)
              ((shares.take threshold).map (·.i)) i0).getD 0).toNat)).sum := by
    have hperm : ∀ sh ∈ shares.take threshold,
        sh.two_delta_s_i * (2 * ((lamCV (⟨p * q, s, p' * q', threshold,
          n_shares.factorial⟩ : PublicKey)
          ((shares.take threshold).map (·.i)) sh.i).getD 0)).toNat
        = 4 * n_shares.factorial * (polyEval (d0 :: rest)
            ((p * q) ^ s * (p' * q')) sh.i *
          ((lamCV (⟨p * q, s, p' * q', threshold,
            n_shares.factorial⟩ : PublicKey)
            ((shares.take threshold).map (·.i)) sh.i).getD 0).toNat) := by
      intro sh hsh
      have hmemi : sh.i ∈ (shares.take threshold).map (·.i) :=
        List.mem_map_of_mem (·.i) hsh
      have hnn := (hlv sh.i hmemi).2.1
      obtain ⟨hpk2, hdel2, hi1, hi2, hsi2⟩ := hsel_mem sh hsh
      have h2d : sh.two_delta_s_i = 2 * sh.delta * sh.s_i := rfl
      rw [h2d, hdel2, hsi2, toNat_two_mul hnn]
      ring
    calc ((shares.take threshold).map (fun sh =>
        sh.two_delta_s_i * (2 * ((lamCV (⟨p * q, s, p' * q', threshold,
          n_shares.factorial⟩ : PublicKey)
          ((shares.take threshold).map (·.i)) sh.i).getD 0)).toNat)).sum
        = ((shares.take threshold).map (fun sh =>
            4 * n_shares.factorial * (polyEval (d0 :: rest)
              ((p * q) ^ s * (p' * q')) sh.i *
              ((lamCV (⟨p * q, s, p' * q', threshold,
                n_shares.factorial⟩ : PublicKey)
                ((shares.take threshold).map (·.i)) sh.i).getD
                  0).toNat))).sum := by
          rw [List.map_congr_left hperm]
      _ = 4 * n_shares.factorial * ((shares.take threshold).map (fun sh =>
            polyEval (d0 :: rest) ((p * q) ^ s * (p' * q')) sh.i *
              ((lamCV (⟨p * q, s, p' * q', threshold,
                n_shares.factorial⟩ : PublicKey)
                ((shares.take threshold).map (·.i)) sh.i).getD
                  0).toNat)).sum :=
          List.sum_map_mul_left _ _ _
      _ = 4 * n_shares.factorial
          * (((shares.take threshold).map (·.i)).map (fun i0 =>
            polyEval (d0 :: rest) ((p * q) ^ s * (p' * q')) i0 *
              ((lamCV (⟨p * q, s, p' * q', threshold,
                n_shares.factorial⟩ : PublicKey)
                ((shares.take threshold).map (·.i)) i0).getD
                  0).toNat)).sum := by
          rw [List.map_map]
          rfl
  -- the ciphertext value modulo n^(s+1)
  have hv0 : (PublicKey.encrypt
      ⟨p * q, s, p' * q', threshold, n_shares.factorial⟩ M r).value
      ≡ (1 + p * q) ^ M * r ^ ((p * q) ^ s) [MOD (p * q) ^ (s + 1)] := by
    have hval : (PublicKey.encrypt
        ⟨p * q, s, p' * q', threshold, n_shares.factorial⟩ M r).value
        = powMod ((⟨p * q, s, p' * q', threshold, n_shares.factorial⟩ :
            PublicKey).n + 1) M
            (⟨p * q, s, p' * q', threshold, n_shares.factorial⟩ :
              PublicKey).n_s_1
          * powMod r (⟨p * q, s, p' * q', threshold,
              n_shares.factorial⟩ : PublicKey).n_s
            (⟨p * q, s, p' * q', threshold, n_shares.factorial⟩ :
              PublicKey).n_s_1
          % (⟨p * q, s, p' * q', threshold, n_shares.factorial⟩ :
            PublicKey).n_s_1 := rfl
    rw [hval, powMod_eq, powMod_eq, hnL, hnsL, hK, Nat.add_comm (p * q) 1]
    calc (1 + p * q) ^ M % (p * q) ^ (s + 1)
          * (r ^ (p * q) ^ s % (p * q) ^ (s + 1)) % (p * q) ^ (s + 1)
        ≡ (1 + p * q) ^ M % (p * q) ^ (s + 1)
          * (r ^ (p * q) ^ s % (p * q) ^ (s + 1)) [MOD (p * q) ^ (s + 1)] :=
          Nat.mod_modEq _ _
      _ ≡ (1 + p * q) ^ M * r ^ ((p * q) ^ s) [MOD (p * q) ^ (s + 1)] :=
          Nat.ModEq.mul (Nat.mod_modEq _ _) (Nat.mod_modEq _ _)
  -- the r-part vanishes
  have hrpow : r ^ (2 * ((p * q) ^ s * (p' * q')))
      ≡ 1 [MOD (p * q) ^ (s + 1)] := by
    have h0 := unit_pow_order hp hq hpe hqe hpq s hr
    rwa [show 2 * (p * q) ^ s * (p' * q') = 2 * ((p * q) ^ s * (p' * q'))
      from by ring] at h0
  have hTdvd : p' * q' ∣ (((shares.take threshold).map (·.i)).map
      (fun i0 => polyEval (d0 :: rest) ((p * q) ^ s * (p' * q')) i0 *
        ((lamCV (⟨p * q, s, p' * q', threshold,
          n_shares.factorial⟩ : PublicKey)
          ((shares.take threshold).map (·.i)) i0).getD 0).toNat)).sum := by
    rw [← Nat.modEq_zero_iff_dvd]
    have h1 := Nat.ModEq.of_dvd
      (show p' * q' ∣ (p * q) ^ s * (p' * q') from ⟨(p * q) ^ s, by ring⟩)
      hT
    refine h1.trans ?_
    calc n_shares.factorial * d0
        ≡ n_shares.factorial * 0 [MOD p' * q'] :=
          Nat.ModEq.mul_left _ hd0
      _ = 0 := by ring
  obtain ⟨T0, hT0⟩ := hTdvd
  have hrpart : r ^ ((p * q) ^ s * (((shares.take threshold)).map
      (fun sh => sh.two_delta_s_i * (2 * ((lamCV (⟨p * q, s, p' * q',
        threshold, n_shares.factorial⟩ : PublicKey)
        ((shares.take threshold).map (·.i)) sh.i).getD 0)).toNat)).sum)
      ≡ 1 [MOD (p * q) ^ (s + 1)] := by
    rw [hE, hT0, show (p * q) ^ s
        * (4 * n_shares.factorial * (p' * q' * T0))
      = 2 * ((p * q) ^ s * (p' * q')) * (2 * n_shares.factorial * T0)
      from by ring, pow_mul]
    calc (r ^ (2 * ((p * q) ^ s * (p' * q'))))
          ^ (2 * n_shares.factorial * T0)
        ≡ 1 ^ (2 * n_shares.factorial * T0) [MOD (p * q) ^ (s + 1)] :=
          hrpow.pow _
      _ = 1 := one_pow _
  -- the (1+n)-part reduces to the plaintext exponent
  have hTNs : (((shares.take threshold).map (·.i)).map
      (fun i0 => polyEval (d0 :: rest) ((p * q) ^ s * (p' * q')) i0 *
        ((lamCV (⟨p * q, s, p' * q', threshold,
          n_shares.factorial⟩ : PublicKey)
          ((shares.take threshold).map (·.i)) i0).getD 0).toNat)).sum
      ≡ n_shares.factorial [MOD (p * q) ^ s] := by
    have h1 := Nat.ModEq.of_dvd
      (show (p * q) ^ s ∣ (p * q) ^ s * (p' * q') from ⟨p' * q', rfl⟩) hT
    refine h1.trans ?_
    calc n_shares.factorial * d0
        ≡ n_shares.factorial * 1 [MOD (p * q) ^ s] :=
          Nat.ModEq.mul_left _ hd1
      _ = n_shares.factorial := by ring
  have hME : M * (((shares.take threshold)).map
      (fun sh => sh.two_delta_s_i * (2 * ((lamCV (⟨p * q, s, p' * q',
        threshold, n_shares.factorial⟩ : PublicKey)
        ((shares.take threshold).map (·.i)) sh.i).getD 0)).toNat)).sum
      ≡ 4 * n_shares.factorial ^ 2 * M [MOD (p * q) ^ s] := by
    rw [hE]
    have hstep : 4 * n_shares.factorial * M
        * (((shares.take threshold).map (·.i)).map
          (fun i0 => polyEval (d0 :: rest) ((p * q) ^ s * (p' * q')) i0 *
            ((lamCV (⟨p * q, s, p' * q', threshold,
              n_shares.factorial⟩ : PublicKey)
              ((shares.take threshold).map (·.i)) i0).getD 0).toNat)).sum
        ≡ 4 * n_shares.factorial ^ 2 * M [MOD (p * q) ^ s] := by
      calc 4 * n_shares.factorial * M
          * (((shares.take threshold).map (·.i)).map
            (fun i0 => polyEval (d0 :: rest) ((p * q) ^ s * (p' * q')) i0 *
              ((lamCV (⟨p * q, s, p' * q', threshold,
                n_shares.factorial⟩ : PublicKey)
                ((shares.take threshold).map (·.i)) i0).getD
                  0).toNat)).sum
          ≡ 4 * n_shares.factorial * M * n_shares.factorial
            [MOD (p * q) ^ s] := Nat.ModEq.mul_left _ hTNs
        _ = 4 * n_shares.factorial ^ 2 * M := by ring
    refine Nat.ModEq.trans ?_ hstep
    rw [show M * (4 * n_shares.factorial
        * (((shares.take threshold).map (·.i)).map
          (fun i0 => polyEval (d0 :: rest) ((p * q) ^ s * (p' * q')) i0 *
            ((lamCV (⟨p * q, s, p' * q', threshold,
              n_shares.factorial⟩ : PublicKey)
              ((shares.take threshold).map (·.i)) i0).getD 0).toNat)).sum)
      = 4 * n_shares.factorial * M
        * (((shares.take threshold).map (·.i)).map
          (fun i0 => polyEval (d0 :: rest) ((p * q) ^ s * (p' * q')) i0 *
            ((lamCV (⟨p * q, s, p' * q', threshold,
              n_shares.factorial⟩ : PublicKey)
              ((shares.take threshold).map (·.i)) i0).getD 0).toNat)).sum
      from by ring]
  have hmain : combineValCV
      (⟨p * q, s, p' * q', threshold, n_shares.factorial⟩ : PublicKey)
      (shares.take threshold)
      (fun i0 => (lamCV (⟨p * q, s, p' * q', threshold,
        n_shares.factorial⟩ : PublicKey)
        ((shares.take threshold).map (·.i)) i0).getD 0)
      (PublicKey.encrypt
        ⟨p * q, s, p' * q', threshold, n_shares.factorial⟩ M r).value
      ≡ (1 + p * q) ^ (4 * n_shares.factorial ^ 2 * M)
        [MOD (p * q) ^ (s + 1)] := by
    have hcv := combineValCV_pow
      (⟨p * q, s, p' * q', threshold, n_shares.factorial⟩ : PublicKey)
      (shares.take threshold)
      (fun i0 => (lamCV (⟨p * q, s, p' * q', threshold,
        n_shares.factorial⟩ : PublicKey)
        ((shares.take threshold).map (·.i)) i0).getD 0)
      (PublicKey.encrypt
        ⟨p * q, s, p' * q', threshold, n_shares.factorial⟩ M r).value
    rw [hK] at hcv
    refine hcv.trans ?_
    calc (PublicKey.encrypt
        ⟨p * q, s, p' * q', threshold, n_shares.factorial⟩ M r).value
          ^ (((shares.take threshold)).map (fun sh =>
            sh.two_delta_s_i * (2 * ((lamCV (⟨p * q, s, p' * q',
              threshold, n_shares.factorial⟩ : PublicKey)
              ((shares.take threshold).map (·.i)) sh.i).getD
                0)).toNat)).sum
        ≡ ((1 + p * q) ^ M * r ^ ((p * q) ^ s))
            ^ (((shares.take threshold)).map (fun sh =>
              sh.two_delta_s_i * (2 * ((lamCV (⟨p * q, s, p' * q',
                threshold, n_shares.factorial⟩ : PublicKey)
                ((shares.take threshold).map (·.i)) sh.i).getD
                  0)).toNat)).sum
          [MOD (p * q) ^ (s + 1)] := hv0.pow _
      _ = (1 + p * q) ^ (M * (((shares.take threshold)).map (fun sh =>
            sh.two_delta_s_i * (2 * ((lamCV (⟨p * q, s, p' * q',
              threshold, n_shares.factorial⟩ : PublicKey)
              ((shares.take threshold).map (·.i)) sh.i).getD
                0)).toNat)).sum)
          * r ^ ((p * q) ^ s * (((shares.take threshold)).map (fun sh =>
            sh.two_delta_s_i * (2 * ((lamCV (⟨p * q, s, p' * q',
              threshold, n_shares.factorial⟩ : PublicKey)
              ((shares.take threshold).map (·.i)) sh.i).getD
                0)).toNat)).sum) := by
          rw [mul_pow, ← pow_mul, ← pow_mul]
      _ ≡ (1 + p * q) ^ (4 * n_shares.factorial ^ 2 * M) * 1
          [MOD (p * q) ^ (s + 1)] :=
          Nat.ModEq.mul (pow_congr_of_pow_eq_one
            (Nat.pow_pos (show 0 < p * q by omega))
            (one_add_pow_order_nat (p * q) s) hME) hrpart
      _ = (1 + p * q) ^ (4 * n_shares.factorial ^ 2 * M) := mul_one _
  -- reduce
  have hcofact : Nat.Coprime s.factorial (p * q) := by
    refine Nat.Coprime.mul_right ?_ ?_
    · refine Nat.Coprime.symm ?_
      rw [Nat.Prime.coprime_iff_not_dvd hp]
      intro hdvd
      have := (Nat.Prime.dvd_factorial hp).mp hdvd
      omega
    · refine Nat.Coprime.symm ?_
      rw [Nat.Prime.coprime_iff_not_dvd hq]
      intro hdvd
      have := (Nat.Prime.dvd_factorial hq).mp hdvd
      omega
  obtain ⟨v, hv, hvc⟩ := @reduce_spec (p * q) s
    (4 * n_shares.factorial ^ 2 * M) (by omega) hcofact
  have hcong2 : combineValCV
      (⟨p * q, s, p' * q', threshold, n_shares.factorial⟩ : PublicKey)
      (shares.take threshold)
      (fun i0 => (lamCV (⟨p * q, s, p' * q', threshold,
        n_shares.factorial⟩ : PublicKey)
        ((shares.take threshold).map (·.i)) i0).getD 0)
      (PublicKey.encrypt
        ⟨p * q, s, p' * q', threshold, n_shares.factorial⟩ M r).value
      ≡ (1 + p * q) ^ (4 * n_shares.factorial ^ 2 * M) % (p * q) ^ (s + 1)
        [MOD (p * q) ^ (s + 1)] :=
    hmain.trans (Nat.mod_modEq _ _).symm
  have hred : reduce (combineValCV
      (⟨p * q, s, p' * q', threshold, n_shares.factorial⟩ : PublicKey)
      (shares.take threshold)
      (fun i0 => (lamCV (⟨p * q, s, p' * q', threshold,
        n_shares.factorial⟩ : PublicKey)
        ((shares.take threshold).map (·.i)) i0).getD 0)
      (PublicKey.encrypt
        ⟨p * q, s, p' * q', threshold, n_shares.factorial⟩ M r).value)
      s (p * q) = some v := by
    rw [reduce_congr hcong2]
    exact hv
  rw [hsL, hnL, hred, Option.bind_eq_some']
  refine ⟨_, rfl, ?_⟩
  rw [hdelL, hnsL]
  -- the final inverse of 4Δ²
  have hoddpq : Odd (p * q) :=
    Odd.mul (⟨p', by omega⟩ : Odd p) (⟨q', by omega⟩ : Odd q)
  have hc2 : Nat.Coprime 2 (p * q) := by
    rw [Nat.Prime.coprime_iff_not_dvd Nat.prime_two]
    intro hdvd
    obtain ⟨k, hk⟩ := hoddpq
    omega
  have hc4 : Nat.Coprime 4 (p * q) :=
    (show Nat.Coprime (2 ^ 2) (p * q) from hc2.pow_left 2)
  have hcD : Nat.Coprime n_shares.factorial (p * q) := by
    refine Nat.Coprime.mul_right ?_ ?_
    · refine Nat.Coprime.symm ?_
      rw [Nat.Prime.coprime_iff_not_dvd hp]
      intro hdvd
      have := (Nat.Prime.dvd_factorial hp).mp hdvd
      omega
    · refine Nat.Coprime.symm ?_
      rw [Nat.Prime.coprime_iff_not_dvd hq]
      intro hdvd
      have := (Nat.Prime.dvd_factorial hq).mp hdvd
      omega
  have hcop4 : Nat.Coprime (4 * n_shares.factorial ^ 2) ((p * q) ^ s) :=
    Nat.Coprime.pow_right s (Nat.Coprime.mul hc4 (hcD.pow_left 2))
  have hgcdI : Int.gcd (4 * ((n_shares.factorial : ℕ) : ℤ) ^ 2)
      (((p * q) ^ s : ℕ) : ℤ) = 1 := by
    rw [show (4 * ((n_shares.factorial : ℕ) : ℤ) ^ 2)
      = (((4 * n_shares.factorial ^ 2 : ℕ)) : ℤ) from by push_cast; ring,
      Int.gcd_natCast_natCast]
    exact hcop4
  have hnspos : (0 : ℤ) < (((p * q) ^ s : ℕ) : ℤ) := by
    exact_mod_cast Nat.pow_pos (show 0 < p * q by omega)
  obtain ⟨w, hw⟩ := Option.isSome_iff_exists.mp
    (inv_mod_isSome hnspos hgcdI)
  rw [hw, Option.map_some']
  have hw4 : (4 * ((n_shares.factorial : ℕ) : ℤ) ^ 2) * w ≡ 1
      [ZMOD (((p * q) ^ s : ℕ) : ℤ)] := by
    have hsp2 := inv_mod_spec hnspos
      (le_trans (neg_nonpos.mpr (le_of_lt hnspos)) (by positivity)) hw
    exact hsp2.1
  have hfin : v * w % (((p * q) ^ s : ℕ) : ℤ) = (M : ℤ) := by
    have hNsc : (((p * q) ^ s : ℕ) : ℤ) = ((p * q : ℕ) : ℤ) ^ s := by
      push_cast
      ring
    have hvc2 : v ≡ ((4 * n_shares.factorial ^ 2 * M : ℕ) : ℤ)
        [ZMOD (((p * q) ^ s : ℕ) : ℤ)] := by
      rw [hNsc]
      exact hvc
    have hchain : v * w ≡ (M : ℤ) [ZMOD (((p * q) ^ s : ℕ) : ℤ)] := by
      calc v * w ≡ ((4 * n_shares.factorial ^ 2 * M : ℕ) : ℤ) * w
          [ZMOD (((p * q) ^ s : ℕ) : ℤ)] := hvc2.mul_right w
        _ = (M : ℤ) * (4 * ((n_shares.factorial : ℕ) : ℤ) ^ 2 * w) := by
            push_cast
            ring
        _ ≡ (M : ℤ) * 1 [ZMOD (((p * q) ^ s : ℕ) : ℤ)] :=
            Int.ModEq.mul_left _ hw4
        _ = (M : ℤ) := mul_one _
    have hMlt : (M : ℤ) < (((p * q) ^ s : ℕ) : ℤ) := by exact_mod_cast hM
    calc v * w % (((p * q) ^ s : ℕ) : ℤ)
        = (M : ℤ) % (((p * q) ^ s : ℕ) : ℤ) := hchain
      _ = (M : ℤ) := Int.emod_eq_of_lt (by positivity) hMlt
  exact congrArg some hfin

/-- C3: `threshold_decrypt` rejects (raises, embedded as `none`) whenever
fewer than `threshold` unique-index shares are supplied; and for any
`threshold`-or-more shares with pairwise distinct indices that carry the
keygen-produced data (safe-prime key, `delta = n_shares!`, `s_i` the Shamir
polynomial value at `i`), decryption of `encrypt M r` with coprime
randomness returns exactly `M` — whichever `threshold` shares come first.
The ring-construction half of the claim is refuted separately: `__init__`
deduplicates by full share equality, not by index. -/
theorem threshold_property :

    (∀ (c : EncryptedNumber) (shares : List PrivateKeyShareCV),
        (get_unique_private_key_shares shares).length
          < c.public_key.threshold →
        threshold_decrypt c shares = none)
    ∧ ∀ (p q p' q' : ℕ), p.Prime → q.Prime → p'.Prime → q'.Prime →
        p = 2 * p' + 1 → q = 2 * q' + 1 → p ≠ q → p' ≠ q → q' ≠ p →
        ∀ (s threshold n_shares : ℕ), 1 ≤ s → 1 ≤ threshold →
          threshold ≤ n_shares → s < p → s < q →
          n_shares ≤ p' → n_shares ≤ q' →
        ∀ (d0 : ℕ) (rest : List ℕ),
          d0 ≡ 0 [MOD p' * q'] → d0 ≡ 1 [MOD (p * q) ^ s] →
          rest.length + 1 = threshold →
        ∀ (shares : List PrivateKeyShareCV),
          (shares.map (·.i)).Nodup →
          threshold ≤ shares.length →
          (∀ sh ∈ shares,
            sh.public_key = (⟨p * q, s, p' * q', threshold,
              n_shares.factorial⟩ : PublicKey) ∧
            sh.delta = n_shares.factorial ∧ 1 ≤ sh.i ∧ sh.i ≤ n_shares ∧
            sh.s_i = polyEval (d0 :: rest)
              ((p * q) ^ s * (p' * q')) sh.i) →
        ∀ (M r : ℕ), M < (p * q) ^ s → Nat.Coprime r (p * q) →
          threshold_decrypt
            (PublicKey.encrypt
              ⟨p * q, s, p' * q', threshold, n_shares.factorial⟩ M r)
            shares = some (M : ℤ) := by
  constructor
  · intro c shares hlt
    simp only [threshold_decrypt]
    rw [if_pos (by omega)]
  · exact threshold_decrypt_correct

set_option maxRecDepth 100000 in
/-- Witness for C3: an empty share list is rejected under threshold 1, and
one share of the 16-bit safe-prime key decrypts `encrypt 7 2` to `7`. -/
theorem threshold_property_witness :
    threshold_decrypt ⟨0, ⟨1, 1, 1, 1, 1⟩⟩ [] = none ∧
    threshold_decrypt
      (PublicKey.encrypt ⟨1083392041, 1, 270831553, 1, 1⟩ 7 2)
      [⟨⟨1083392041, 1, 270831553, 1, 1⟩, 1, 28499699113233550, 1⟩]
      = some (7 : ℤ) := by
  constructor
  · exact threshold_property.1 ⟨0, ⟨1, 1, 1, 1, 1⟩⟩ [] (by decide)
  · exact threshold_property.2 32843 32987 16421 16493
      (by norm_num) (by norm_num) (by norm_num) (by norm_num)
      (by norm_num) (by norm_num) (by norm_num) (by norm_num) (by norm_num)
      1 1 1 (by norm_num) (by norm_num) (by norm_num) (by norm_num)
      (by norm_num) (by norm_num) (by norm_num)
      28499699113233550 [] (by decide) (by decide) rfl
      [⟨⟨1083392041, 1, 270831553, 1, 1⟩, 1, 28499699113233550, 1⟩]
      (by decide) (by decide)
      (by
        intro sh hsh
        rw [List.mem_singleton] at hsh
        subst hsh
        exact ⟨rfl, rfl, by decide, by decide, by decide⟩)
      7 2 (by decide) (by decide)

/-- The index bounds disclosed by the corrected threshold property are
necessary: for the keygen-shaped safe-prime key `p = 5`, `q = 7` (so
`p' = 2`, `q' = 3`) with `s = 1`, `threshold = 2` and `n_shares = 3 > p'`,
two keygen-shaped shares at the distinct indices `1` and `3` make
`inv_mod(3 - 1, nˢ·m = 210)` raise inside the Lagrange-coefficient
computation (gcd 2), so `threshold_decrypt` errors instead of returning
the plaintext. -/
theorem threshold_decrypt_index_bounds_necessary :
    (36 : ℕ) ≡ 0 [MOD 2 * 3] ∧ (36 : ℕ) ≡ 1 [MOD (5 * 7) ^ 1] ∧
    threshold_decrypt
      (PublicKey.encrypt ⟨35, 1, 6, 2, 6⟩ 2 2)
      [⟨⟨35, 1, 6, 2, 6⟩, 1, polyEval [36, 0] 210 1, 6⟩,
       ⟨⟨35, 1, 6, 2, 6⟩, 3, polyEval [36, 0] 210 3, 6⟩] = none := by
  exact ⟨by decide, by decide, by decide⟩

/-- `pickEach` commutes with `map`. -/
theorem pickEach_map {α β : Type} (f : α → β) : ∀ l : List α,
    pickEach (l.map f) = (pickEach l).map (fun p => (f p.1, p.2.map f)) := by
  intro l
  induction l with
  | nil => rfl
  | cons a l ih =>
    rw [List.map_cons, pickEach, pickEach, ih, List.map_cons, List.map_map,
      List.map_map]
    rfl

/-- The first components produced by `pickEach` are the original list. -/
theorem pickEach_fsts {α : Type} : ∀ l : List α,
    (pickEach l).map (fun p => p.1) = l := by
  intro l
  induction l with
  | nil => rfl
  | cons a l ih =>
    rw [pickEach, List.map_cons, List.map_map]
    show a :: (pickEach l).map (fun p => p.1) = a :: l
    rw [ih]

/-- Mapping a function of the distinguished element over `pickEach`. -/
theorem pickEach_map_fst {α β : Type} (h : α → β) : ∀ l : List α,
    (pickEach l).map (fun q => h q.1) = l.map h := by
  intro l
  induction l with
  | nil => rfl
  | cons a l ih =>
    rw [pickEach, List.map_cons, List.map_cons, List.map_map]
    show h a :: (pickEach l).map (fun q => h q.1) = h a :: l.map h
    rw [ih]

/-- For a duplicate-free list, `pickEach` pairs each element with all the
others. -/
theorem pickEach_mem_eq {α : Type} [DecidableEq α] : ∀ (l : List α),
    l.Nodup → ∀ p ∈ pickEach l, p.1 ∈ l ∧ p.2 = l.filter (· ≠ p.1) := by
  intro l
  induction l with
  | nil => intro _ p hp; cases hp
  | cons a l ih =>
    intro hnd p hp
    obtain ⟨ha, hndl⟩ := List.nodup_cons.mp hnd
    rw [pickEach, List.mem_cons] at hp
    rcases hp with hp | hp
    · subst hp
      refine ⟨List.mem_cons_self a l, ?_⟩
      rw [List.filter_cons_of_neg (by simp)]
      refine (List.filter_eq_self.mpr ?_).symm
      intro x hx
      have hne : x ≠ a := fun he => ha (he ▸ hx)
      simpa using hne
    · obtain ⟨q, hq, rfl⟩ := List.mem_map.mp hp
      obtain ⟨hq1, hq2⟩ := ih hndl q hq
      refine ⟨List.mem_cons_of_mem a hq1, ?_⟩
      show a :: q.2 = (a :: l).filter (· ≠ q.1)
      have hane : a ≠ q.1 := fun he => ha (he ▸ hq1)
      rw [List.filter_cons_of_pos (by simpa using hane), hq2]

/-- The `lagrangeProduct` fold of `reconstruct` over integer-cast natural
x-coordinates: succeeds under invertible differences, stays in `[0, N)`,
and computes the Lagrange basis product in `ZMod N`. -/
theorem lagrange_fold_spec (N : ℕ) (hN : 0 < N) (i : ℕ) :
    ∀ (l : List ℕ) (acc : ℤ), 0 ≤ acc → acc < N →
      (∀ ip ∈ l, Int.gcd ((ip : ℤ) - (i : ℤ)) (N : ℤ) = 1 ∧
        (i : ℤ) ≤ (N : ℤ) + ip) →
      ∃ L : ℤ, (l.map (fun (ip : ℕ) => (ip : ℤ))).foldlM
          (fun product x_j => (inv_mod (x_j - (i : ℤ)) (N : ℤ)).map
            (fun w => product * x_j * w % (N : ℤ))) acc = some L ∧
        0 ≤ L ∧ L < N ∧
        (L : ZMod N) = (acc : ZMod N) *
          (l.map (fun (ip : ℕ) => (ip : ZMod N)
            * ((ip : ZMod N) - (i : ZMod N))⁻¹)).prod := by
  intro l
  induction l with
  | nil =>
    intro acc h0 h1 _
    exact ⟨acc, rfl, h0, h1, by simp⟩
  | cons ip l ih =>
    intro acc h0 h1 hall
    obtain ⟨hgcd, hle⟩ := hall ip (List.mem_cons_self ip l)
    have hN' : (0 : ℤ) < (N : ℤ) := by exact_mod_cast hN
    obtain ⟨w, hw⟩ := Option.isSome_iff_exists.mp (inv_mod_isSome hN' hgcd)
    obtain ⟨hmul, hw0, hwN⟩ := inv_mod_spec hN' (by linarith) hw
    rw [List.map_cons, List.foldlM_cons, hw, Option.map_some']
    simp only [Option.bind_eq_bind, Option.some_bind]
    have hacc'0 : 0 ≤ acc * (ip : ℤ) * w % (N : ℤ) :=
      Int.emod_nonneg _ hN'.ne'
    have hacc'N : acc * (ip : ℤ) * w % (N : ℤ) < N :=
      Int.emod_lt_of_pos _ hN'
    obtain ⟨L, hL, hL0, hLN, hLcast⟩ := ih _ hacc'0 hacc'N
      (fun x hx => hall x (List.mem_cons_of_mem _ hx))
    refine ⟨L, hL, hL0, hLN, ?_⟩
    have hwcast : ((w : ℤ) : ZMod N)
        = ((ip : ZMod N) - (i : ZMod N))⁻¹ := by
      refine zmod_eq_inv_of_mul_eq_one ?_
      have hc := (ZMod.intCast_eq_intCast_iff _ _ _).mpr hmul
      push_cast at hc
      rw [mul_comm] at hc
      exact hc
    have haccc : ((acc * (ip : ℤ) * w % (N : ℤ) : ℤ) : ZMod N)
        = (acc : ZMod N) * (ip : ZMod N)
          * ((ip : ZMod N) - (i : ZMod N))⁻¹ := by
      rw [ZMod.intCast_mod]
      push_cast
      rw [hwcast]
    rw [hLcast, haccc, List.map_cons, List.prod_cons]
    ring

/-- The outer fold of `reconstruct`: when every `lagrangeProduct` lookup
succeeds the fold succeeds, stays in `[0, m)`, and accumulates
`Σ yᵢ·Lᵢ mod m`. -/
theorem reconstruct_fold_spec (m : ℤ) (hm : 0 < m) (lv : ℤ → ℤ) :
    ∀ (ps : List ((ℤ × ℤ) × List (ℤ × ℤ))) (acc : ℤ), 0 ≤ acc → acc < m →
      (∀ p ∈ ps, lagrangeProduct m p.1.1 (p.2.map Prod.fst)
        = some (lv p.1.1)) →
      ∃ res : ℤ, ps.foldlM (fun secret p =>
          (lagrangeProduct m p.1.1 (p.2.map Prod.fst)).map
            (fun product => (secret + p.1.2 * product % m) % m)) acc
          = some res ∧
        0 ≤ res ∧ res < m ∧
        res ≡ acc + (ps.map (fun p => p.1.2 * lv p.1.1)).sum [ZMOD m] := by
  intro ps
  induction ps with
  | nil =>
    intro acc h0 h1 _
    exact ⟨acc, rfl, h0, h1, by simp⟩
  | cons p ps ih =>
    intro acc h0 h1 hall
    have hp := hall p (List.mem_cons_self p ps)
    rw [List.foldlM_cons, hp, Option.map_some']
    simp only [Option.bind_eq_bind, Option.some_bind]
    have hacc'0 : 0 ≤ (acc + p.1.2 * lv p.1.1 % m) % m :=
      Int.emod_nonneg _ hm.ne'
    have hacc'm : (acc + p.1.2 * lv p.1.1 % m) % m < m :=
      Int.emod_lt_of_pos _ hm
    obtain ⟨res, hres, h2, h3, h4⟩ := ih _ hacc'0 hacc'm
      (fun q hq => hall q (List.mem_cons_of_mem _ hq))
    refine ⟨res, hres, h2, h3, ?_⟩
    rw [List.map_cons, List.sum_cons]
    refine h4.trans ?_
    have hstep : (acc + p.1.2 * lv p.1.1 % m) % m
        ≡ acc + p.1.2 * lv p.1.1 [ZMOD m] := by
      have h5 : p.1.2 * lv p.1.1 % m ≡ p.1.2 * lv p.1.1 [ZMOD m] :=
        Int.emod_emod_of_dvd _ dvd_rfl
      have h6 : acc + p.1.2 * lv p.1.1 % m
          ≡ acc + p.1.2 * lv p.1.1 [ZMOD m] := Int.ModEq.add_left acc h5
      exact (Int.emod_emod_of_dvd _ dvd_rfl).trans h6
    have h7 := hstep.add_right ((ps.map (fun q => q.1.2 * lv q.1.1)).sum)
    refine h7.trans ?_
    rw [add_assoc]

/-- C4 counterexample: `reconstruct` inverts x-coordinate differences
modulo the modulus, and both provisos of the corrected claim are
necessary.  With modulus `4`, the shares at `x = 1` and `x = 3` produced
by `share_secret(1, 4, 2, 3)` make `inv_mod(2, 4)` raise, so
reconstruction errors (`none`) instead of returning the secret.  With
modulus `5` but `n_shares = 7`, the shares at `x = 1` and `x = 7` of
`share_secret(3, 5, 2, 7)` have x-differences `±6` coprime to `5`, yet
`inv_mod(1 - 7, 5) = 1` is not an inverse (`inv_mod` adds the modulus
only once to a negative argument, leaving `-1`), so reconstruction
silently returns `2` instead of the secret `3`. -/
theorem reconstruct_noncoprime_difference :
    (share_secret 1 4 2 3 [0] = some [(1, 1), (2, 1), (3, 1)] ∧
      reconstruct [((1 : ℤ), 1), ((3 : ℤ), 1)] 4 = none) ∧
    (share_secret 3 5 2 7 [2]
        = some [(1, 0), (2, 2), (3, 4), (4, 1), (5, 3), (6, 0), (7, 2)] ∧
      Int.gcd ((7 : ℤ) - 1) 5 = 1 ∧ Int.gcd ((1 : ℤ) - 7) 5 = 1 ∧
      inv_mod (1 - 7 : ℤ) 5 = some 1 ∧
      reconstruct [((1 : ℤ), 0), ((7 : ℤ), 2)] 5 = some 2) := by
  exact ⟨⟨by decide, by decide⟩,
    by decide, by decide, by decide, by decide, by decide⟩

/-- C4: for any `share_secret(secret, modulus, t, n)` call
(`secret < modulus`, `1 ≤ t ≤ n`, `t - 1` coefficient draws) and any
`t`-or-more of the produced shares whose pairwise x-coordinate differences
are invertible mod the modulus, `reconstruct` returns exactly the secret.
The invertibility proviso is necessary by the counterexample above. -/
theorem shamir_correctness (secret modulus threshold n_shares : ℕ)
    (draws : List ℕ) (xs : List ℕ)
    (hsec : secret < modulus) (hm2 : 2 ≤ modulus)
    (ht1 : 1 ≤ threshold) (htn : threshold ≤ n_shares)
    (hdraws : draws.length + 1 = threshold)
    (hnd : xs.Nodup) (hlen : threshold ≤ xs.length)
    (hmem : ∀ x ∈ xs, 1 ≤ x ∧ x ≤ n_shares)
    (hmlt : n_shares < modulus)
    (hgcd : ∀ x ∈ xs, ∀ y ∈ xs, x ≠ y →
      Int.gcd ((y : ℤ) - (x : ℤ)) (modulus : ℤ) = 1) :
    ∃ shs, share_secret secret modulus threshold n_shares draws = some shs ∧
      (∀ x ∈ xs, (x, polyEval (secret :: draws) modulus x) ∈ shs) ∧
      reconstruct (xs.map (fun (x : ℕ) =>
        ((x : ℤ), ((polyEval (secret :: draws) modulus x : ℕ) : ℤ))))
        (modulus : ℤ) = some (secret : ℤ) := by
  have hmpos : 0 < modulus := by omega
  have hm' : (0 : ℤ) < (modulus : ℤ) := by exact_mod_cast hmpos
  refine ⟨(List.range' 1 n_shares).map (fun x =>
    (x, polyEval (secret :: draws) modulus x)), ?_, ?_, ?_⟩
  · rw [share_secret, if_neg (not_not_intro hsec),
      if_neg (by omega), if_neg (by omega)]
  · intro x hx
    refine List.mem_map_of_mem _ ?_
    have hb := hmem x hx
    rw [List.mem_range'_1]
    omega
  -- the Lagrange basis value at each selected x-coordinate
  have hnv : ∀ x ∈ xs, ∃ L : ℤ,
      lagrangeProduct (modulus : ℤ) (x : ℤ)
        ((xs.filter (· ≠ x)).map (fun (ip : ℕ) => (ip : ℤ))) = some L ∧
      0 ≤ L ∧ L < modulus ∧
      (L : ZMod modulus) =
        ((xs.filter (· ≠ x)).map (fun (ip : ℕ) => (ip : ZMod modulus)
          * ((ip : ZMod modulus) - (x : ZMod modulus))⁻¹)).prod := by
    intro x hx
    have hall : ∀ ip ∈ xs.filter (· ≠ x),
        Int.gcd ((ip : ℤ) - (x : ℤ)) (modulus : ℤ) = 1 ∧
        (x : ℤ) ≤ (modulus : ℤ) + ip := by
      intro ip hip
      obtain ⟨hip1, hip2⟩ := List.mem_filter.mp hip
      have hipne : ip ≠ x := by simpa using hip2
      have hb1 := hmem ip hip1
      have hb2 := hmem x hx
      refine ⟨hgcd x hx ip hip1 (fun he => hipne he.symm), ?_⟩
      have : (x : ℤ) ≤ (modulus : ℤ) := by exact_mod_cast by omega
      have : (0 : ℤ) ≤ (ip : ℤ) := Int.natCast_nonneg ip
      linarith
    obtain ⟨L, hL, h0, h1, h2⟩ := lagrange_fold_spec modulus hmpos x
      (xs.filter (· ≠ x)) 1 (by norm_num) (by exact_mod_cast by omega) hall
    refine ⟨L, ?_, h0, h1, ?_⟩
    · rw [lagrangeProduct]
      exact hL
    · rw [h2]
      push_cast
      ring
  -- a total choice of basis values
  have hnv2 : ∀ x ∈ xs,
      lagrangeProduct (modulus : ℤ) (x : ℤ)
          ((xs.filter (· ≠ x)).map (fun (ip : ℕ) => (ip : ℤ)))
        = some ((lagrangeProduct (modulus : ℤ) (x : ℤ)
          ((xs.filter (· ≠ x)).map (fun (ip : ℕ) => (ip : ℤ)))).getD 0) ∧
      0 ≤ (lagrangeProduct (modulus : ℤ) (x : ℤ)
          ((xs.filter (· ≠ x)).map (fun (ip : ℕ) => (ip : ℤ)))).getD 0 ∧
      (lagrangeProduct (modulus : ℤ) (x : ℤ)
          ((xs.filter (· ≠ x)).map (fun (ip : ℕ) => (ip : ℤ)))).getD 0
        < modulus ∧
      (((lagrangeProduct (modulus : ℤ) (x : ℤ)
          ((xs.filter (· ≠ x)).map (fun (ip : ℕ) => (ip : ℤ)))).getD 0 : ℤ)
            : ZMod modulus)
        = ((xs.filter (· ≠ x)).map (fun (ip : ℕ) => (ip : ZMod modulus)
            * ((ip : ZMod modulus) - (x : ZMod modulus))⁻¹)).prod := by
    intro x hx
    obtain ⟨L, hL, h0, h1, h2⟩ := hnv x hx
    rw [hL]
    simp only [Option.getD_some]
    exact ⟨trivial, h0, h1, h2⟩
  rw [reconstruct, pickEach_map]
  -- the outer fold
  obtain ⟨res, hres, hr0, hr1, hr2⟩ := reconstruct_fold_spec (modulus : ℤ)
    hm' (fun z => (lagrangeProduct (modulus : ℤ) z
      ((xs.filter (fun (x2 : ℕ) => ¬((x2 : ℤ) = z))).map
        (fun (ip : ℕ) => (ip : ℤ)))).getD 0)
    ((pickEach xs).map (fun p =>
      (((((p.1 : ℕ)) : ℤ), ((polyEval (secret :: draws) modulus p.1 : ℕ) : ℤ)),
        p.2.map (fun (x : ℕ) =>
          ((x : ℤ), ((polyEval (secret :: draws) modulus x : ℕ) : ℤ))))))
    0 le_rfl hm'
    (by
      intro p hp
      obtain ⟨q, hq, rfl⟩ := List.mem_map.mp hp
      obtain ⟨hq1, hq2⟩ := pickEach_mem_eq xs hnd q hq
      have hfe : xs.filter (fun (x2 : ℕ) => ¬((x2 : ℤ) = ((q.1 : ℕ) : ℤ)))
          = xs.filter (· ≠ q.1) := by
        refine List.filter_congr ?_
        intro x hx
        simp only [decide_eq_decide]
        constructor
        · intro h he
          exact h (by exact_mod_cast congrArg (Nat.cast : ℕ → ℤ) he)
        · intro h he
          exact h (by exact_mod_cast he)
      show lagrangeProduct (modulus : ℤ) ((q.1 : ℕ) : ℤ)
          ((q.2.map (fun (x : ℕ) =>
            ((x : ℤ), ((polyEval (secret :: draws) modulus x : ℕ) : ℤ)))).map
              Prod.fst)
        = some ((lagrangeProduct (modulus : ℤ) ((q.1 : ℕ) : ℤ)
            ((xs.filter (fun (x2 : ℕ) =>
              ¬((x2 : ℤ) = ((q.1 : ℕ) : ℤ)))).map
              (fun (ip : ℕ) => (ip : ℤ)))).getD 0)
      rw [hq2, List.map_map, hfe]
      exact (hnv2 q.1 hq1).1)
  rw [hres]
  -- identify the sum with the natural Lagrange sum
  have hsum1 : ((pickEach xs).map (fun p =>
      (((((p.1 : ℕ)) : ℤ), ((polyEval (secret :: draws) modulus p.1 : ℕ) : ℤ)),
        p.2.map (fun (x : ℕ) =>
          ((x : ℤ), ((polyEval (secret :: draws) modulus x : ℕ) : ℤ)))))).map
        (fun p => p.1.2 * (lagrangeProduct (modulus : ℤ) p.1.1
          ((xs.filter (fun (x2 : ℕ) => ¬((x2 : ℤ) = p.1.1))).map
            (fun (ip : ℕ) => (ip : ℤ)))).getD 0)
      = xs.map (fun (x : ℕ) =>
          ((polyEval (secret :: draws) modulus x : ℕ) : ℤ)
          * (lagrangeProduct (modulus : ℤ) (x : ℤ)
            ((xs.filter (fun (x2 : ℕ) => ¬((x2 : ℤ) = (x : ℤ)))).map
              (fun (ip : ℕ) => (ip : ℤ)))).getD 0) := by
    rw [List.map_map]
    exact pickEach_map_fst (fun (x : ℕ) =>
      ((polyEval (secret :: draws) modulus x : ℕ) : ℤ)
      * (lagrangeProduct (modulus : ℤ) (x : ℤ)
        ((xs.filter (fun (x2 : ℕ) => ¬((x2 : ℤ) = (x : ℤ)))).map
          (fun (ip : ℕ) => (ip : ℤ)))).getD 0) xs
  rw [hsum1] at hr2
  -- rewrite each summand through the filter identification
  have hsum2 : xs.map (fun (x : ℕ) =>
        ((polyEval (secret :: draws) modulus x : ℕ) : ℤ)
        * (lagrangeProduct (modulus : ℤ) (x : ℤ)
          ((xs.filter (fun (x2 : ℕ) => ¬((x2 : ℤ) = (x : ℤ)))).map
            (fun (ip : ℕ) => (ip : ℤ)))).getD 0)
      = xs.map (fun (x : ℕ) =>
          ((polyEval (secret :: draws) modulus x
            * ((lagrangeProduct (modulus : ℤ) (x : ℤ)
              ((xs.filter (· ≠ x)).map
                (fun (ip : ℕ) => (ip : ℤ)))).getD 0).toNat : ℕ) : ℤ)) := by
    refine List.map_congr_left ?_
    intro x hx
    have hfe : xs.filter (fun (x2 : ℕ) => ¬((x2 : ℤ) = (x : ℤ)))
        = xs.filter (· ≠ x) := by
      refine List.filter_congr ?_
      intro y hy
      simp only [decide_eq_decide]
      constructor
      · intro h he
        exact h (by exact_mod_cast congrArg (Nat.cast : ℕ → ℤ) he)
      · intro h he
        exact h (by exact_mod_cast he)
    rw [hfe]
    have h0 := (hnv2 x hx).2.1
    push_cast [Int.toNat_of_nonneg h0]
    ring
  rw [hsum2] at hr2
  -- the natural-number Lagrange sum
  have hT := @shamir_lagrange_sum modulus secret draws xs hnd
    (by omega)
    (by
      intro x hx
      have := hmem x hx
      omega)
    hgcd 1
    (fun x => ((lagrangeProduct (modulus : ℤ) (x : ℤ)
      ((xs.filter (· ≠ x)).map (fun (ip : ℕ) => (ip : ℤ)))).getD 0))
    (by
      intro x hx
      refine ⟨(hnv2 x hx).2.1, ?_⟩
      rw [(hnv2 x hx).2.2.2]
      push_cast
      ring)
  have hT2 : (xs.map (fun x => polyEval (secret :: draws) modulus x
      * ((lagrangeProduct (modulus : ℤ) (x : ℤ)
        ((xs.filter (· ≠ x)).map
          (fun (ip : ℕ) => (ip : ℤ)))).getD 0).toNat)).sum
      ≡ 1 * secret [MOD modulus] := hT
  rw [one_mul] at hT2
  -- conclude
  have hTZ : ((xs.map (fun x => polyEval (secret :: draws) modulus x
      * ((lagrangeProduct (modulus : ℤ) (x : ℤ)
        ((xs.filter (· ≠ x)).map
          (fun (ip : ℕ) => (ip : ℤ)))).getD 0).toNat)).sum : ℤ)
      % (modulus : ℤ) = (secret : ℤ) % (modulus : ℤ) := by
    rw [Nat.ModEq] at hT2
    omega
  have hsc : ((xs.map (fun (x : ℕ) =>
      ((polyEval (secret :: draws) modulus x
        * ((lagrangeProduct (modulus : ℤ) (x : ℤ)
          ((xs.filter (· ≠ x)).map
            (fun (ip : ℕ) => (ip : ℤ)))).getD 0).toNat : ℕ) : ℤ))).sum)
      = ((xs.map (fun x => polyEval (secret :: draws) modulus x
          * ((lagrangeProduct (modulus : ℤ) (x : ℤ)
            ((xs.filter (· ≠ x)).map
              (fun (ip : ℕ) => (ip : ℤ)))).getD 0).toNat)).sum : ℤ) := by
    rw [Nat.cast_list_sum, List.map_map]
    rfl
  have hfin : res = (secret : ℤ) := by
    have hrs : res % (modulus : ℤ) = (secret : ℤ) % (modulus : ℤ) := by
      have h8 : res % (modulus : ℤ)
          = (0 + (xs.map (fun (x : ℕ) =>
              ((polyEval (secret :: draws) modulus x
                * ((lagrangeProduct (modulus : ℤ) (x : ℤ)
                  ((xs.filter (· ≠ x)).map
                    (fun (ip : ℕ) => (ip : ℤ)))).getD 0).toNat
                : ℕ) : ℤ))).sum) % (modulus : ℤ) := hr2
      rw [zero_add, hsc] at h8
      rw [h8, hTZ]
    have hsl : (secret : ℤ) < (modulus : ℤ) := by exact_mod_cast hsec
    calc res = res % (modulus : ℤ) := (Int.emod_eq_of_lt hr0 hr1).symm
      _ = (secret : ℤ) % (modulus : ℤ) := hrs
      _ = (secret : ℤ) := Int.emod_eq_of_lt (by positivity) hsl
  rw [hfin]

/-- Witness for C4: secret 3, modulus 5, threshold 2 of 3 shares; the
shares at `x = 1, 3` reconstruct to `3`. -/
theorem shamir_correctness_witness :
    (3 : ℕ) < 5 ∧
    ∃ shs, share_secret 3 5 2 3 [1] = some shs ∧
      ((1, polyEval [3, 1] 5 1) ∈ shs ∧ (3, polyEval [3, 1] 5 3) ∈ shs) ∧
      reconstruct [((1 : ℤ), 4), ((3 : ℤ), 1)] 5 = some (3 : ℤ) := by
  refine ⟨by norm_num, ?_⟩
  obtain ⟨shs, h1, h2, h3⟩ := shamir_correctness 3 5 2 3 [1] [1, 3]
    (by norm_num) (by norm_num) (by norm_num) (by norm_num) (by norm_num)
    (by decide) (by norm_num) (by decide) (by norm_num) (by decide)
  refine ⟨shs, h1, ⟨h2 1 (by decide), h2 3 (by decide)⟩, ?_⟩
  have he : ([1, 3].map (fun (x : ℕ) =>
      ((x : ℤ), ((polyEval (3 :: [1]) 5 x : ℕ) : ℤ))))
      = [((1 : ℤ), 4), ((3 : ℤ), 1)] := by decide
  rw [he] at h3
  exact h3

/-- Embeds the electing scan of `stv_tally` (`for i in range(len(c_rem)):
skip the stop candidate, elect `c_rem[i]` when `tallies[i] >= quota`). -/
def electedScan (c_rem : List ℕ) (tallies : List ℤ) (quota : ℤ)
    (stop_candidate : ℕ) : List ℕ :=
  (List.range c_rem.length).foldl (fun acc i =>
    if c_rem.getD i 0 = stop_candidate then acc
    else if tallies.getD i 0 ≥ quota then acc ++ [c_rem.getD i 0] else acc) []

/-- The effect of `eliminate_candidate_set` on the shared candidate row:
the kept columns (`relevant_columns`) are exactly those whose candidate is
not in the eliminated set, in ascending column order; the per-ballot
mix-and-unmix leaves the candidate row itself unchanged. -/
def eliminateRow (candidate_set : List ℕ) (c_rem : List ℕ) : List ℕ :=
  c_rem.filter (fun c => ¬ c ∈ candidate_set)

/-- The `while` loop of `stv_tally`, with the round's decrypted tallies and
the reweighting factor `d_lcm` supplied as oracles `tal` and `dl` (they are
the threshold decryptions the protocol computes each round). The fuel
argument bounds the number of iterations; `none` marks fuel exhaustion and
the `c_rem[None]` crash that occurs when every remaining candidate is the
stop candidate. -/
def stvLoop (stop_candidate : ℕ) (tal : ℕ → List ℤ) (dl : ℕ → ℤ) :
    ℕ → List ℕ → ℤ → ℤ → ℕ → List ℕ → Option (List ℕ)
  | 0, _, _, _, _, _ => none
  | fuel + 1, c_rem, seats, quota, round, result =>
    if (c_rem.length : ℤ)
        - (if stop_candidate ∈ c_rem then 1 else 0) > seats then
      if (electedScan c_rem (tal round) quota stop_candidate).length > 0 then
        stvLoop stop_candidate tal dl fuel
          (eliminateRow (electedScan c_rem (tal round) quota stop_candidate)
            c_rem)
          (seats - (electedScan c_rem (tal round) quota
            stop_candidate).length)
          (quota * dl round) (round + 1)
          (result ++ electedScan c_rem (tal round) quota stop_candidate)
      else
        match selectMinTally c_rem (tal round) stop_candidate with
        | none => none
        | some i => stvLoop stop_candidate tal dl fuel
            (eliminateRow [c_rem.getD i 0] c_rem) seats quota (round + 1)
            result
    else some (result ++ c_rem.filter (fun c => c ≠ stop_candidate))

/-- Every candidate elected by the scan is one of the remaining
candidates. -/
theorem electedScan_subset (c_rem : List ℕ) (tallies : List ℤ) (quota : ℤ)
    (stop_candidate : ℕ) :
    ∀ c ∈ electedScan c_rem tallies quota stop_candidate, c ∈ c_rem := by
  rw [electedScan]
  have hgen : ∀ (L : List ℕ) (acc : List ℕ),
      (∀ c ∈ acc, c ∈ c_rem) → (∀ i ∈ L, i < c_rem.length) →
      ∀ c ∈ L.foldl (fun acc i =>
        if c_rem.getD i 0 = stop_candidate then acc
        else if tallies.getD i 0 ≥ quota then acc ++ [c_rem.getD i 0]
        else acc) acc, c ∈ c_rem := by
    intro L
    induction L with
    | nil => intro acc hacc _ c hc; exact hacc c hc
    | cons i L ih =>
      intro acc hacc hmem c hc
      rw [List.foldl_cons] at hc
      refine ih _ ?_ (fun j hj => hmem j (List.mem_cons_of_mem _ hj)) c hc
      intro c2 hc2
      split at hc2
      · exact hacc c2 hc2
      · split at hc2
        · rcases List.mem_append.mp hc2 with h | h
          · exact hacc c2 h
          · have he : c2 = c_rem.getD i 0 := List.mem_singleton.mp h
            rw [he, List.getD_eq_getElem c_rem 0
              (hmem i (List.mem_cons_self i L))]
            exact List.getElem_mem _
        · exact hacc c2 hc2
  refine hgen _ [] (fun c hc => absurd hc (List.not_mem_nil c)) ?_
  intro i hi
  exact List.mem_range.mp hi

/-- Eliminating a set that hits the row strictly shortens it. -/
theorem eliminateRow_lt (candidate_set : List ℕ) (c_rem : List ℕ)
    (hx : ∃ c ∈ c_rem, c ∈ candidate_set) :
    (eliminateRow candidate_set c_rem).length < c_rem.length := by
  rw [eliminateRow]
  obtain ⟨c, hc1, hc2⟩ := hx
  refine List.length_filter_lt_length_iff_exists.mpr ?_
  exact ⟨c, hc1, by simpa using hc2⟩

/-- Fuel monotonicity of the `stv_tally` loop: any fuel above the current
number of remaining candidates computes the same result. -/
theorem stvLoop_fuel_aux (stop_candidate : ℕ) (tal : ℕ → List ℤ)
    (dl : ℕ → ℤ) : ∀ (n : ℕ) (c_rem : List ℕ), c_rem.length ≤ n →
    ∀ (seats quota : ℤ) (round : ℕ) (result : List ℕ) (fuel : ℕ),
      n < fuel →
      stvLoop stop_candidate tal dl fuel c_rem seats quota round result
        = stvLoop stop_candidate tal dl (n + 1) c_rem seats quota round
            result := by
  intro n
  induction n with
  | zero =>
    intro c_rem hlen seats quota round result fuel hfuel
    obtain ⟨f, rfl⟩ : ∃ f, fuel = f + 1 := ⟨fuel - 1, by omega⟩
    have hnil : c_rem = [] := List.length_eq_zero.mp (by omega)
    subst hnil
    rw [stvLoop, stvLoop]
    by_cases hc : (([] : List ℕ).length : ℤ)
        - (if stop_candidate ∈ ([] : List ℕ) then 1 else 0) > seats
    · rw [if_pos hc, if_pos hc]
      have h1 : electedScan [] (tal round) quota stop_candidate = [] := rfl
      rw [h1]
      rw [if_neg (by simp), if_neg (by simp)]
      have h2 : selectMinTally [] (tal round) stop_candidate = none := rfl
      rw [h2]
    · rw [if_neg hc, if_neg hc]
  | succ n ih =>
    intro c_rem hlen seats quota round result fuel hfuel
    obtain ⟨f, rfl⟩ : ∃ f, fuel = f + 1 := ⟨fuel - 1, by omega⟩
    rw [stvLoop, stvLoop]
    by_cases hc : (c_rem.length : ℤ)
        - (if stop_candidate ∈ c_rem then 1 else 0) > seats
    · rw [if_pos hc, if_pos hc]
      by_cases hel : (electedScan c_rem (tal round) quota
          stop_candidate).length > 0
      · rw [if_pos hel, if_pos hel]
        have hdec : (eliminateRow (electedScan c_rem (tal round) quota
            stop_candidate) c_rem).length < c_rem.length := by
          refine eliminateRow_lt _ _ ?_
          have hne : electedScan c_rem (tal round) quota stop_candidate
              ≠ [] := by
            intro h
            rw [h] at hel
            exact absurd hel (by simp)
          obtain ⟨c, hc2⟩ := List.exists_mem_of_ne_nil _ hne
          exact ⟨c, electedScan_subset c_rem (tal round) quota
            stop_candidate c hc2, hc2⟩
        have hlen2 : (eliminateRow (electedScan c_rem (tal round) quota
            stop_candidate) c_rem).length ≤ n := by omega
        exact ih (eliminateRow (electedScan c_rem (tal round) quota
            stop_candidate) c_rem) hlen2
          (seats - (electedScan c_rem (tal round) quota
            stop_candidate).length)
          (quota * dl round) (round + 1)
          (result ++ electedScan c_rem (tal round) quota stop_candidate)
          f (by omega)
      · rw [if_neg hel, if_neg hel]
        rcases hsel : selectMinTally c_rem (tal round) stop_candidate
          with _ | i
        · rfl
        · obtain ⟨-, hsome⟩ := selectMinTally_inv c_rem (tal round)
            stop_candidate c_rem.length le_rfl
          obtain ⟨hi, hins, -⟩ := hsome i hsel
          have hdec : (eliminateRow [c_rem.getD i 0] c_rem).length
              < c_rem.length := by
            refine eliminateRow_lt _ _ ?_
            refine ⟨c_rem.getD i 0, ?_, List.mem_singleton_self _⟩
            rw [List.getD_eq_getElem c_rem 0 hi]
            exact List.getElem_mem _
          have hlen2 : (eliminateRow [c_rem.getD i 0] c_rem).length ≤ n :=
            by omega
          show stvLoop stop_candidate tal dl f
              (eliminateRow [c_rem.getD i 0] c_rem) seats quota (round + 1)
              result
            = stvLoop stop_candidate tal dl (n + 1)
              (eliminateRow [c_rem.getD i 0] c_rem) seats quota (round + 1)
              result
          exact ih (eliminateRow [c_rem.getD i 0] c_rem) hlen2 seats quota
            (round + 1) result f (by omega)
    · rw [if_neg hc, if_neg hc]

/-- C10: each iteration of the `stv_tally` loop strictly shrinks the
candidate row — the elected set is nonempty in the electing branch, and
the elimination branch removes the selected lowest-tally candidate — so
`len(c_rem)` fuel units suffice: the loop's result is unchanged by any
larger fuel, i.e. it terminates within at most the initial number of
candidates many iterations (for every oracle answer). -/
theorem stv_tally_terminates :
    (∀ (c_rem : List ℕ) (tallies : List ℤ) (quota : ℤ)
        (stop_candidate : ℕ),
      ((electedScan c_rem tallies quota stop_candidate).length > 0 →
        (eliminateRow (electedScan c_rem tallies quota stop_candidate)
          c_rem).length < c_rem.length) ∧
      (∀ i, selectMinTally c_rem tallies stop_candidate = some i →
        (eliminateRow [c_rem.getD i 0] c_rem).length < c_rem.length))
    ∧ ∀ (stop_candidate : ℕ) (tal : ℕ → List ℤ) (dl : ℕ → ℤ)
        (c_rem : List ℕ) (seats quota : ℤ) (round : ℕ) (result : List ℕ)
        (fuel : ℕ), c_rem.length < fuel →
        stvLoop stop_candidate tal dl fuel c_rem seats quota round result
          = stvLoop stop_candidate tal dl (c_rem.length + 1) c_rem seats
              quota round result := by
  constructor
  · intro c_rem tallies quota stop_candidate
    constructor
    · intro hel
      refine eliminateRow_lt _ _ ?_
      have hne : electedScan c_rem tallies quota stop_candidate ≠ [] := by
        intro h
        rw [h] at hel
        exact absurd hel (by simp)
      obtain ⟨c, hc⟩ := List.exists_mem_of_ne_nil _ hne
      exact ⟨c, electedScan_subset c_rem tallies quota stop_candidate c hc,
        hc⟩
    · intro i hsel
      obtain ⟨-, hsome⟩ := selectMinTally_inv c_rem tallies
        stop_candidate c_rem.length le_rfl
      obtain ⟨hi, -, -⟩ := hsome i hsel
      refine eliminateRow_lt _ _ ?_
      refine ⟨c_rem.getD i 0, ?_, List.mem_singleton_self _⟩
      rw [List.getD_eq_getElem c_rem 0 hi]
      exact List.getElem_mem _
  · intro stop_candidate tal dl c_rem seats quota round result fuel hfuel
    exact stvLoop_fuel_aux stop_candidate tal dl c_rem.length c_rem le_rfl
      seats quota round result fuel hfuel

/-- Witness for C10: concrete rows shrink, and fuel 5 equals fuel 3 on a
two-candidate row. -/
theorem stv_tally_terminates_witness :
    ((eliminateRow (electedScan [1, 2] [5, 5] 1 0) [1, 2]).length
      < [1, 2].length) ∧
    ((eliminateRow [List.getD [1, 2] 0 0] [1, 2]).length < [1, 2].length) ∧
    stvLoop 0 (fun _ => [1, 1]) (fun _ => 1) 5 [1, 2] 0 1 0 []
      = stvLoop 0 (fun _ => [1, 1]) (fun _ => 1) ([1, 2].length + 1)
          [1, 2] 0 1 0 [] :=
  ⟨(stv_tally_terminates.1 [1, 2] [5, 5] 1 0).1 (by decide),
   (stv_tally_terminates.1 [1, 2] [1, 1] 1 0).2 0 (by decide),
   stv_tally_terminates.2 0 (fun _ => [1, 1]) (fun _ => 1) [1, 2] 0 1 0 []
     5 (by decide)⟩
